import Mathlib

/-!
# Graph store, partitioner fallback and distributor of the dynamic SSSP program

Shallow embedding of `src/Parralel/graph.cpp` (class `Graph`).

* `std::vector` is a `List`; `operator[]` with an index outside the vector is
  undefined behaviour in C++ and is modelled by `none` (`vecGet`).
* Vertex ids are C `int`s and are modelled by `Int` (arithmetic on them never
  leaves the range of the vector sizes, so no wrap-around is modelled).
* Edge weights are C `float`s.  A weight that is not NaN is modelled by an `Int`, the float
  as a multiple of a fixed unit (every finite float is an integer multiple of the smallest
  positive float).  The graph store only stores weights and compares them with `0`.  NaN
  occurs in update records only (`FloatVal`).  A sum of two floats is the exact sum
  rounded to a float by an explicit rounding function (`Dist.addW`).
-/

namespace PDC

/-- Edge weight (`float` in the source): a float that is not NaN, as a multiple of a fixed
unit. -/
abbrev Weight := Int

/-- Source: `struct Edge { int u, v; float weight; }`. -/
structure Edge where
  u : Int
  v : Int
  weight : Weight
deriving DecidableEq, Repr

/-- Source: the data members of `class Graph` (graph.h). -/
structure Graph where
  V : Int
  E : Int
  edges : List Edge
  adj : List (List (Int × Weight))
  part : List Int
  local_vertices : List Int
  ghost_vertices : List Int
deriving DecidableEq, Repr

/-- Source: `Graph::Graph() : V(0), E(0) {}`. -/
def Graph.empty : Graph :=
  { V := 0, E := 0, edges := [], adj := [], part := [], local_vertices := [], ghost_vertices := [] }

/-- Read of `xs[i]`; `none` is an access outside the vector. -/
def vecGet {α : Type} (xs : List α) (i : Int) : Option α :=
  if 0 ≤ i then xs[i.toNat]? else none

/-- Write of `xs[i] = x` (only used after `vecGet xs i` succeeded). -/
def vecSet {α : Type} (xs : List α) (i : Int) (x : α) : List α :=
  xs.set i.toNat x

/-- The erase/remove_if idiom of `applyUpdates`:
`l.erase(std::remove_if(l.begin(), l.end(), [](p){ return p.first == target; }), l.end())`. -/
def eraseNeighbor (target : Int) : List (Int × Weight) → List (Int × Weight)
  | [] => []
  | p :: rest =>
    if p.1 = target then eraseNeighbor target rest else p :: eraseNeighbor target rest

/-- The search loop of the insertion branch of `applyUpdates`:
`for (auto &neighbor : l) if (neighbor.first == target) { neighbor.second = w; found = true; break; }`.
Returns the list after the loop and whether the loop body set `found`. -/
def overwriteFirst (target : Int) (w : Weight) :
    List (Int × Weight) → List (Int × Weight) × Bool
  | [] => ([], false)
  | p :: rest =>
    if p.1 = target then ((p.1, w) :: rest, true)
    else ((p :: (overwriteFirst target w rest).1), (overwriteFirst target w rest).2)

/-- The two statements `adj[u].emplace_back(v, weight); adj[v].emplace_back(u, weight);`
shared by `loadFromFile` and `addEdge`. -/
def pushBoth (adj : List (List (Int × Weight))) (u v : Int) (weight : Weight) :
    Option (List (List (Int × Weight))) :=
  match vecGet adj u with
  | none => none
  | some lu =>
    let adj1 := vecSet adj u (lu ++ [(v, weight)])
    match vecGet adj1 v with
    | none => none
    | some lv => some (vecSet adj1 v (lv ++ [(u, weight)]))

/-- Source: `Graph::addEdge` (graph.cpp:235-247). -/
def addEdge (g : Graph) (u v : Int) (weight : Weight) : Option Graph :=
  if u < 0 ∨ u ≥ g.V ∨ v < 0 ∨ v ≥ g.V then some g
  else
    match pushBoth g.adj u v weight with
    | none => none
    | some adj2 =>
      some { g with edges := g.edges ++ [⟨u, v, weight⟩], adj := adj2, E := g.E + 1 }

/-- One iteration of the loop of `Graph::applyUpdates` (graph.cpp:251-300). -/
def applyUpdate (g : Graph) (edge : Edge) : Option Graph :=
  if edge.weight < 0 then
    match vecGet g.adj edge.u with
    | none => none
    | some lu =>
      let adj1 := vecSet g.adj edge.u (eraseNeighbor edge.v lu)
      match vecGet adj1 edge.v with
      | none => none
      | some lv =>
        some { g with adj := vecSet adj1 edge.v (eraseNeighbor edge.u lv), E := g.E - 1 }
  else
    match vecGet g.adj edge.u with
    | none => none
    | some lu =>
      let r1 := overwriteFirst edge.v edge.weight lu
      let adj1 := vecSet g.adj edge.u r1.1
      match vecGet adj1 edge.v with
      | none => none
      | some lv =>
        let r2 := overwriteFirst edge.u edge.weight lv
        let g2 := { g with adj := vecSet adj1 edge.v r2.1 }
        if r1.2 || r2.2 then some g2 else addEdge g2 edge.u edge.v edge.weight

/-- Source: `Graph::applyUpdates` (graph.cpp:249-301), the loop over the batch. -/
def applyUpdates (g : Graph) : List Edge → Option Graph
  | [] => some g
  | edge :: rest =>
    match applyUpdate g edge with
    | none => none
    | some g1 => applyUpdates g1 rest

/-! ## Loading -/

/-- A line of the graph file after the header line, as the parsing code sees it. -/
inductive Line where
  /-- An empty line or a line starting with `#`. -/
  | skip
  /-- A line on which `iss >> u >> v >> weight` fails. -/
  | malformed
  /-- A line that parses as `u v weight`. -/
  | edge (u v : Int) (weight : Weight)
deriving DecidableEq, Repr

/-- A graph file whose header `V E` is read: the two numbers and the lines after the
header line. -/
structure GraphFile where
  V : Int
  E : Int
  lines : List Line
deriving DecidableEq, Repr

/-- State of the first reading loop of `loadFromFile`. -/
structure LoadState where
  adj : List (List (Int × Weight))
  edges : List Edge
  edge_count : Int
  remaining : List Line

/-- Source: the loop `while (edge_count < E && std::getline(file, line))`
(graph.cpp:46-81). -/
def loadCounted (V E : Int) (adj : List (List (Int × Weight))) (edges : List Edge)
    (edge_count : Int) : List Line → Option LoadState
  | [] => some ⟨adj, edges, edge_count, []⟩
  | line :: rest =>
    if ¬ edge_count < E then some ⟨adj, edges, edge_count, line :: rest⟩
    else
      match line with
      | .skip => loadCounted V E adj edges edge_count rest
      | .malformed => loadCounted V E adj edges edge_count rest
      | .edge u v weight =>
        if u < 0 ∨ u ≥ V ∨ v < 0 ∨ v ≥ V then loadCounted V E adj edges edge_count rest
        else if u = v then loadCounted V E adj edges edge_count rest
        else
          match pushBoth adj u v weight with
          | none => none
          | some adj2 =>
            loadCounted V E adj2 (edges ++ [⟨u, v, weight⟩]) (edge_count + 1) rest

/-- Source: the loop over the additional lines (graph.cpp:89-115); the result is
`(adj, edges, E)`. -/
def loadExtra (V : Int) (adj : List (List (Int × Weight))) (edges : List Edge) (E : Int) :
    List Line → Option (List (List (Int × Weight)) × List Edge × Int)
  | [] => some (adj, edges, E)
  | line :: rest =>
    match line with
    | .skip => loadExtra V adj edges E rest
    | .malformed => loadExtra V adj edges E rest
    | .edge u v weight =>
      if u < 0 ∨ u ≥ V ∨ v < 0 ∨ v ≥ V then loadExtra V adj edges E rest
      else if u = v then loadExtra V adj edges E rest
      else
        match pushBoth adj u v weight with
        | none => none
        | some adj2 => loadExtra V adj2 (edges ++ [⟨u, v, weight⟩]) (E + 1) rest

/-- What `loadFromFile` finds under the file name, up to the header `V E`. -/
inductive FileContent where
  /-- The file cannot be opened (graph.cpp:14-18). -/
  | unopened
  /-- The extraction of `V` in `file >> V >> E` fails: the member `V` receives `V` (zero, or
  the nearest `int` when the digits do not fit) and the member `E` is not touched. -/
  | badV (V : Int)
  /-- The extraction of `V` succeeds and the extraction of `E` fails: the member `V` holds
  the number read and the member `E` receives `E` (zero, or the nearest `int`). -/
  | badE (V E : Int)
  /-- The header is read; `f` holds the two numbers and the lines after the header. -/
  | graph (f : GraphFile)
deriving DecidableEq, Repr

/-- Source: `Graph::loadFromFile` (graph.cpp:11-118).  After a failed extraction of the
header the function returns at once (graph.cpp:20-24): `V` and `E` keep what the extraction
left in them and `adj` is not resized. -/
def loadFromFile (g : Graph) (file : FileContent) : Option Graph :=
  match file with
  | .unopened => some g
  | .badV V => some { g with V := V }
  | .badE V E => some { g with V := V, E := E }
  | .graph f =>
    if f.V ≤ 0 ∨ f.E ≤ 0 then some { g with V := 0, E := 0 }
    else
      match loadCounted f.V f.E (List.replicate f.V.toNat []) [] 0 f.lines with
      | none => none
      | some st =>
        let E1 := if st.edge_count < f.E then st.edge_count else f.E
        match loadExtra f.V st.adj st.edges E1 st.remaining with
        | none => none
        | some (adj2, edges2, E2) =>
          some { g with V := f.V, E := E2, edges := edges2, adj := adj2 }

/-- Graph states produced by `loadFromFile` on a fresh `Graph` followed by any
sequence of `addEdge` and `applyUpdates` calls that stay inside the vectors. -/
inductive Reachable : Graph → Prop
  | load (file : FileContent) (g : Graph) :
      loadFromFile Graph.empty file = some g → Reachable g
  | addEdge (g g1 : Graph) (u v : Int) (weight : Weight) :
      Reachable g → addEdge g u v weight = some g1 → Reachable g1
  | applyUpdates (g g1 : Graph) (updates : List Edge) :
      Reachable g → applyUpdates g updates = some g1 → Reachable g1

/-! ## Partitioning and distribution -/

/-- The value of `METIS_OK` in `metis.h`. -/
def METIS_OK : Int := 1

/-- Source: `part.resize(n)` (new entries are value-initialised to `0`). -/
def resizePart (part : List Int) (n : Nat) : List Int :=
  (part ++ List.replicate n 0).take n

/-- Body of the fallback loop, `part[v] = v % num_parts;` (graph.cpp:176).  `none` is a
division by zero or a write outside `part`; `%` on C `int`s truncates towards zero. -/
def roundRobinStep (num_parts : Int) (acc : List Int) (v : Nat) : Option (List Int) :=
  if num_parts = 0 then none
  else
    match vecGet acc (v : Int) with
    | none => none
    | some _ => some (vecSet acc (v : Int) (Int.tmod (v : Int) num_parts))

/-- Source: the fallback loop `for (int v = 0; v < V; v++) part[v] = v % num_parts;`
(graph.cpp:174-177). -/
def roundRobin (V num_parts : Int) (part : List Int) : Option (List Int) :=
  (List.range V.toNat).foldlM (roundRobinStep num_parts) part

/-- The largest value of a C `int`. -/
def INT_MAX : Int := 2147483647

/-- Source: the two allocations `new idx_t[V + 1]`, `new idx_t[2 * E]` and `part.resize(V)`
(graph.cpp:132-133, 138).  A negative length makes `new` or `resize` throw and a length
above `INT_MAX` is an overflow of the `int` expression; both are `none`.  The result is
the pair `(xadj, adjncy)`; the fresh elements are indeterminate (here `0`): every element
of `xadj` is written before it is read and `adjncy` is only written. -/
def csrAlloc (g : Graph) : Option (List Int × List Int) :=
  if g.V < 0 ∨ g.V + 1 > INT_MAX ∨ 2 * g.E < 0 ∨ 2 * g.E > INT_MAX then none
  else some (List.replicate (g.V + 1).toNat 0, List.replicate (2 * g.E).toNat 0)

/-- Source: the inner loop of the CSR fill (graph.cpp:144-147),
`adjncy[xadj[i] + j] = adj[i][j].first`, over the entries of `adj[i]` from index `j` on;
`base` is `xadj[i]` and `none` is a write outside `adjncy`. -/
def csrRow (base : Int) : List (Int × Weight) → Nat → List Int → Option (List Int)
  | [], _, adjncy => some adjncy
  | neighbor :: rest, j, adjncy =>
    match vecGet adjncy (base + (j : Int)) with
    | none => none
    | some _ => csrRow base rest (j + 1) (vecSet adjncy (base + (j : Int)) neighbor.1)

/-- Source: the body of the outer loop of the CSR fill (graph.cpp:141-148) on the state
`(xadj, adjncy)`: `xadj[i + 1] = xadj[i] + adj[i].size()`, then the inner loop. -/
def csrStep (adj : List (List (Int × Weight))) (st : List Int × List Int) (i : Nat) :
    Option (List Int × List Int) :=
  match vecGet adj (i : Int), vecGet st.1 (i : Int), vecGet st.1 ((i : Int) + 1) with
  | some row, some xi, some _ =>
    match csrRow xi row 0 st.2 with
    | none => none
    | some adjncy1 => some (vecSet st.1 ((i : Int) + 1) (xi + (row.length : Int)), adjncy1)
  | _, _, _ => none

/-- Source: the preparation of the arguments of the partitioning routine
(graph.cpp:130-148): the allocations, `xadj[0] = 0` and the loop
`for (int i = 0; i < V; i++)` that fills `xadj` and `adjncy`. -/
def csrFill (g : Graph) : Option (List Int × List Int) :=
  match csrAlloc g with
  | none => none
  | some arrays =>
    match vecGet arrays.1 0 with
    | none => none
    | some _ => (List.range g.V.toNat).foldlM (csrStep g.adj) (vecSet arrays.1 0 0, arrays.2)

/-- Source: `Graph::partitionGraph` (graph.cpp:120-203).  The arguments of the routine
`METIS_PartGraphKway` are prepared by `csrFill`; the call of the external routine is
represented by its return code `ret` and by the entries `written` it left in the buffer
`part.data()`.  The statistics printed on success do not change the state. -/
def partitionGraph (g : Graph) (num_parts : Int) (ret : Int) (written : List Int) :
    Option Graph :=
  if g.V = 0 then some g
  else
    let num_parts1 := if num_parts > g.V then g.V else num_parts
    match csrFill g with
    | none => none
    | some _ =>
      let part0 := resizePart g.part g.V.toNat
      let part1 := (written ++ part0).take g.V.toNat
      if ret ≠ METIS_OK then
        match roundRobin g.V num_parts1 part1 with
        | none => none
        | some part2 => some { g with part := part2 }
      else some { g with part := part1 }

/-- Body of the first loop of `distributeGraph`:
`if (part[v] == rank) local_vertices.push_back(v);` (graph.cpp:215-218). -/
def localStep (part : List Int) (rank : Int) (acc : List Int) (v : Nat) : Option (List Int) :=
  match vecGet part (v : Int) with
  | none => none
  | some p => some (if p = rank then acc ++ [(v : Int)] else acc)

/-- Source: the first loop of `Graph::distributeGraph` (graph.cpp:210-219), which
fills `local_vertices`. -/
def localLoop (part : List Int) (rank : Int) (V : Int) : Option (List Int) :=
  (List.range V.toNat).foldlM (localStep part rank) []

/-- Body of the inner loop of the ghost pass (graph.cpp:225-230): the neighbour `u` is
appended when `part[u] != rank` and `std::find` does not find it in `ghost_vertices`. -/
def ghostStep (part : List Int) (rank : Int) (gh : List Int) (neighbor : Int × Weight) :
    Option (List Int) :=
  match vecGet part neighbor.1 with
  | none => none
  | some p => some (if p ≠ rank ∧ neighbor.1 ∉ gh then gh ++ [neighbor.1] else gh)

/-- Body of the outer loop of the ghost pass (graph.cpp:221-232): the inner loop runs over
`adj[v]`. -/
def ghostVisit (adj : List (List (Int × Weight))) (part : List Int) (rank : Int)
    (ghosts : List Int) (v : Int) : Option (List Int) :=
  match vecGet adj v with
  | none => none
  | some l => l.foldlM (ghostStep part rank) ghosts

/-- Source: the second loop of `Graph::distributeGraph` (graph.cpp:221-232), which
fills `ghost_vertices`. -/
def ghostLoop (adj : List (List (Int × Weight))) (part : List Int) (rank : Int)
    (local_vertices : List Int) : Option (List Int) :=
  local_vertices.foldlM (ghostVisit adj part rank) []

/-- Source: `Graph::distributeGraph` (graph.cpp:204-233); `rank` is the result of
`MPI_Comm_rank`. -/
def distributeGraph (g : Graph) (rank : Int) : Option Graph :=
  match localLoop g.part rank g.V with
  | none => none
  | some lv =>
    match ghostLoop g.adj g.part rank lv with
    | none => none
    | some gv => some { g with local_vertices := lv, ghost_vertices := gv }

/-! ## Sequential baseline (`src/Sequencial/serial_execution.cpp`) -/

/-- Source: the data members of the sequential `class Graph`. -/
structure SeqGraph where
  V : Int
  E : Int
  edges : List Edge
  adj : List (List (Int × Weight))
deriving DecidableEq, Repr

/-- Source: the sequential `Graph::addEdge` (serial_execution.cpp:109-150). -/
def Sequential.addEdge (g : SeqGraph) (u v : Int) (weight : Weight) : Option SeqGraph :=
  if u < 0 ∨ u ≥ g.V ∨ v < 0 ∨ v ≥ g.V then some g
  else
    match vecGet g.adj u with
    | none => none
    | some lu =>
      if (overwriteFirst v weight lu).2 then
        -- first loop: the entry for `v` is overwritten, then the entry for `u` in `adj[v]`
        let adj1 := vecSet g.adj u (overwriteFirst v weight lu).1
        match vecGet adj1 v with
        | none => none
        | some lv => some { g with adj := vecSet adj1 v (overwriteFirst u weight lv).1 }
      else
        match vecGet g.adj v with
        | none => none
        | some lv =>
          if (overwriteFirst u weight lv).2 then
            -- second loop: only `adj[v]` knows the pair, the missing entry is appended
            let adj1 := vecSet g.adj v (overwriteFirst u weight lv).1
            match vecGet adj1 u with
            | none => none
            | some lu1 =>
              some { g with
                adj := vecSet adj1 u (lu1 ++ [(v, weight)])
                edges := g.edges ++ [⟨u, v, weight⟩]
                E := g.E + 1 }
          else
            match pushBoth g.adj u v weight with
            | none => none
            | some adj2 =>
              some { g with edges := g.edges ++ [⟨u, v, weight⟩], adj := adj2, E := g.E + 1 }

/-- Source: the sequential `Graph::removeEdge` (serial_execution.cpp:166-196). -/
def Sequential.removeEdge (g : SeqGraph) (u v : Int) : Option SeqGraph :=
  if u < 0 ∨ u ≥ g.V ∨ v < 0 ∨ v ≥ g.V then some g
  else
    match vecGet g.adj u with
    | none => none
    | some lu =>
      let adj1 := vecSet g.adj u (eraseNeighbor v lu)
      match vecGet adj1 v with
      | none => none
      | some lv =>
        some { g with
          edges := g.edges.filter
            (fun e => ¬ ((e.u = u ∧ e.v = v) ∨ (e.u = v ∧ e.v = u)))
          adj := vecSet adj1 v (eraseNeighbor u lv)
          E := g.E - 1 }

/-- Source: the sequential `Graph::applyUpdates` (serial_execution.cpp:152-164). -/
def Sequential.applyUpdates (g : SeqGraph) : List Edge → Option SeqGraph
  | [] => some g
  | edge :: rest =>
    match (if edge.weight < 0 then Sequential.removeEdge g edge.u edge.v
           else Sequential.addEdge g edge.u edge.v edge.weight) with
    | none => none
    | some g1 => Sequential.applyUpdates g1 rest

/-- A distance: `none` is `+infinity` (`std::numeric_limits<float>::infinity()`). -/
abbrev Dist := Option Weight

/-- The comparison `a < b` of two distances. -/
def Dist.lt : Dist → Dist → Bool
  | some a, some b => decide (a < b)
  | some _, none => true
  | none, _ => false

/-- The `float` sum `d + w` of a distance and a weight: the exact sum, rounded to a float
by `fl` (`none` when the sum rounds to `+infinity`); `+infinity + w` is `+infinity`. -/
def Dist.addW (fl : Weight → Dist) (d : Dist) (w : Weight) : Dist :=
  match d with
  | some a => fl (a + w)
  | none => none

/-- The number of low bits of `n` that do not fit into the 24-bit significand of a `float`:
the least `s` with `n < 2 ^ (24 + s)`, searched upwards from `s` with `fuel` steps. -/
def dropBitsFrom (n : Nat) : Nat → Nat → Nat
  | 0, s => s
  | fuel + 1, s => if n < 2 ^ (24 + s) then s else dropBitsFrom n fuel (s + 1)

/-- The least `s` with `n < 2 ^ (24 + s)`. -/
def dropBits (n : Nat) : Nat := dropBitsFrom n n 0

/-- Rounding of a natural number to 24 significant bits, to the nearest such number and to
the even significand on a tie (the default rounding of IEEE 754). -/
def roundNat (n : Nat) : Nat :=
  if 2 * (n % 2 ^ dropBits n) < 2 ^ dropBits n ∨
      (2 * (n % 2 ^ dropBits n) = 2 ^ dropBits n ∧ (n / 2 ^ dropBits n) % 2 = 0) then
    (n / 2 ^ dropBits n) * 2 ^ dropBits n
  else (n / 2 ^ dropBits n + 1) * 2 ^ dropBits n

/-- Rounding to `float` when the unit of `Weight` is `2 ^ (-k)`: the nearest number with
24 significant bits, `+infinity` when that number reaches `2 ^ 128`, which is
`2 ^ (128 + k)` units.  With `k = 149`, the exponent of the smallest positive float, every
finite float is a multiple of the unit and this is the rounding of IEEE 754 single
precision; with `k = 0` the weights are the floats that hold an integer.  A sum below the
finite range would be `-infinity`, which `Dist` does not hold; negative sums are rounded by
magnitude. -/
def roundFloat (k : Nat) (x : Weight) : Dist :=
  if x < 0 then some (-(roundNat x.natAbs : Int))
  else if roundNat x.toNat ≥ 2 ^ (128 + k) then none
  else some (roundNat x.toNat : Int)

/-- Source: the data members of the sequential `class SSSP`. -/
structure SSSP where
  dist : List Dist
  parent : List Int
deriving DecidableEq, Repr

/-- Source: the constructor `SSSP(int V)`. -/
def SSSP.create (V : Int) : SSSP :=
  { dist := List.replicate V.toNat none, parent := List.replicate V.toNat (-1) }

/-- The error `initialize` reports on `std::cerr`. -/
inductive SSSPError where
  /-- The message `Error: Invalid source vertex`. -/
  | invalidSource
deriving DecidableEq, Repr

/-- Source: `SSSP::initialize` (serial_execution.cpp:208-219).  The result is the state
after the call and the error reported, if any. -/
def SSSP.initialize (s : SSSP) (source : Int) : SSSP × Option SSSPError :=
  if source < 0 ∨ source ≥ (s.dist.length : Int) then (s, some SSSPError.invalidSource)
  else
    ({ dist := vecSet (List.replicate s.dist.length none) source (some 0)
       parent := List.replicate s.parent.length (-1) }, none)

/-- The order of `std::pair<float, int>` (`operator<`), used through `std::greater`. -/
def pairLt (a b : Dist × Int) : Bool :=
  Dist.lt a.1 b.1 || (!Dist.lt b.1 a.1 && decide (a.2 < b.2))

/-- The priority queue `std::priority_queue<P, std::vector<P>, std::greater<P>>` as a list
kept in ascending order: `emplace` inserts in order, `top` is the head, `pop` drops it. -/
def pqPush (x : Dist × Int) : List (Dist × Int) → List (Dist × Int)
  | [] => [x]
  | y :: rest => if pairLt y x then y :: pqPush x rest else x :: y :: rest

/-- What can stop the model of `dijkstra`: an index outside a vector, or no fuel left. -/
inductive Fault where
  /-- An access outside `dist`, `parent` or `adj`. -/
  | outOfRange
  /-- The iteration budget of the model is used up. -/
  | outOfFuel
deriving DecidableEq, Repr

/-- The variables of `SSSP::dijkstra` during the loop. -/
structure DijkstraState where
  dist : List Dist
  parent : List Int
  pq : List (Dist × Int)
deriving DecidableEq, Repr

/-- Source: the loop over `graph.adj[u]` in `dijkstra` (serial_execution.cpp:238-249);
`fl` is the rounding of the `float` sum `dist[u] + weight`. -/
def relaxNeighbors (fl : Weight → Dist) (u : Int) :
    List (Int × Weight) → DijkstraState → Except Fault DijkstraState
  | [], st => .ok st
  | neighbor :: rest, st =>
    match vecGet st.dist neighbor.1, vecGet st.dist u with
    | some dv, some du =>
      if Dist.lt (Dist.addW fl du neighbor.2) dv then
        match vecGet st.parent neighbor.1 with
        | none => .error Fault.outOfRange
        | some _ =>
          relaxNeighbors fl u rest
            { dist := vecSet st.dist neighbor.1 (Dist.addW fl du neighbor.2)
              parent := vecSet st.parent neighbor.1 u
              pq := pqPush (Dist.addW fl du neighbor.2, neighbor.1) st.pq }
      else relaxNeighbors fl u rest st
    | _, _ => .error Fault.outOfRange

/-- Source: one iteration of the `while` loop of `dijkstra` after `pq.pop()`
(serial_execution.cpp:231-249); `(d, u)` is the popped pair. -/
def dijkstraStep (fl : Weight → Dist) (adj : List (List (Int × Weight))) (d : Dist) (u : Int)
    (st : DijkstraState) : Except Fault DijkstraState :=
  match vecGet st.dist u with
  | none => .error Fault.outOfRange
  | some du =>
    if Dist.lt du d then .ok st
    else
      match vecGet adj u with
      | none => .error Fault.outOfRange
      | some l => relaxNeighbors fl u l st

/-- Source: the loop `while (!pq.empty())` of `dijkstra` (serial_execution.cpp:229-250),
with an iteration budget. -/
def dijkstraLoop (fl : Weight → Dist) (adj : List (List (Int × Weight))) :
    Nat → DijkstraState → Except Fault DijkstraState
  | 0, st =>
    match st.pq with
    | [] => .ok st
    | _ :: _ => .error Fault.outOfFuel
  | fuel + 1, st =>
    match st.pq with
    | [] => .ok st
    | top :: rest =>
      match dijkstraStep fl adj top.1 top.2 { st with pq := rest } with
      | .error f => .error f
      | .ok st1 => dijkstraLoop fl adj fuel st1

/-- Source: `SSSP::dijkstra` (serial_execution.cpp:221-253); `fl` is the rounding of the
`float` sums. -/
def SSSP.dijkstra (fl : Weight → Dist) (s : SSSP) (graph : SeqGraph) (source : Int)
    (fuel : Nat) : Except Fault SSSP :=
  match dijkstraLoop fl graph.adj fuel
      { dist := ( SSSP.initialize s source).1.dist
        parent := ( SSSP.initialize s source).1.parent
        pq := pqPush (some 0, source) [] } with
  | .error f => .error f
  | .ok st => .ok { dist := st.dist, parent := st.parent }

/-! ## Classification of the update batch in `main` -/

/-- Source: the lookup loop of `main` (main.cpp:257-265): `delete_edge.weight` starts as
`-1.0f` and takes the weight of the first entry of `adj[e.u]` whose neighbour is `e.v`. -/
def lookupWeight (v : Int) : List (Int × Weight) → Weight
  | [] => -1
  | adj_edge :: rest => if adj_edge.1 = v then adj_edge.2 else lookupWeight v rest

/-- The weight of an update record as the comparisons of the program see it: a number, or
NaN (`loadUpdates` reads the weight with `std::stof`, which accepts `nan`; utils.cpp:49). -/
inductive FloatVal where
  /-- A value that is not NaN. -/
  | num (w : Weight)
  /-- Not a number: every comparison with it is false. -/
  | nan
deriving DecidableEq, Repr

/-- The comparison `x >= 0` on a `float`. -/
def FloatVal.geZero : FloatVal → Bool
  | .num w => decide (0 ≤ w)
  | .nan => false

/-- The comparison `x < 0` on a `float`. -/
def FloatVal.ltZero : FloatVal → Bool
  | .num w => decide (w < 0)
  | .nan => false

/-- Source: `struct Edge` (graph.h:9-13) as an element of `all_updates`, `inserts` and
`deletes` in `main`; its weight may be NaN. -/
structure UpdateRecord where
  u : Int
  v : Int
  weight : FloatVal
deriving DecidableEq, Repr

/-- The update record that holds the number `e.weight`. -/
def Edge.toUpdate (e : Edge) : UpdateRecord := ⟨e.u, e.v, .num e.weight⟩

/-- Body of the classification loop of `main` (main.cpp:249-268); the state is
`(inserts, deletes)`.  A record whose weight fails the test `e.weight >= 0` (a negative
weight or NaN) takes the `else` branch. -/
def classifyStep (adj : List (List (Int × Weight)))
    (acc : List UpdateRecord × List UpdateRecord) (e : UpdateRecord) :
    Option (List UpdateRecord × List UpdateRecord) :=
  if e.weight.geZero then some (acc.1 ++ [e], acc.2)
  else
    match vecGet adj e.u with
    | none => none
    | some l => some (acc.1, acc.2 ++ [⟨e.u, e.v, .num (lookupWeight e.v l)⟩])

/-- Source: the classification of `all_updates` into `(inserts, deletes)` in `main`
(main.cpp:248-268), which runs before `graph.applyUpdates(all_updates)`. -/
def classifyUpdates (g : Graph) (all_updates : List UpdateRecord) :
    Option (List UpdateRecord × List UpdateRecord) :=
  all_updates.foldlM (classifyStep g.adj) ([], [])

/-! ## Rebroadcast of the updated graph in `main` -/

/-- Body of the inner loop of the rebroadcast on rank 0 (main.cpp:287-296):
`if (u < v) updated_edges.push_back({u, v, weight});` for the entry `neighbor` of
`graph.adj[u]`. -/
def collectStep (u : Int) (updated_edges : List Edge) (neighbor : Int × Weight) : List Edge :=
  if u < neighbor.1 then updated_edges ++ [⟨u, neighbor.1, neighbor.2⟩] else updated_edges

/-- Body of the outer loop of the rebroadcast on rank 0 (main.cpp:285-297): the inner loop
runs over `graph.adj[u]`. -/
def collectVisit (adj : List (List (Int × Weight))) (updated_edges : List Edge) (u : Nat) :
    Option (List Edge) :=
  match vecGet adj (u : Int) with
  | none => none
  | some l => some (l.foldl (collectStep (u : Int)) updated_edges)

/-- Source: the edge list built on rank 0 after `applyUpdates` (main.cpp:281-299); the
result is `(updated_edges, num_edges)` with `num_edges = updated_edges.size()`. -/
def buildEdgeList (g : Graph) : Option (List Edge × Int) :=
  match (List.range g.V.toNat).foldlM (collectVisit g.adj) [] with
  | none => none
  | some updated_edges => some (updated_edges, (updated_edges.length : Int))

/-- Body of the rebuilding loop on a rank other than 0 (main.cpp:310-314):
`graph.adj[edge.u].emplace_back(edge.v, edge.weight);
graph.adj[edge.v].emplace_back(edge.u, edge.weight);`. -/
def rebuildStep (adj : List (List (Int × Weight))) (edge : Edge) :
    Option (List (List (Int × Weight))) :=
  pushBoth adj edge.u edge.v edge.weight

/-- Source: the rebuild on a rank other than 0 from the received list (main.cpp:306-317):
`graph.adj.clear(); graph.adj.resize(graph.V);`, the loop over `updated_edges`, then
`graph.edges = updated_edges; graph.E = num_edges;`. -/
def rebuildGraph (g : Graph) (updated_edges : List Edge) (num_edges : Int) : Option Graph :=
  match updated_edges.foldlM rebuildStep (List.replicate g.V.toNat []) with
  | none => none
  | some adj2 => some { g with adj := adj2, edges := updated_edges, E := num_edges }

/-- The redistribution of the updated graph in `main` (main.cpp:280-317) as seen by a rank
other than 0: `root` is the state of rank 0 after `applyUpdates`, `worker` the state of the
other rank, which receives `num_edges` and `updated_edges` through the two `MPI_Bcast`s. -/
def rebroadcast (root worker : Graph) : Option Graph :=
  match buildEdgeList root with
  | none => none
  | some r => rebuildGraph worker r.1 r.2

/-! ## Views used in the statements -/

/-- The adjacency list `adj[u]`, empty when `u` is not an index of `adj`. -/
def nbrsOf (adj : List (List (Int × Weight))) (u : Int) : List (Int × Weight) :=
  (vecGet adj u).getD []

/-- The adjacency list `adj[u]` of a graph. -/
def Graph.nbrs (g : Graph) (u : Int) : List (Int × Weight) := nbrsOf g.adj u

/-- Class invariant set up by `loadFromFile`: `adj` has exactly `V` lists. -/
def Graph.WF (g : Graph) : Prop := (g.adj.length : Int) = g.V

instance (g : Graph) : Decidable g.WF := by unfold Graph.WF; infer_instance

/-- The list `l` has an entry for neighbour `v`. -/
def hasNeighbor (l : List (Int × Weight)) (v : Int) : Prop := ∃ e ∈ l, e.1 = v

instance (l : List (Int × Weight)) (v : Int) : Decidable (hasNeighbor l v) := by
  unfold hasNeighbor; infer_instance

/-- Weight of the first entry for neighbour `v` in `l`. -/
def weightOf (l : List (Int × Weight)) (v : Int) : Option Weight :=
  (l.find? (fun e => e.1 = v)).map Prod.snd

/-- Vertex `u` is a vertex of the graph: `u ∈ [0, V)`. -/
def Graph.inRange (g : Graph) (u : Int) : Prop := 0 ≤ u ∧ u < g.V

instance (g : Graph) (u : Int) : Decidable (g.inRange u) := by
  unfold Graph.inRange; infer_instance

/-- Undirectedness: `(v, w)` occurs in `adj[u]` as often as `(u, w)` occurs in `adj[v]`. -/
def Graph.Symmetric (g : Graph) : Prop :=
  ∀ u v : Int, ∀ w : Weight, List.count (v, w) (g.nbrs u) = List.count (u, w) (g.nbrs v)

/-- Finite check of undirectedness: every stored entry has as many copies as its mirror
entry (see `symmetric_of_symCheck`). -/
def Graph.symCheck (g : Graph) : Prop :=
  ∀ u ∈ List.range g.adj.length, ∀ e ∈ g.nbrs (u : Int),
    List.count e (g.nbrs (u : Int)) = List.count ((u : Int), e.2) (g.nbrs e.1)

instance (g : Graph) : Decidable g.symCheck := by unfold Graph.symCheck; infer_instance

/-- No parallel edges: every adjacency list has at most one entry per neighbour. -/
def Graph.NoParallel (g : Graph) : Prop := ∀ l ∈ g.adj, (l.map Prod.fst).Nodup

instance (g : Graph) : Decidable g.NoParallel := by unfold Graph.NoParallel; infer_instance

/-- Every stored weight is non-negative. -/
def Graph.NonNegWeights (g : Graph) : Prop := ∀ l ∈ g.adj, ∀ e ∈ l, 0 ≤ e.2

instance (g : Graph) : Decidable g.NonNegWeights := by
  unfold Graph.NonNegWeights; infer_instance

/-- Two records name the same unordered vertex pair. -/
def samePair (a b : Edge) : Prop := (a.u = b.u ∧ a.v = b.v) ∨ (a.u = b.v ∧ a.v = b.u)

instance (a b : Edge) : Decidable (samePair a b) := by unfold samePair; infer_instance

/-- The inverse of one record with respect to the graph `g` the batch is applied to: a
deletion becomes an insertion with the weight the edge has in `g`, an insertion becomes a
deletion (weight `-1`, the marker `loadUpdates` uses). -/
def invertRecord (g : Graph) (r : Edge) : Edge :=
  if r.weight < 0 then ⟨r.u, r.v, (weightOf (g.nbrs r.u) r.v).getD 0⟩ else ⟨r.u, r.v, -1⟩

/-- The inverse of a batch: every record is inverted, the order is kept. -/
def inverseBatch (g : Graph) (batch : List Edge) : List Edge :=
  batch.map (invertRecord g)

/-- Batches of the round-trip law: in-range records on pairwise distinct vertex pairs,
each a deletion of a present edge or an insertion of an absent edge. -/
def RoundTripBatch (g : Graph) (batch : List Edge) : Prop :=
  (∀ r ∈ batch, g.inRange r.u ∧ g.inRange r.v ∧
    (if r.weight < 0 then hasNeighbor (g.nbrs r.u) r.v else ¬ hasNeighbor (g.nbrs r.u) r.v)) ∧
  batch.Pairwise (fun a b => ¬ samePair a b)

instance (g : Graph) (batch : List Edge) : Decidable (RoundTripBatch g batch) := by
  unfold RoundTripBatch; infer_instance

/-- Same adjacency structure: every vertex has the same set of `(neighbour, weight)` pairs. -/
def SameAdjacency (g h : Graph) : Prop := ∀ u : Int, ∀ e : Int × Weight, e ∈ h.nbrs u ↔ e ∈ g.nbrs u

/-- Effect of `pushBoth` on the adjacency seen as a function of the vertex. -/
def pushF (f : Int → List (Int × Weight)) (u v : Int) (w : Weight) : Int → List (Int × Weight) :=
  Function.update (Function.update f u (f u ++ [(v, w)])) v
    (Function.update f u (f u ++ [(v, w)]) v ++ [(u, w)])

/-- Effect of the deletion branch on the adjacency seen as a function of the vertex. -/
def delF (f : Int → List (Int × Weight)) (u v : Int) : Int → List (Int × Weight) :=
  Function.update (Function.update f u (eraseNeighbor v (f u))) v
    (eraseNeighbor u (Function.update f u (eraseNeighbor v (f u)) v))

/-- Effect of the two search loops of the insertion branch on the adjacency seen as a
function of the vertex. -/
def owF (f : Int → List (Int × Weight)) (u v : Int) (w : Weight) : Int → List (Int × Weight) :=
  Function.update (Function.update f u (overwriteFirst v w (f u)).1) v
    (overwriteFirst u w (Function.update f u (overwriteFirst v w (f u)).1 v)).1

/-- The record touches the entry for neighbour `k` in the list of vertex `x`. -/
def touches (r : Edge) (x k : Int) : Prop := (x = r.u ∧ k = r.v) ∨ (x = r.v ∧ k = r.u)

/-- Net change of `E` caused by a batch: `-1` per deletion record, `+1` per other record. -/
def netCount : List Edge → Int
  | [] => 0
  | r :: rest => (if r.weight < 0 then -1 else 1) + netCount rest

/-- No self-loops: no list `adj[u]` has an entry for `u` itself. -/
def Graph.NoSelfLoops (g : Graph) : Prop :=
  ∀ u ∈ List.range g.adj.length, ∀ e ∈ g.nbrs (u : Int), e.1 ≠ (u : Int)

instance (g : Graph) : Decidable g.NoSelfLoops := by unfold Graph.NoSelfLoops; infer_instance

/-- The weights of the entries for neighbour `k` in `l`, in list order. -/
def wseq (l : List (Int × Weight)) (k : Int) : List Weight :=
  (l.filter (fun e => decide (e.1 = k))).map Prod.snd

/-- Replace the head of a list of weights. -/
def setHead (w : Weight) : List Weight → List Weight
  | [] => []
  | _ :: t => w :: t

/-- Ordered undirectedness: the weights stored for `v` in `adj[u]` are, in order, the weights
stored for `u` in `adj[v]`.  This is the inductive form of `Graph.Symmetric`. -/
def SeqSym (f : Int → List (Int × Weight)) : Prop := ∀ u v : Int, wseq (f u) v = wseq (f v) u

/-- Every adjacency list, seen as a function of the vertex, has pairwise distinct
neighbours (the function form of `Graph.NoParallel`). -/
def KeyNodup (f : Int → List (Int × Weight)) : Prop := ∀ x : Int, ((f x).map Prod.fst).Nodup

/-- In-range adjacency: every stored neighbour is a vertex of the graph. -/
def Graph.AdjInRange (g : Graph) : Prop := ∀ l ∈ g.adj, ∀ e ∈ l, 0 ≤ e.1 ∧ e.1 < g.V

instance (g : Graph) : Decidable g.AdjInRange := by unfold Graph.AdjInRange; infer_instance

/-- The sequential graph has `V` adjacency lists. -/
def SeqGraph.WF (g : SeqGraph) : Prop := (g.adj.length : Int) = g.V

instance (g : SeqGraph) : Decidable g.WF := by unfold SeqGraph.WF; infer_instance

/-- In-range adjacency of the sequential graph. -/
def SeqGraph.AdjInRange (g : SeqGraph) : Prop := ∀ l ∈ g.adj, ∀ e ∈ l, 0 ≤ e.1 ∧ e.1 < g.V

instance (g : SeqGraph) : Decidable g.AdjInRange := by
  unfold SeqGraph.AdjInRange; infer_instance

/-- Non-negative weights of the sequential graph. -/
def SeqGraph.NonNegWeights (g : SeqGraph) : Prop := ∀ l ∈ g.adj, ∀ e ∈ l, 0 ≤ e.2

instance (g : SeqGraph) : Decidable g.NonNegWeights := by
  unfold SeqGraph.NonNegWeights; infer_instance

/-- The entry `dist[v]`, `+infinity` when `v` is not an index of `dist`. -/
def distAt (dist : List Dist) (v : Int) : Dist := (vecGet dist v).getD none

/-- The entry `parent[v]`, `-1` when `v` is not an index of `parent`. -/
def parentAt (parent : List Int) (v : Int) : Int := (vecGet parent v).getD (-1)

/-- The properties of the rounding of `float` sums that the proofs use: rounding is
monotone, a float rounds to itself, and zero is a float. -/
structure IsRounding (fl : Weight → Dist) : Prop where
  mono : ∀ a b : Weight, a ≤ b → Dist.lt (fl b) (fl a) = false
  idem : ∀ a b : Weight, fl a = some b → fl b = some b
  zero : fl 0 = some 0

/-- No rounding: the exact sum. -/
def exactSum (x : Weight) : Dist := some x

/-- A path from `source` to a vertex with its total weight: a sequence of consecutive
adjacency entries whose weights are added in path order, every sum being rounded by `fl`
(with `exactSum` the total is the exact sum of the weights). -/
inductive Walk (fl : Weight → Dist) (adj : List (List (Int × Weight))) (source : Int) :
    Int → Dist → Prop
  | nil : Walk fl adj source source (some 0)
  | step (u v : Int) (d : Dist) (w : Weight) :
      Walk fl adj source u d → (v, w) ∈ nbrsOf adj u → Walk fl adj source v (Dist.addW fl d w)

/-- Contribution of one distance to `infCount`. -/
def infUnit : Dist → Nat
  | none => 1
  | some _ => 0

/-- Contribution of one distance to `finSum`. -/
def finUnit : Dist → Nat
  | none => 0
  | some a => a.toNat

/-- Number of vertices at distance `+infinity`. -/
def infCount (l : List Dist) : Nat := (l.map infUnit).sum

/-- Sum of the finite distances. -/
def finSum (l : List Dist) : Nat := (l.map finUnit).sum

/-- Termination measure of the loop of `dijkstra`, ordered lexicographically: a relaxation
lowers a distance and a stale pop shortens the queue. -/
def dMeasure (st : DijkstraState) : ℕ ×ₗ ℕ :=
  toLex (infCount st.dist, 2 * finSum st.dist + st.pq.length)

/-- All edges leaving `x` are relaxed with respect to the value `d` of `dist[x]`. -/
def relaxedAt (fl : Weight → Dist) (adj : List (List (Int × Weight))) (dist : List Dist)
    (x : Int) (d : Weight) : Prop :=
  ∀ e ∈ nbrsOf adj x, Dist.lt (fl (d + e.2)) (distAt dist e.1) = false

/-- Finite check that every edge is relaxed with respect to `dist` (see
`relaxed_of_check`). -/
def relaxedCheck (fl : Weight → Dist) (adj : List (List (Int × Weight))) (dist : List Dist) :
    Prop :=
  ∀ u ∈ List.range adj.length, ∀ e ∈ nbrsOf adj (u : Int),
    Dist.lt (Dist.addW fl (distAt dist (u : Int)) e.2) (distAt dist e.1) = false

instance (fl : Weight → Dist) (adj : List (List (Int × Weight))) (dist : List Dist) :
    Decidable (relaxedCheck fl adj dist) := by
  unfold relaxedCheck; infer_instance

/-- The part of the loop invariant of `dijkstra` that holds at every program point. -/
structure BaseInv (fl : Weight → Dist) (adj : List (List (Int × Weight))) (source n : Int)
    (st : DijkstraState) : Prop where
  lenD : (st.dist.length : Int) = n
  lenP : (st.parent.length : Int) = n
  pqR : ∀ x ∈ st.pq, 0 ≤ x.2 ∧ x.2 < n
  pqFin : ∀ x ∈ st.pq, ∃ a, distAt st.dist x.2 = some a
  src : distAt st.dist source = some 0
  nonneg : ∀ v d, distAt st.dist v = some d → 0 ≤ d
  isFloat : ∀ v d, distAt st.dist v = some d → fl d = some d
  real : ∀ v d, distAt st.dist v = some d → Walk fl adj source v (some d)
  par : ∀ v d, v ≠ source → distAt st.dist v = some d →
    ∃ w dp, (v, w) ∈ nbrsOf adj (parentAt st.parent v) ∧
      distAt st.dist (parentAt st.parent v) = some dp ∧ Dist.lt (some d) (fl (dp + w)) = false
  parS : parentAt st.parent source = -1
  parInf : ∀ v, distAt st.dist v = none → parentAt st.parent v = -1

/-- Loop invariant of `while (!pq.empty())`: a vertex with a finite distance is queued with
that distance or all its edges are relaxed. -/
structure DInv (fl : Weight → Dist) (adj : List (List (Int × Weight))) (source n : Int)
    (st : DijkstraState) : Prop where
  base : BaseInv fl adj source n st
  queued : ∀ x d, distAt st.dist x = some d →
    (some d, x) ∈ st.pq ∨ relaxedAt fl adj st.dist x d

/-- Invariant of the loop over `adj[u]`: `dist[u] = a` and the entries in `done` are
relaxed. -/
structure RInv (fl : Weight → Dist) (adj : List (List (Int × Weight))) (source n u : Int)
    (a : Weight) (done : List (Int × Weight)) (st : DijkstraState) : Prop where
  base : BaseInv fl adj source n st
  du : distAt st.dist u = some a
  queued : ∀ x d, x ≠ u → distAt st.dist x = some d →
    (some d, x) ∈ st.pq ∨ relaxedAt fl adj st.dist x d
  doneRel : ∀ e ∈ done, Dist.lt (fl (a + e.2)) (distAt st.dist e.1) = false

/-- The records the rebroadcast emits for vertex `u` with adjacency list `l`. -/
def edgesOfVertex (u : Int) (l : List (Int × Weight)) : List Edge :=
  (l.filter (fun nb => decide (u < nb.1))).map (fun nb => (⟨u, nb.1, nb.2⟩ : Edge))

/-- Number of adjacency entries stored in `adj` (two per undirected edge). -/
def entryCount (adj : List (List (Int × Weight))) : Nat := (adj.map List.length).sum

/-- The state of rank 0 after the deletion record `(0, 1, -1)` on `parallelGraph`: both
entries of the pair are erased and `E` is decremented once. -/
def parallelDeleted : Graph :=
  { V := 2, E := 1, edges := [⟨0, 1, 1⟩, ⟨0, 1, 2⟩], adj := [[], []],
    part := [], local_vertices := [], ghost_vertices := [] }

/-- The records the two reading loops of `loadFromFile` store: the lines that parse as
`u v weight` with both indices in `[0, V)` and `u ≠ v`, in file order. -/
def storedEdges (V : Int) : List Line → List Edge
  | [] => []
  | .skip :: rest => storedEdges V rest
  | .malformed :: rest => storedEdges V rest
  | .edge u v weight :: rest =>
    if u < 0 ∨ u ≥ V ∨ v < 0 ∨ v ≥ V then storedEdges V rest
    else if u = v then storedEdges V rest
    else ⟨u, v, weight⟩ :: storedEdges V rest

/-- The file names every vertex pair it stores once: the stored records name pairwise
distinct unordered pairs. -/
def FileContent.DistinctPairs : FileContent → Prop
  | .graph f => (storedEdges f.V f.lines).Pairwise (fun a b => ¬ samePair a b)
  | _ => True

instance (file : FileContent) : Decidable file.DistinctPairs := by
  cases file <;> unfold FileContent.DistinctPairs <;> infer_instance

/-- Graph states produced by `loadFromFile` on a fresh `Graph` from a file that names every
pair once, followed by any sequence of `addEdge` calls for a pair `u ≠ v` that is not stored
and of `applyUpdates` calls whose records have `u ≠ v` (calls that stay inside the
vectors). -/
inductive ReachableOnce : Graph → Prop
  | load (file : FileContent) (g : Graph) :
      file.DistinctPairs → loadFromFile Graph.empty file = some g → ReachableOnce g
  | addEdge (g g1 : Graph) (u v : Int) (weight : Weight) :
      ReachableOnce g → u ≠ v → ¬ hasNeighbor (g.nbrs u) v →
      addEdge g u v weight = some g1 → ReachableOnce g1
  | applyUpdates (g g1 : Graph) (updates : List Edge) :
      ReachableOnce g → (∀ e ∈ updates, e.u ≠ e.v) →
      applyUpdates g updates = some g1 → ReachableOnce g1

/-! ## Sample inputs -/

/-- The graph loaded from the file `3 2 / 0 1 16777216 / 1 2 1`: the sum `16777216 + 1`
is not a `float` and rounds to `16777216`. -/
def graphRound : SeqGraph :=
  { V := 3, E := 2, edges := [⟨0, 1, 16777216⟩, ⟨1, 2, 1⟩],
    adj := [[(1, 16777216)], [(0, 16777216), (2, 1)], [(1, 1)]] }

/-- Scenario S2 after the deletion of the edge `{1, 2}`. -/
def graphS2Deleted : SeqGraph :=
  { V := 4, E := 3, edges := [⟨0, 1, 1⟩, ⟨2, 3, 1⟩, ⟨0, 3, 10⟩],
    adj := [[(1, 1), (3, 10)], [(0, 1)], [(3, 1)], [(2, 1), (0, 10)]] }

/-- Scenario S4 of the specification: `V = 3`, the single edge `(0, 1, 2)`. -/
def graphS4 : SeqGraph :=
  { V := 3, E := 1, edges := [⟨0, 1, 2⟩], adj := [[(1, 2)], [(0, 2)], []] }

/-- Scenario S2 of the specification: `V = 4`, edges `(0,1,1), (1,2,1), (2,3,1), (0,3,10)`. -/
def graphS2 : SeqGraph :=
  { V := 4, E := 4, edges := [⟨0, 1, 1⟩, ⟨1, 2, 1⟩, ⟨2, 3, 1⟩, ⟨0, 3, 10⟩],
    adj := [[(1, 1), (3, 10)], [(0, 1), (2, 1)], [(1, 1), (3, 1)], [(2, 1), (0, 10)]] }

/-- The graph `sampleUpdated` (path `0 - 1 - 2`) with the partition map `[0, 0, 1]`. -/
def samplePartitioned : Graph :=
  { V := 3, E := 2, edges := [⟨0, 1, 5⟩, ⟨1, 2, 4⟩],
    adj := [[(1, 5)], [(0, 5), (2, 4)], [(1, 4)]],
    part := [0, 0, 1], local_vertices := [], ghost_vertices := [] }

/-- The state of `sampleGraph` after the batch `[(1, 2, 4)]`. -/
def sampleUpdated : Graph :=
  { V := 3, E := 2, edges := [⟨0, 1, 5⟩, ⟨1, 2, 4⟩],
    adj := [[(1, 5)], [(0, 5), (2, 4)], [(1, 4)]],
    part := [], local_vertices := [], ghost_vertices := [] }

/-- The graph loaded from the file `2 2 / 0 1 1 / 0 1 2`, which lists the pair `{0, 1}` twice. -/
def parallelGraph : Graph :=
  { V := 2, E := 2, edges := [⟨0, 1, 1⟩, ⟨0, 1, 2⟩],
    adj := [[(1, 1), (1, 2)], [(0, 1), (0, 2)]],
    part := [], local_vertices := [], ghost_vertices := [] }

/-- A path graph on three vertices with the single edge `{0, 1}` of weight `5`. -/
def sampleGraph : Graph :=
  { V := 3, E := 1, edges := [⟨0, 1, 5⟩], adj := [[(1, 5)], [(0, 5)], []],
    part := [], local_vertices := [], ghost_vertices := [] }

/-- The graph loaded from the file `2 1 / 0 1 -3` (a negative weight only draws a warning). -/
def negativeGraph : Graph :=
  { V := 2, E := 1, edges := [⟨0, 1, -3⟩], adj := [[(1, -3)], [(0, -3)]],
    part := [], local_vertices := [], ghost_vertices := [] }

/-! ## Vector lemmas -/

theorem vecGet_eq_some {α : Type} (xs : List α) (i : Int) (x : α) :
    vecGet xs i = some x ↔ 0 ≤ i ∧ xs[i.toNat]? = some x := by
  unfold vecGet; split <;> simp_all

theorem vecGet_of_lt (adj : List (List (Int × Weight))) (i : Int) (h0 : 0 ≤ i)
    (h1 : i < adj.length) : vecGet adj i = some (nbrsOf adj i) := by
  have hlt : i.toNat < adj.length := by omega
  simp [nbrsOf, vecGet, h0, List.getElem?_eq_getElem hlt]

theorem nbrsOf_of_not (adj : List (List (Int × Weight))) (i : Int)
    (h : ¬ (0 ≤ i ∧ i < adj.length)) : nbrsOf adj i = [] := by
  unfold nbrsOf vecGet
  split
  · have hge : adj.length ≤ i.toNat := by omega
    simp [List.getElem?_eq_none hge]
  · rfl

theorem vecGet_replicate {α : Type} (n : Nat) (x : α) (v : Int) (h0 : 0 ≤ v) (h1 : v < n) :
    vecGet (List.replicate n x) v = some x := by
  unfold vecGet
  rw [if_pos h0]
  have hlt : v.toNat < (List.replicate n x).length := by
    rw [List.length_replicate]; omega
  rw [List.getElem?_eq_getElem hlt]
  simp

theorem length_vecSet {α : Type} (xs : List α) (i : Int) (x : α) :
    (vecSet xs i x).length = xs.length := by simp [vecSet]

theorem nbrsOf_vecSet (adj : List (List (Int × Weight))) (i : Int) (x : List (Int × Weight))
    (h0 : 0 ≤ i) (h1 : i < adj.length) :
    nbrsOf (vecSet adj i x) = Function.update (nbrsOf adj) i x := by
  funext j
  have hlt : i.toNat < adj.length := by omega
  by_cases hj : j = i
  · subst hj
    simp [nbrsOf, vecGet, vecSet, h0, List.getElem?_set, hlt]
  · rw [Function.update_noteq hj]
    unfold nbrsOf vecGet vecSet
    by_cases hj0 : 0 ≤ j
    · have hne : i.toNat ≠ j.toNat := by omega
      simp [hj0, List.getElem?_set, hne]
    · simp [hj0]

theorem mem_nbrsOf_inRange (adj : List (List (Int × Weight))) (i : Int) (e : Int × Weight)
    (h : e ∈ nbrsOf adj i) : 0 ≤ i ∧ i < adj.length := by
  by_contra hc
  rw [nbrsOf_of_not adj i hc] at h
  simp at h

/-! ## List lemmas for the two loops -/

theorem eraseNeighbor_eq_filter (t : Int) (l : List (Int × Weight)) :
    eraseNeighbor t l = l.filter (fun e => decide (e.1 ≠ t)) := by
  induction l with
  | nil => rfl
  | cons p rest ih =>
    by_cases h : p.1 = t <;> simp [eraseNeighbor, h, ih]

theorem mem_eraseNeighbor (t : Int) (l : List (Int × Weight)) (e : Int × Weight) :
    e ∈ eraseNeighbor t l ↔ e ∈ l ∧ e.1 ≠ t := by
  simp [eraseNeighbor_eq_filter]

theorem eraseNeighbor_of_not (t : Int) (l : List (Int × Weight)) (h : ¬ hasNeighbor l t) :
    eraseNeighbor t l = l := by
  rw [eraseNeighbor_eq_filter, List.filter_eq_self]
  intro e he
  have : e.1 ≠ t := fun hc => h ⟨e, he, hc⟩
  simpa using this

theorem overwriteFirst_found (t : Int) (w : Weight) (l : List (Int × Weight)) :
    (overwriteFirst t w l).2 = true ↔ hasNeighbor l t := by
  induction l with
  | nil => simp [overwriteFirst, hasNeighbor]
  | cons p rest ih =>
    by_cases h : p.1 = t
    · simp [overwriteFirst, h, hasNeighbor]
    · simp only [overwriteFirst, h, if_false, ih]
      simp [hasNeighbor, h]

theorem overwriteFirst_of_not (t : Int) (w : Weight) (l : List (Int × Weight))
    (h : ¬ hasNeighbor l t) : (overwriteFirst t w l).1 = l := by
  induction l with
  | nil => rfl
  | cons p rest ih =>
    have hp : ¬ p.1 = t := fun hc => h ⟨p, by simp, hc⟩
    have hr : ¬ hasNeighbor rest t := fun ⟨e, he, hc⟩ => h ⟨e, by simp [he], hc⟩
    simp [overwriteFirst, hp, ih hr]

theorem map_fst_overwriteFirst (t : Int) (w : Weight) (l : List (Int × Weight)) :
    (overwriteFirst t w l).1.map Prod.fst = l.map Prod.fst := by
  induction l with
  | nil => rfl
  | cons p rest ih =>
    by_cases h : p.1 = t <;> simp [overwriteFirst, h, ih]

theorem hasNeighbor_iff_mem_map (l : List (Int × Weight)) (v : Int) :
    hasNeighbor l v ↔ v ∈ l.map Prod.fst := by
  simp [hasNeighbor]

theorem hasNeighbor_overwriteFirst (t : Int) (w : Weight) (l : List (Int × Weight)) (v : Int) :
    hasNeighbor (overwriteFirst t w l).1 v ↔ hasNeighbor l v := by
  rw [hasNeighbor_iff_mem_map, hasNeighbor_iff_mem_map, map_fst_overwriteFirst]

theorem weightOf_overwriteFirst (t : Int) (w : Weight) (l : List (Int × Weight))
    (h : hasNeighbor l t) : weightOf (overwriteFirst t w l).1 t = some w := by
  induction l with
  | nil => simp [hasNeighbor] at h
  | cons p rest ih =>
    by_cases hp : p.1 = t
    · simp [overwriteFirst, hp, weightOf]
    · have hr : hasNeighbor rest t := by
        obtain ⟨e, he, hc⟩ := h
        rcases List.mem_cons.1 he with rfl | he
        · exact absurd hc hp
        · exact ⟨e, he, hc⟩
      have := ih hr
      simp only [weightOf] at this
      simp [overwriteFirst, hp, weightOf, this]

theorem filter_ne_overwriteFirst (t : Int) (w : Weight) (l : List (Int × Weight)) :
    (overwriteFirst t w l).1.filter (fun e => decide (e.1 ≠ t))
      = l.filter (fun e => decide (e.1 ≠ t)) := by
  induction l with
  | nil => rfl
  | cons p rest ih =>
    by_cases h : p.1 = t
    · simp [overwriteFirst, h]
    · simp only [overwriteFirst, h, if_false]
      simp only [List.filter_cons, h, ne_eq, not_false_eq_true, decide_True, if_true]
      rw [ih]

/-! ## The store operations on the adjacency seen as a function -/

theorem pushBoth_spec (adj : List (List (Int × Weight))) (u v : Int) (w : Weight)
    (hu : 0 ≤ u ∧ u < adj.length) (hv : 0 ≤ v ∧ v < adj.length) :
    ∃ adj2, pushBoth adj u v w = some adj2 ∧ adj2.length = adj.length ∧
      nbrsOf adj2 = pushF (nbrsOf adj) u v w := by
  have hlen1 := length_vecSet adj u (nbrsOf adj u ++ [(v, w)])
  have hv1 : v < ((vecSet adj u (nbrsOf adj u ++ [(v, w)])).length : Int) := by
    rw [hlen1]; exact hv.2
  unfold pushBoth
  rw [vecGet_of_lt adj u hu.1 hu.2]
  simp only
  rw [vecGet_of_lt _ v hv.1 hv1]
  refine ⟨_, rfl, ?_, ?_⟩
  · rw [length_vecSet, length_vecSet]
  · rw [nbrsOf_vecSet _ v _ hv.1 hv1, nbrsOf_vecSet adj u _ hu.1 hu.2]
    rfl

theorem applyUpdate_del_spec (g : Graph) (u v : Int) (w : Weight) (hwf : g.WF)
    (hu : g.inRange u) (hv : g.inRange v) (hw : w < 0) :
    ∃ g1, applyUpdate g ⟨u, v, w⟩ = some g1 ∧ g1.V = g.V ∧ g1.adj.length = g.adj.length ∧
      g1.E = g.E - 1 ∧ g1.nbrs = delF g.nbrs u v := by
  unfold Graph.WF at hwf
  unfold Graph.inRange at hu hv
  have hu1 : u < (g.adj.length : Int) := by omega
  have hv0 : v < (g.adj.length : Int) := by omega
  have hlen1 := length_vecSet g.adj u (eraseNeighbor v (nbrsOf g.adj u))
  have hv1 : v < ((vecSet g.adj u (eraseNeighbor v (nbrsOf g.adj u))).length : Int) := by
    rw [hlen1]; exact hv0
  unfold applyUpdate
  simp only [hw, if_true]
  rw [vecGet_of_lt g.adj u hu.1 hu1]
  simp only
  rw [vecGet_of_lt _ v hv.1 hv1]
  refine ⟨_, rfl, rfl, ?_, rfl, ?_⟩
  · simp only [length_vecSet]
  · show nbrsOf _ = _
    simp only
    rw [nbrsOf_vecSet _ v _ hv.1 hv1, nbrsOf_vecSet g.adj u _ hu.1 hu1]
    rfl

theorem applyUpdate_ins_spec (g : Graph) (u v : Int) (w : Weight) (hwf : g.WF)
    (hu : g.inRange u) (hv : g.inRange v) (hw : 0 ≤ w) :
    ∃ g1, applyUpdate g ⟨u, v, w⟩ = some g1 ∧ g1.V = g.V ∧ g1.adj.length = g.adj.length ∧
      ((hasNeighbor (g.nbrs u) v ∨ hasNeighbor (g.nbrs v) u) →
        g1.E = g.E ∧ g1.nbrs = owF g.nbrs u v w) ∧
      (¬ (hasNeighbor (g.nbrs u) v ∨ hasNeighbor (g.nbrs v) u) →
        g1.E = g.E + 1 ∧ g1.nbrs = pushF g.nbrs u v w) := by
  unfold Graph.WF at hwf
  unfold Graph.inRange at hu hv
  have hu1 : u < (g.adj.length : Int) := by omega
  have hv0 : v < (g.adj.length : Int) := by omega
  have hnw : ¬ w < 0 := not_lt.mpr hw
  have hlen1 := length_vecSet g.adj u (overwriteFirst v w (nbrsOf g.adj u)).1
  have hv1 : v < ((vecSet g.adj u (overwriteFirst v w (nbrsOf g.adj u)).1).length : Int) := by
    rw [hlen1]; exact hv0
  -- the adjacency after the two search loops
  have hf2 : nbrsOf (vecSet (vecSet g.adj u (overwriteFirst v w (nbrsOf g.adj u)).1) v
      (overwriteFirst u w (nbrsOf (vecSet g.adj u (overwriteFirst v w (nbrsOf g.adj u)).1) v)).1)
      = owF (nbrsOf g.adj) u v w := by
    rw [nbrsOf_vecSet _ v _ hv.1 hv1, nbrsOf_vecSet g.adj u _ hu.1 hu1]
    rfl
  -- the second loop looks at the list the first loop may have rewritten
  have hsecond : hasNeighbor
      (nbrsOf (vecSet g.adj u (overwriteFirst v w (nbrsOf g.adj u)).1) v) u
      ↔ hasNeighbor (nbrsOf g.adj v) u := by
    rw [nbrsOf_vecSet g.adj u _ hu.1 hu1]
    by_cases hvu : v = u
    · subst hvu
      rw [Function.update_same, hasNeighbor_overwriteFirst]
    · rw [Function.update_noteq hvu]
  unfold applyUpdate
  simp only [hnw, if_false]
  rw [vecGet_of_lt g.adj u hu.1 hu1]
  simp only
  rw [vecGet_of_lt _ v hv.1 hv1]
  simp only
  split
  · rename_i hb
    rw [Bool.or_eq_true, overwriteFirst_found, overwriteFirst_found, hsecond] at hb
    refine ⟨_, rfl, rfl, ?_, ?_, ?_⟩
    · simp only [length_vecSet]
    · intro _
      exact ⟨rfl, hf2⟩
    · intro hc; exact absurd hb hc
  · rename_i hb
    rw [Bool.or_eq_true, overwriteFirst_found, overwriteFirst_found, hsecond] at hb
    have hnu : ¬ hasNeighbor (nbrsOf g.adj u) v := fun h => hb (Or.inl h)
    have hnv : ¬ hasNeighbor (nbrsOf g.adj v) u := fun h => hb (Or.inr h)
    have hnv2 : ¬ hasNeighbor
        (nbrsOf (vecSet g.adj u (overwriteFirst v w (nbrsOf g.adj u)).1) v) u :=
      fun h => hnv (hsecond.1 h)
    have hlen2 : (vecSet (vecSet g.adj u (overwriteFirst v w (nbrsOf g.adj u)).1) v
        (overwriteFirst u w
          (nbrsOf (vecSet g.adj u (overwriteFirst v w (nbrsOf g.adj u)).1) v)).1).length
        = g.adj.length := by
      simp only [length_vecSet]
    have hsame : owF (nbrsOf g.adj) u v w = nbrsOf g.adj := by
      rw [← hf2, overwriteFirst_of_not u w _ hnv2, overwriteFirst_of_not v w _ hnu]
      have hv2 : v < ((vecSet g.adj u (nbrsOf g.adj u)).length : Int) := by
        rw [length_vecSet]; exact hv0
      rw [nbrsOf_vecSet _ v _ hv.1 hv2, nbrsOf_vecSet g.adj u _ hu.1 hu1]
      simp
    obtain ⟨adj2, hpush, hlenp, hnb⟩ := pushBoth_spec
      (vecSet (vecSet g.adj u (overwriteFirst v w (nbrsOf g.adj u)).1) v
        (overwriteFirst u w
          (nbrsOf (vecSet g.adj u (overwriteFirst v w (nbrsOf g.adj u)).1) v)).1)
      u v w ⟨hu.1, by rw [hlen2]; exact hu1⟩ ⟨hv.1, by rw [hlen2]; exact hv0⟩
    have hguard : ¬ (u < 0 ∨ u ≥ g.V ∨ v < 0 ∨ v ≥ g.V) := by omega
    unfold addEdge
    simp only [hguard, if_false, hpush]
    refine ⟨_, rfl, rfl, ?_, ?_, ?_⟩
    · show adj2.length = _
      rw [hlenp, hlen2]
    · intro hc; exact absurd hc hb
    · intro _
      refine ⟨rfl, ?_⟩
      show nbrsOf adj2 = _
      rw [hnb, hf2, hsame]
      rfl

/-! ## Undirectedness and key symmetry -/

theorem hasNeighbor_iff_exists (l : List (Int × Weight)) (v : Int) :
    hasNeighbor l v ↔ ∃ w, (v, w) ∈ l := by
  constructor
  · rintro ⟨⟨a, b⟩, he, rfl⟩
    exact ⟨b, he⟩
  · rintro ⟨w, hw⟩
    exact ⟨(v, w), hw, rfl⟩

theorem Graph.Symmetric.mem_iff {g : Graph} (h : g.Symmetric) (u v : Int) (w : Weight) :
    (v, w) ∈ g.nbrs u ↔ (u, w) ∈ g.nbrs v := by
  rw [← List.count_pos_iff, ← List.count_pos_iff, h u v w]

theorem Graph.Symmetric.hasNeighbor_iff {g : Graph} (h : g.Symmetric) (u v : Int) :
    hasNeighbor (g.nbrs u) v ↔ hasNeighbor (g.nbrs v) u := by
  rw [hasNeighbor_iff_exists, hasNeighbor_iff_exists]
  constructor
  · rintro ⟨w, hw⟩; exact ⟨w, (h.mem_iff u v w).1 hw⟩
  · rintro ⟨w, hw⟩; exact ⟨w, (h.mem_iff v u w).1 hw⟩

theorem symmetric_of_symCheck (g : Graph) (h : g.symCheck) : g.Symmetric := by
  have key : ∀ (u v : Int) (w : Weight), (v, w) ∈ g.nbrs u →
      List.count (v, w) (g.nbrs u) = List.count (u, w) (g.nbrs v) := by
    intro u v w hmem
    have hr := mem_nbrsOf_inRange g.adj u (v, w) hmem
    have hu : u.toNat ∈ List.range g.adj.length := by
      rw [List.mem_range]; omega
    have hcast : ((u.toNat : Nat) : Int) = u := Int.toNat_of_nonneg hr.1
    have := h u.toNat hu
    rw [hcast] at this
    exact this (v, w) hmem
  intro u v w
  by_cases h1 : (v, w) ∈ g.nbrs u
  · exact key u v w h1
  · by_cases h2 : (u, w) ∈ g.nbrs v
    · exact (key v u w h2).symm
    · rw [List.count_eq_zero_of_not_mem h1, List.count_eq_zero_of_not_mem h2]

/-! ## Pointwise values of the function-level operations -/

theorem delF_at_u (f : Int → List (Int × Weight)) (u v : Int) :
    delF f u v u = (f u).filter (fun e => decide (e.1 ≠ v)) := by
  unfold delF
  by_cases h : u = v
  · subst h
    simp [eraseNeighbor_eq_filter, List.filter_filter]
  · rw [Function.update_noteq h, Function.update_same, eraseNeighbor_eq_filter]

theorem delF_at_v (f : Int → List (Int × Weight)) (u v : Int) :
    delF f u v v = (f v).filter (fun e => decide (e.1 ≠ u)) := by
  unfold delF
  by_cases h : v = u
  · subst h
    simp [eraseNeighbor_eq_filter, List.filter_filter]
  · rw [Function.update_same, Function.update_noteq h, eraseNeighbor_eq_filter]

theorem delF_other (f : Int → List (Int × Weight)) (u v x : Int) (hu : x ≠ u) (hv : x ≠ v) :
    delF f u v x = f x := by
  unfold delF
  rw [Function.update_noteq hv, Function.update_noteq hu]

theorem pushF_other (f : Int → List (Int × Weight)) (u v x : Int) (w : Weight)
    (hu : x ≠ u) (hv : x ≠ v) : pushF f u v w x = f x := by
  unfold pushF
  rw [Function.update_noteq hv, Function.update_noteq hu]

theorem owF_other (f : Int → List (Int × Weight)) (u v x : Int) (w : Weight)
    (hu : x ≠ u) (hv : x ≠ v) : owF f u v w x = f x := by
  unfold owF
  rw [Function.update_noteq hv, Function.update_noteq hu]

theorem owF_at_u (f : Int → List (Int × Weight)) (u v : Int) (w : Weight) :
    owF f u v w u = if u = v then (overwriteFirst u w (overwriteFirst u w (f u)).1).1
      else (overwriteFirst v w (f u)).1 := by
  unfold owF
  by_cases h : u = v
  · subst h
    simp
  · rw [Function.update_noteq h, Function.update_same, if_neg h]

theorem owF_at_v (f : Int → List (Int × Weight)) (u v : Int) (w : Weight) :
    owF f u v w v = if u = v then (overwriteFirst u w (overwriteFirst u w (f u)).1).1
      else (overwriteFirst u w (f v)).1 := by
  unfold owF
  by_cases h : u = v
  · subst h
    simp
  · rw [Function.update_same, Function.update_noteq (Ne.symm h), if_neg h]

theorem map_fst_owF (f : Int → List (Int × Weight)) (u v x : Int) (w : Weight) :
    (owF f u v w x).map Prod.fst = (f x).map Prod.fst := by
  by_cases hxv : x = v
  · subst hxv
    rw [owF_at_v]
    split
    · rename_i h; subst h
      rw [map_fst_overwriteFirst, map_fst_overwriteFirst]
    · rw [map_fst_overwriteFirst]
  · by_cases hxu : x = u
    · subst hxu
      rw [owF_at_u, if_neg hxv, map_fst_overwriteFirst]
    · rw [owF_other f u v x w hxu hxv]

/-! ## Claims on `applyUpdates`, record by record -/

/-- C1: insertion / weight-update branch of `Graph::applyUpdates`.  For a well-formed graph
with symmetric adjacency and an in-range record `(u, v, w)` with `w ≥ 0` the step succeeds;
the lists of the vertices other than `u` and `v` are unchanged; if `adj[u]` has an entry for
`v`, afterwards the entry for `v` in `adj[u]` and the entry for `u` in `adj[v]` carry weight
`w`, no list gains or loses an entry and `E` is unchanged; otherwise `(v, w)` is appended to
`adj[u]`, `(u, w)` is appended to `adj[v]` and `E` grows by exactly one. -/
theorem applyUpdate_insert_or_update (g : Graph) (u v : Int) (w : Weight) (hwf : g.WF)
    (hsym : g.Symmetric) (hu : g.inRange u) (hv : g.inRange v) (hw : 0 ≤ w) :
    ∃ g1, applyUpdate g ⟨u, v, w⟩ = some g1 ∧
      (∀ x, x ≠ u → x ≠ v → g1.nbrs x = g.nbrs x) ∧
      (hasNeighbor (g.nbrs u) v →
        weightOf (g1.nbrs u) v = some w ∧ weightOf (g1.nbrs v) u = some w ∧
        (∀ x, (g1.nbrs x).map Prod.fst = (g.nbrs x).map Prod.fst) ∧ g1.E = g.E) ∧
      (¬ hasNeighbor (g.nbrs u) v →
        g1.E = g.E + 1 ∧
        (u ≠ v → g1.nbrs u = g.nbrs u ++ [(v, w)] ∧ g1.nbrs v = g.nbrs v ++ [(u, w)]) ∧
        (u = v → g1.nbrs u = g.nbrs u ++ [(u, w), (u, w)])) := by
  obtain ⟨g1, hstep, -, -, hfound, hnew⟩ := applyUpdate_ins_spec g u v w hwf hu hv hw
  have hkey := hsym.hasNeighbor_iff u v
  refine ⟨g1, hstep, ?_, ?_, ?_⟩
  · intro x hxu hxv
    by_cases hp : hasNeighbor (g.nbrs u) v ∨ hasNeighbor (g.nbrs v) u
    · rw [(hfound hp).2, owF_other _ _ _ _ _ hxu hxv]
    · rw [(hnew hp).2, pushF_other _ _ _ _ _ hxu hxv]
  · intro hp
    obtain ⟨hE, hnb⟩ := hfound (Or.inl hp)
    have hpv : hasNeighbor (g.nbrs v) u := hkey.1 hp
    refine ⟨?_, ?_, ?_, hE⟩
    · rw [hnb, owF_at_u]
      split
      · rename_i h; subst h
        exact weightOf_overwriteFirst _ _ _ ((hasNeighbor_overwriteFirst _ _ _ _).2 hp)
      · exact weightOf_overwriteFirst _ _ _ hp
    · rw [hnb, owF_at_v]
      split
      · rename_i h; subst h
        exact weightOf_overwriteFirst _ _ _ ((hasNeighbor_overwriteFirst _ _ _ _).2 hp)
      · exact weightOf_overwriteFirst _ _ _ hpv
    · intro x
      rw [hnb, map_fst_owF]
  · intro hp
    have hp2 : ¬ (hasNeighbor (g.nbrs u) v ∨ hasNeighbor (g.nbrs v) u) := by
      rintro (h | h)
      · exact hp h
      · exact hp (hkey.2 h)
    obtain ⟨hE, hnb⟩ := hnew hp2
    refine ⟨hE, ?_, ?_⟩
    · intro hne
      rw [hnb]
      unfold pushF
      constructor
      · rw [Function.update_noteq hne, Function.update_same]
      · rw [Function.update_same, Function.update_noteq (Ne.symm hne)]
    · intro he
      subst he
      rw [hnb]
      unfold pushF
      simp

/-- Witness of C1 on `sampleGraph`: the record `(1, 2, 4)` inserts a new edge. -/
theorem applyUpdate_insert_or_update_witness :
    ∃ g1, applyUpdate sampleGraph ⟨1, 2, 4⟩ = some g1 ∧
      (∀ x, x ≠ 1 → x ≠ 2 → g1.nbrs x = sampleGraph.nbrs x) ∧
      (hasNeighbor (sampleGraph.nbrs 1) 2 →
        weightOf (g1.nbrs 1) 2 = some 4 ∧ weightOf (g1.nbrs 2) 1 = some 4 ∧
        (∀ x, (g1.nbrs x).map Prod.fst = (sampleGraph.nbrs x).map Prod.fst) ∧
        g1.E = sampleGraph.E) ∧
      (¬ hasNeighbor (sampleGraph.nbrs 1) 2 →
        g1.E = sampleGraph.E + 1 ∧
        ((1 : Int) ≠ 2 → g1.nbrs 1 = sampleGraph.nbrs 1 ++ [(2, 4)] ∧
          g1.nbrs 2 = sampleGraph.nbrs 2 ++ [(1, 4)]) ∧
        ((1 : Int) = 2 → g1.nbrs 1 = sampleGraph.nbrs 1 ++ [(1, 4), (1, 4)])) :=
  applyUpdate_insert_or_update sampleGraph 1 2 4 (by decide)
    (symmetric_of_symCheck sampleGraph (by decide)) (by decide) (by decide) (by decide)

/-- C2: deletion branch of `Graph::applyUpdates`.  For a well-formed graph and an in-range
record `(u, v, w)` with `w < 0` whose edge is present, the step succeeds; afterwards `adj[u]`
has no entry for `v` and `adj[v]` none for `u`, the other entries of both lists are kept in
their order, the lists of all other vertices are unchanged and `E` drops by exactly one. -/
theorem applyUpdate_delete (g : Graph) (u v : Int) (w : Weight) (hwf : g.WF)
    (hu : g.inRange u) (hv : g.inRange v) (hw : w < 0) (_hpres : hasNeighbor (g.nbrs u) v) :
    ∃ g1, applyUpdate g ⟨u, v, w⟩ = some g1 ∧
      ¬ hasNeighbor (g1.nbrs u) v ∧ ¬ hasNeighbor (g1.nbrs v) u ∧
      g1.nbrs u = (g.nbrs u).filter (fun e => decide (e.1 ≠ v)) ∧
      g1.nbrs v = (g.nbrs v).filter (fun e => decide (e.1 ≠ u)) ∧
      (∀ x, x ≠ u → x ≠ v → g1.nbrs x = g.nbrs x) ∧
      g1.E = g.E - 1 := by
  obtain ⟨g1, hstep, -, -, hE, hnb⟩ := applyUpdate_del_spec g u v w hwf hu hv hw
  have h1 : g1.nbrs u = (g.nbrs u).filter (fun e => decide (e.1 ≠ v)) := by
    rw [hnb, delF_at_u]
  have h2 : g1.nbrs v = (g.nbrs v).filter (fun e => decide (e.1 ≠ u)) := by
    rw [hnb, delF_at_v]
  refine ⟨g1, hstep, ?_, ?_, h1, h2, ?_, hE⟩
  · rintro ⟨e, he, hev⟩
    rw [h1] at he
    simp at he
    exact he.2 hev
  · rintro ⟨e, he, hev⟩
    rw [h2] at he
    simp at he
    exact he.2 hev
  · intro x hxu hxv
    rw [hnb, delF_other _ _ _ _ hxu hxv]

/-- Witness of C2 on `sampleGraph`: the record `(0, 1, -1)` deletes the edge `{0, 1}`. -/
theorem applyUpdate_delete_witness :
    ∃ g1, applyUpdate sampleGraph ⟨0, 1, -1⟩ = some g1 ∧
      ¬ hasNeighbor (g1.nbrs 0) 1 ∧ ¬ hasNeighbor (g1.nbrs 1) 0 ∧
      g1.nbrs 0 = (sampleGraph.nbrs 0).filter (fun e => decide (e.1 ≠ 1)) ∧
      g1.nbrs 1 = (sampleGraph.nbrs 1).filter (fun e => decide (e.1 ≠ 0)) ∧
      (∀ x, x ≠ 0 → x ≠ 1 → g1.nbrs x = sampleGraph.nbrs x) ∧
      g1.E = sampleGraph.E - 1 :=
  applyUpdate_delete sampleGraph 0 1 (-1) (by decide) (by decide) (by decide) (by decide)
    (by decide)

/-- C3 (defect): a record with a vertex outside `[0, V)` is not skipped by
`Graph::applyUpdates`.  On `sampleGraph` (`V = 3`) the deletion record `(0, 3, -1)`, the
insertion record `(0, 3, 2)` and the insertion record `(-1, 0, 2)` all index `adj` outside
its bounds before any range check is made (the check of `addEdge` comes after the search
loops), whereas `addEdge` alone skips such a pair and leaves the graph as it is. -/
theorem applyUpdates_out_of_range_access :
    applyUpdates sampleGraph [⟨0, 3, -1⟩] = none ∧
    applyUpdates sampleGraph [⟨0, 3, 2⟩] = none ∧
    applyUpdates sampleGraph [⟨-1, 0, 2⟩] = none ∧
    addEdge sampleGraph 0 3 2 = some sampleGraph := by
  refine ⟨?_, ?_, ?_, ?_⟩ <;> decide

/-- C4 (defect): deleting an edge that does not exist is not a no-op.  On `sampleGraph` the
record `(0, 2, -1)` names the absent edge `{0, 2}`; the adjacency is left as it is but `E`
is decremented from `1` to `0` although the edge `{0, 1}` is still stored, and a second
such record leaves `E = -1`. -/
theorem applyUpdates_delete_absent_decrements :
    ¬ hasNeighbor (sampleGraph.nbrs 0) 2 ∧ ¬ hasNeighbor (sampleGraph.nbrs 2) 0 ∧
    applyUpdates sampleGraph [⟨0, 2, -1⟩] = some { sampleGraph with E := 0 } ∧
    applyUpdates sampleGraph [⟨0, 2, -1⟩] ≠ some sampleGraph ∧
    applyUpdates sampleGraph [⟨0, 2, -1⟩, ⟨0, 2, -1⟩] = some { sampleGraph with E := -1 } := by
  refine ⟨?_, ?_, ?_, ?_, ?_⟩ <;> decide

/-- C8 (defect): self-loops are rejected by `loadFromFile` only.  On `sampleGraph` the update
record `(2, 2, 7)` and the call `addEdge(2, 2, 7)` both store the entry `(2, 7)` twice in
`adj[2]` and increment `E`, while the same pair in a graph file is ignored. -/
theorem self_loop_is_stored :
    applyUpdates sampleGraph [⟨2, 2, 7⟩] =
      some { sampleGraph with
        edges := [⟨0, 1, 5⟩, ⟨2, 2, 7⟩], adj := [[(1, 5)], [(0, 5)], [(2, 7), (2, 7)]], E := 2 } ∧
    addEdge sampleGraph 2 2 7 =
      some { sampleGraph with
        edges := [⟨0, 1, 5⟩, ⟨2, 2, 7⟩], adj := [[(1, 5)], [(0, 5)], [(2, 7), (2, 7)]], E := 2 } ∧
    loadFromFile Graph.empty (.graph ⟨3, 2, [.edge 0 1 5, .edge 2 2 7]⟩) =
      some sampleGraph := by
  refine ⟨?_, ?_, ?_⟩ <;> decide

/-! ## Membership after the function-level operations -/

theorem mem_delF (f : Int → List (Int × Weight)) (u v x : Int) (e : Int × Weight) :
    e ∈ delF f u v x ↔ e ∈ f x ∧ ¬ (x = u ∧ e.1 = v) ∧ ¬ (x = v ∧ e.1 = u) := by
  by_cases hxv : x = v
  · subst hxv
    rw [delF_at_v]
    by_cases hxu : x = u
    · subst hxu; simp
    · simp [hxu]
  · by_cases hxu : x = u
    · subst hxu
      rw [delF_at_u]
      simp [hxv]
    · rw [delF_other f u v x hxu hxv]
      simp [hxu, hxv]

theorem mem_pushF (f : Int → List (Int × Weight)) (u v x : Int) (w : Weight)
    (e : Int × Weight) :
    e ∈ pushF f u v w x ↔ e ∈ f x ∨ (x = u ∧ e = (v, w)) ∨ (x = v ∧ e = (u, w)) := by
  unfold pushF
  by_cases hxv : x = v
  · subst hxv
    rw [Function.update_same]
    by_cases hxu : x = u
    · subst hxu
      simp [or_assoc]
    · rw [Function.update_noteq hxu]
      simp [hxu]
  · rw [Function.update_noteq hxv]
    by_cases hxu : x = u
    · subst hxu
      simp [hxv]
    · rw [Function.update_noteq hxu]
      simp [hxu, hxv]

theorem netCount_append (a b : List Edge) : netCount (a ++ b) = netCount a + netCount b := by
  induction a with
  | nil => simp [netCount]
  | cons r rest ih => simp [netCount, ih, add_assoc]

/-! ## A batch on pairwise distinct pairs whose insertions are new -/

theorem samePair_of_touches (r r' : Edge) (x : Int) (e : Int × Weight) (w : Weight)
    (hI : (x = r.u ∧ e = (r.v, w)) ∨ (x = r.v ∧ e = (r.u, w)))
    (ht : touches r' x e.1) : samePair r r' := by
  unfold touches at ht
  unfold samePair
  rcases hI with ⟨hx, he⟩ | ⟨hx, he⟩ <;> subst hx <;> subst he <;> simp only at ht
  · rcases ht with ⟨h1, h2⟩ | ⟨h1, h2⟩
    · exact Or.inl ⟨h1, h2⟩
    · exact Or.inr ⟨h1, h2⟩
  · rcases ht with ⟨h1, h2⟩ | ⟨h1, h2⟩
    · exact Or.inr ⟨h2, h1⟩
    · exact Or.inl ⟨h2, h1⟩

theorem applyUpdates_fresh_spec (rs : List Edge) : ∀ g : Graph, g.WF →
    (∀ r ∈ rs, g.inRange r.u ∧ g.inRange r.v) →
    (∀ r ∈ rs, 0 ≤ r.weight →
      ¬ hasNeighbor (g.nbrs r.u) r.v ∧ ¬ hasNeighbor (g.nbrs r.v) r.u) →
    rs.Pairwise (fun a b => ¬ samePair a b) →
    ∃ g1, applyUpdates g rs = some g1 ∧ g1.WF ∧ g1.V = g.V ∧ g1.E = g.E + netCount rs ∧
      ∀ x e, e ∈ g1.nbrs x ↔
        (e ∈ g.nbrs x ∧ ∀ r ∈ rs, r.weight < 0 → ¬ touches r x e.1) ∨
        (∃ r ∈ rs, 0 ≤ r.weight ∧
          ((x = r.u ∧ e = (r.v, r.weight)) ∨ (x = r.v ∧ e = (r.u, r.weight)))) := by
  induction rs with
  | nil =>
    intro g hwf _ _ _
    refine ⟨g, rfl, hwf, rfl, by simp [netCount], ?_⟩
    intro x e
    simp
  | cons r rs ih =>
    intro g hwf hr habs hpw
    have hr0 := hr r (List.mem_cons_self _ _)
    rw [List.pairwise_cons] at hpw
    obtain ⟨hpr, hpw'⟩ := hpw
    have hrs : ∀ r' ∈ rs, g.inRange r'.u ∧ g.inRange r'.v :=
      fun r' h' => hr r' (List.mem_cons_of_mem _ h')
    by_cases hw : r.weight < 0
    · obtain ⟨g', hstep, hV, hlen, hE, hnb⟩ :=
        applyUpdate_del_spec g r.u r.v r.weight hwf hr0.1 hr0.2 hw
      have hwf' : g'.WF := by
        unfold Graph.WF at *
        rw [hlen, hV]; exact hwf
      have hmem' : ∀ x e, e ∈ g'.nbrs x ↔ e ∈ g.nbrs x ∧ ¬ touches r x e.1 := by
        intro x e
        rw [hnb, mem_delF]
        unfold touches
        tauto
      have hrs' : ∀ r' ∈ rs, g'.inRange r'.u ∧ g'.inRange r'.v := by
        intro r' h'
        have := hrs r' h'
        unfold Graph.inRange at *
        rw [hV]; exact this
      have habs' : ∀ r' ∈ rs, 0 ≤ r'.weight →
          ¬ hasNeighbor (g'.nbrs r'.u) r'.v ∧ ¬ hasNeighbor (g'.nbrs r'.v) r'.u := by
        intro r' h' hw'
        obtain ⟨a1, a2⟩ := habs r' (List.mem_cons_of_mem _ h') hw'
        constructor
        · rintro ⟨e, he, hk⟩
          exact a1 ⟨e, ((hmem' _ _).1 he).1, hk⟩
        · rintro ⟨e, he, hk⟩
          exact a2 ⟨e, ((hmem' _ _).1 he).1, hk⟩
      obtain ⟨g1, hrest, hwf1, hV1, hE1, hmem1⟩ := ih g' hwf' hrs' habs' hpw'
      refine ⟨g1, ?_, hwf1, by rw [hV1, hV], ?_, ?_⟩
      · show (match applyUpdate g r with
          | none => none
          | some g1 => applyUpdates g1 rs) = some g1
        rw [show applyUpdate g r = some g' from hstep]
        exact hrest
      · rw [hE1, hE]
        simp only [netCount, hw, if_true]
        ring
      · intro x e
        rw [hmem1, hmem']
        have hnw : ¬ 0 ≤ r.weight := not_le.mpr hw
        constructor
        · rintro (⟨⟨hg, hnt⟩, hA⟩ | ⟨r', h', hB⟩)
          · left
            refine ⟨hg, ?_⟩
            intro r2 h2 hdel
            rcases List.mem_cons.1 h2 with heq | h2
            · rw [heq]; exact hnt
            · exact hA r2 h2 hdel
          · right
            exact ⟨r', List.mem_cons_of_mem _ h', hB⟩
        · rintro (⟨hg, hA⟩ | ⟨r', h', hB⟩)
          · left
            exact ⟨⟨hg, hA r (List.mem_cons_self _ _) hw⟩,
              fun r2 h2 => hA r2 (List.mem_cons_of_mem _ h2)⟩
          · rcases List.mem_cons.1 h' with heq | h'
            · rw [heq] at hB
              exact absurd hB.1 hnw
            · right
              exact ⟨r', h', hB⟩
    · have hw0 : 0 ≤ r.weight := not_lt.mp hw
      obtain ⟨a1, a2⟩ := habs r (List.mem_cons_self _ _) hw0
      have hnf : ¬ (hasNeighbor (g.nbrs r.u) r.v ∨ hasNeighbor (g.nbrs r.v) r.u) := by
        rintro (h | h)
        · exact a1 h
        · exact a2 h
      obtain ⟨g', hstep, hV, hlen, -, hnew⟩ :=
        applyUpdate_ins_spec g r.u r.v r.weight hwf hr0.1 hr0.2 hw0
      obtain ⟨hE, hnb⟩ := hnew hnf
      have hwf' : g'.WF := by
        unfold Graph.WF at *
        rw [hlen, hV]; exact hwf
      have hmem' : ∀ x e, e ∈ g'.nbrs x ↔
          e ∈ g.nbrs x ∨ ((x = r.u ∧ e = (r.v, r.weight)) ∨ (x = r.v ∧ e = (r.u, r.weight))) := by
        intro x e
        rw [hnb, mem_pushF]
      have hrs' : ∀ r' ∈ rs, g'.inRange r'.u ∧ g'.inRange r'.v := by
        intro r' h'
        have := hrs r' h'
        unfold Graph.inRange at *
        rw [hV]; exact this
      have habs' : ∀ r' ∈ rs, 0 ≤ r'.weight →
          ¬ hasNeighbor (g'.nbrs r'.u) r'.v ∧ ¬ hasNeighbor (g'.nbrs r'.v) r'.u := by
        intro r' h' hw'
        obtain ⟨b1, b2⟩ := habs r' (List.mem_cons_of_mem _ h') hw'
        constructor
        · rintro ⟨e, he, hk⟩
          rcases (hmem' _ _).1 he with hg | hI
          · exact b1 ⟨e, hg, hk⟩
          · exact hpr r' h' (samePair_of_touches r r' r'.u e r.weight hI (Or.inl ⟨rfl, hk⟩))
        · rintro ⟨e, he, hk⟩
          rcases (hmem' _ _).1 he with hg | hI
          · exact b2 ⟨e, hg, hk⟩
          · exact hpr r' h' (samePair_of_touches r r' r'.v e r.weight hI (Or.inr ⟨rfl, hk⟩))
      obtain ⟨g1, hrest, hwf1, hV1, hE1, hmem1⟩ := ih g' hwf' hrs' habs' hpw'
      refine ⟨g1, ?_, hwf1, by rw [hV1, hV], ?_, ?_⟩
      · show (match applyUpdate g r with
          | none => none
          | some g1 => applyUpdates g1 rs) = some g1
        rw [show applyUpdate g r = some g' from hstep]
        exact hrest
      · rw [hE1, hE]
        simp only [netCount, hw, if_false]
        ring
      · intro x e
        rw [hmem1, hmem']
        have hIA : ((x = r.u ∧ e = (r.v, r.weight)) ∨ (x = r.v ∧ e = (r.u, r.weight))) →
            ∀ r' ∈ rs, r'.weight < 0 → ¬ touches r' x e.1 := by
          intro hI r' h' _ ht
          exact hpr r' h' (samePair_of_touches r r' x e r.weight hI ht)
        constructor
        · rintro (⟨hg', hA⟩ | ⟨r', h', hB⟩)
          · rcases hg' with hg | hI
            · left
              refine ⟨hg, ?_⟩
              intro r2 h2 hdel
              rcases List.mem_cons.1 h2 with heq | h2
              · rw [heq] at hdel
                exact absurd hdel hw
              · exact hA r2 h2 hdel
            · right
              exact ⟨r, List.mem_cons_self _ _, hw0, hI⟩
          · right
            exact ⟨r', List.mem_cons_of_mem _ h', hB⟩
        · rintro (⟨hg, hA⟩ | ⟨r', h', hB⟩)
          · left
            exact ⟨Or.inl hg, fun r2 h2 => hA r2 (List.mem_cons_of_mem _ h2)⟩
          · rcases List.mem_cons.1 h' with heq | h'
            · rw [heq] at hB
              left
              exact ⟨Or.inr hB.2, hIA hB.2⟩
            · right
              exact ⟨r', h', hB⟩

/-! ## Round trip of a batch and its inverse -/

theorem nbrs_mem_adj_or_nil (g : Graph) (x : Int) : g.nbrs x ∈ g.adj ∨ g.nbrs x = [] := by
  by_cases h : 0 ≤ x ∧ x < g.adj.length
  · left
    have hlt : x.toNat < g.adj.length := by omega
    have : g.nbrs x = g.adj[x.toNat] := by
      simp [Graph.nbrs, nbrsOf, vecGet, h.1, List.getElem?_eq_getElem hlt]
    rw [this]
    exact List.getElem_mem _
  · right
    exact nbrsOf_of_not g.adj x h

theorem Graph.NoParallel.nodup {g : Graph} (h : g.NoParallel) (x : Int) :
    ((g.nbrs x).map Prod.fst).Nodup := by
  rcases nbrs_mem_adj_or_nil g x with hm | hn
  · exact h _ hm
  · rw [hn]; exact List.nodup_nil

theorem Graph.NonNegWeights.nonneg {g : Graph} (h : g.NonNegWeights) (x : Int)
    (e : Int × Weight) (he : e ∈ g.nbrs x) : 0 ≤ e.2 := by
  rcases nbrs_mem_adj_or_nil g x with hm | hn
  · exact h _ hm e he
  · rw [hn] at he; simp at he

theorem weightOf_of_hasNeighbor (l : List (Int × Weight)) (k : Int) (h : hasNeighbor l k) :
    ∃ a, weightOf l k = some a ∧ (k, a) ∈ l := by
  induction l with
  | nil => simp [hasNeighbor] at h
  | cons p rest ih =>
    by_cases hp : p.1 = k
    · refine ⟨p.2, ?_, ?_⟩
      · simp [weightOf, hp]
      · rw [← hp]; simp
    · have hr : hasNeighbor rest k := by
        obtain ⟨e, he, hc⟩ := h
        rcases List.mem_cons.1 he with rfl | he
        · exact absurd hc hp
        · exact ⟨e, he, hc⟩
      obtain ⟨a, ha, hmem⟩ := ih hr
      refine ⟨a, ?_, List.mem_cons_of_mem _ hmem⟩
      simp only [weightOf] at ha
      simp [weightOf, hp, ha]

theorem weightOf_of_mem_nodup (l : List (Int × Weight)) (k : Int) (a : Weight)
    (hnd : (l.map Prod.fst).Nodup) (hmem : (k, a) ∈ l) : weightOf l k = some a := by
  induction l with
  | nil => simp at hmem
  | cons p rest ih =>
    rw [List.map_cons, List.nodup_cons] at hnd
    rcases List.mem_cons.1 hmem with heq | hin
    · rw [← heq]
      simp [weightOf]
    · have hp : ¬ p.1 = k := by
        intro hc
        apply hnd.1
        rw [hc]
        exact List.mem_map.2 ⟨(k, a), hin, rfl⟩
      have := ih hnd.2 hin
      simp only [weightOf] at this
      simp [weightOf, hp, this]

theorem invertRecord_u (g : Graph) (r : Edge) : (invertRecord g r).u = r.u := by
  unfold invertRecord; split <;> rfl

theorem invertRecord_v (g : Graph) (r : Edge) : (invertRecord g r).v = r.v := by
  unfold invertRecord; split <;> rfl

theorem invertRecord_weight_of_del (g : Graph) (r : Edge) (h : r.weight < 0) :
    (invertRecord g r).weight = (weightOf (g.nbrs r.u) r.v).getD 0 := by
  unfold invertRecord; rw [if_pos h]

theorem invertRecord_weight_of_ins (g : Graph) (r : Edge) (h : ¬ r.weight < 0) :
    (invertRecord g r).weight = -1 := by
  unfold invertRecord; rw [if_neg h]

theorem netCount_map_flip (f : Edge → Edge) (rs : List Edge)
    (h : ∀ r ∈ rs, ((f r).weight < 0 ↔ ¬ r.weight < 0)) :
    netCount (rs.map f) = - netCount rs := by
  induction rs with
  | nil => simp [netCount]
  | cons r rest ih =>
    have h1 := h r (List.mem_cons_self _ _)
    have h2 := ih (fun r' h' => h r' (List.mem_cons_of_mem _ h'))
    simp only [List.map_cons, netCount, h2]
    by_cases hw : r.weight < 0
    · have : ¬ (f r).weight < 0 := fun hc => (h1.1 hc) hw
      rw [if_pos hw, if_neg this]; ring
    · have : (f r).weight < 0 := h1.2 hw
      rw [if_neg hw, if_pos this]; ring

theorem touches_of_inserted (r : Edge) (x : Int) (e : Int × Weight) (w : Weight)
    (hI : (x = r.u ∧ e = (r.v, w)) ∨ (x = r.v ∧ e = (r.u, w))) : touches r x e.1 := by
  rcases hI with ⟨hx, he⟩ | ⟨hx, he⟩
  · exact Or.inl ⟨hx, by rw [he]⟩
  · exact Or.inr ⟨hx, by rw [he]⟩

theorem samePair_symm (a b : Edge) (h : samePair a b) : samePair b a := by
  unfold samePair at *
  rcases h with ⟨h1, h2⟩ | ⟨h1, h2⟩
  · exact Or.inl ⟨h1.symm, h2.symm⟩
  · exact Or.inr ⟨h2.symm, h1.symm⟩

/-- C5 (amended): round trip of `applyUpdates`.  For a well-formed graph with symmetric,
duplicate-free, self-loop-free adjacency and non-negative weights, and a batch of in-range
records on pairwise distinct vertex pairs (insertions of absent edges, deletions of present
edges), applying the batch and then its inverse batch succeeds and yields, for every vertex,
the same set of `(neighbour, weight)` pairs and the same edge count `E`. -/
theorem applyUpdates_round_trip (g : Graph) (batch : List Edge) (hwf : g.WF)
    (hsym : g.Symmetric) (hnp : g.NoParallel) (_hnl : g.NoSelfLoops) (hnn : g.NonNegWeights)
    (hb : RoundTripBatch g batch) :
    ∃ g1 g2, applyUpdates g batch = some g1 ∧
      applyUpdates g1 (inverseBatch g batch) = some g2 ∧
      SameAdjacency g g2 ∧ g2.E = g.E := by
  obtain ⟨hrec, hpw⟩ := hb
  -- facts about the records of the batch
  have hdel : ∀ r ∈ batch, r.weight < 0 →
      ∃ a, weightOf (g.nbrs r.u) r.v = some a ∧ (r.v, a) ∈ g.nbrs r.u ∧ 0 ≤ a := by
    intro r hr hw
    have h := (hrec r hr).2.2
    rw [if_pos hw] at h
    obtain ⟨a, ha, hmem⟩ := weightOf_of_hasNeighbor _ _ h
    exact ⟨a, ha, hmem, hnn.nonneg _ _ hmem⟩
  have hins : ∀ r ∈ batch, 0 ≤ r.weight →
      ¬ hasNeighbor (g.nbrs r.u) r.v ∧ ¬ hasNeighbor (g.nbrs r.v) r.u := by
    intro r hr hw
    have h := (hrec r hr).2.2
    rw [if_neg (not_lt.mpr hw)] at h
    exact ⟨h, fun hc => h ((hsym.hasNeighbor_iff r.u r.v).2 hc)⟩
  have hdist : ∀ a ∈ batch, ∀ b ∈ batch, a ≠ b → ¬ samePair a b := by
    intro a ha b hb hne
    have hs : Symmetric (fun a b : Edge => ¬ samePair a b) :=
      fun x y hxy hc => hxy (samePair_symm _ _ hc)
    exact List.Pairwise.forall hs hpw ha hb hne
  have hinv_del : ∀ r ∈ batch, r.weight < 0 → 0 ≤ (invertRecord g r).weight := by
    intro r hr hw
    obtain ⟨a, ha, -, ha0⟩ := hdel r hr hw
    rw [invertRecord_weight_of_del g r hw, ha]
    exact ha0
  have hflip : ∀ r ∈ batch, ((invertRecord g r).weight < 0 ↔ ¬ r.weight < 0) := by
    intro r hr
    constructor
    · intro h hw
      exact absurd (hinv_del r hr hw) (not_le.mpr h)
    · intro hw
      rw [invertRecord_weight_of_ins g r hw]
      decide
  -- first pass
  obtain ⟨g1, hrun1, hwf1, hV1, hE1, hmem1⟩ := applyUpdates_fresh_spec batch g hwf
    (fun r hr => ⟨(hrec r hr).1, (hrec r hr).2.1⟩) hins hpw
  have hclean : ∀ r ∈ batch, r.weight < 0 → ∀ x e, e ∈ g1.nbrs x → ¬ touches r x e.1 := by
    intro r hr hw x e he ht
    rcases (hmem1 x e).1 he with ⟨-, hA⟩ | ⟨r', hr', hw', hI⟩
    · exact hA r hr hw ht
    · have hne : r' ≠ r := by
        intro hc
        rw [hc] at hw'
        exact absurd hw (not_lt.mpr hw')
      exact hdist r' hr' r hr hne (samePair_of_touches r' r x e r'.weight hI ht)
  -- second pass
  have hrange2 : ∀ r' ∈ inverseBatch g batch, g1.inRange r'.u ∧ g1.inRange r'.v := by
    intro r' hr'
    obtain ⟨r, hr, rfl⟩ := List.mem_map.1 hr'
    rw [invertRecord_u, invertRecord_v]
    have := hrec r hr
    unfold Graph.inRange at *
    rw [hV1]
    exact ⟨this.1, this.2.1⟩
  have habs2 : ∀ r' ∈ inverseBatch g batch, 0 ≤ r'.weight →
      ¬ hasNeighbor (g1.nbrs r'.u) r'.v ∧ ¬ hasNeighbor (g1.nbrs r'.v) r'.u := by
    intro r' hr' hw'
    obtain ⟨r, hr, rfl⟩ := List.mem_map.1 hr'
    have hw : r.weight < 0 := by
      by_contra hc
      exact absurd hw' (not_le.mpr ((hflip r hr).2 hc))
    rw [invertRecord_u, invertRecord_v]
    constructor
    · rintro ⟨e, he, hk⟩
      exact hclean r hr hw _ e he (Or.inl ⟨rfl, hk⟩)
    · rintro ⟨e, he, hk⟩
      exact hclean r hr hw _ e he (Or.inr ⟨rfl, hk⟩)
  have hpw2 : (inverseBatch g batch).Pairwise (fun a b => ¬ samePair a b) := by
    unfold inverseBatch
    rw [List.pairwise_map]
    refine hpw.imp ?_
    intro a b hab hc
    apply hab
    unfold samePair at *
    simpa only [invertRecord_u, invertRecord_v] using hc
  obtain ⟨g2, hrun2, -, -, hE2, hmem2⟩ :=
    applyUpdates_fresh_spec (inverseBatch g batch) g1 hwf1 hrange2 habs2 hpw2
  refine ⟨g1, g2, hrun1, hrun2, ?_, ?_⟩
  · intro x e
    rw [hmem2]
    constructor
    · rintro (⟨he1, hA⟩ | ⟨r', hr', hw', hI⟩)
      · rcases (hmem1 x e).1 he1 with ⟨hg, -⟩ | ⟨r, hr, hw, hI⟩
        · exact hg
        · exfalso
          have hmem' : invertRecord g r ∈ inverseBatch g batch := List.mem_map.2 ⟨r, hr, rfl⟩
          have hneg : (invertRecord g r).weight < 0 := (hflip r hr).2 (not_lt.mpr hw)
          apply hA _ hmem' hneg
          have ht := touches_of_inserted r x e r.weight hI
          unfold touches at *
          rw [invertRecord_u, invertRecord_v]
          exact ht
      · obtain ⟨r, hr, rfl⟩ := List.mem_map.1 hr'
        have hw : r.weight < 0 := by
          by_contra hc
          exact absurd hw' (not_le.mpr ((hflip r hr).2 hc))
        obtain ⟨a, ha, hmem, -⟩ := hdel r hr hw
        rw [invertRecord_u, invertRecord_v, invertRecord_weight_of_del g r hw, ha] at hI
        simp only [Option.getD_some] at hI
        rcases hI with ⟨hx, he⟩ | ⟨hx, he⟩
        · rw [hx, he]; exact hmem
        · rw [hx, he]; exact (hsym.mem_iff r.u r.v a).1 hmem
    · intro hg
      by_cases hd : ∃ r ∈ batch, r.weight < 0 ∧ touches r x e.1
      · obtain ⟨r, hr, hw, ht⟩ := hd
        right
        obtain ⟨a, ha, -, -⟩ := hdel r hr hw
        refine ⟨invertRecord g r, List.mem_map.2 ⟨r, hr, rfl⟩, hinv_del r hr hw, ?_⟩
        rw [invertRecord_u, invertRecord_v, invertRecord_weight_of_del g r hw, ha]
        simp only [Option.getD_some]
        rcases ht with ⟨hx, hk⟩ | ⟨hx, hk⟩
        · left
          refine ⟨hx, ?_⟩
          have hmem : (r.v, e.2) ∈ g.nbrs r.u := by
            rw [← hx, ← hk]; exact hg
          have := weightOf_of_mem_nodup _ _ _ (hnp.nodup r.u) hmem
          rw [ha] at this
          have ha2 : a = e.2 := Option.some.inj this
          rw [ha2, ← hk]
        · right
          refine ⟨hx, ?_⟩
          have hmem0 : (r.u, e.2) ∈ g.nbrs r.v := by
            rw [← hx, ← hk]; exact hg
          have hmem : (r.v, e.2) ∈ g.nbrs r.u := (hsym.mem_iff r.u r.v e.2).2 hmem0
          have := weightOf_of_mem_nodup _ _ _ (hnp.nodup r.u) hmem
          rw [ha] at this
          have ha2 : a = e.2 := Option.some.inj this
          rw [ha2, ← hk]
      · left
        constructor
        · rw [hmem1]
          left
          exact ⟨hg, fun r hr hw ht => hd ⟨r, hr, hw, ht⟩⟩
        · intro r' hr' hw' ht
          obtain ⟨r, hr, rfl⟩ := List.mem_map.1 hr'
          have hw : 0 ≤ r.weight := by
            by_contra hc
            exact (hflip r hr).1 hw' (not_le.mp hc)
          obtain ⟨a1, a2⟩ := hins r hr hw
          unfold touches at ht
          rw [invertRecord_u, invertRecord_v] at ht
          rcases ht with ⟨hx, hk⟩ | ⟨hx, hk⟩
          · exact a1 ⟨e, by rw [← hx]; exact hg, hk⟩
          · exact a2 ⟨e, by rw [← hx]; exact hg, hk⟩
  · rw [hE2, hE1]
    unfold inverseBatch
    rw [netCount_map_flip _ _ hflip]
    ring

/-- Witness of C5 (amended) on `sampleGraph`: delete `{0, 1}` and insert `{1, 2}`, then
apply the inverse batch. -/
theorem applyUpdates_round_trip_witness :
    ∃ g1 g2, applyUpdates sampleGraph [⟨0, 1, -1⟩, ⟨1, 2, 4⟩] = some g1 ∧
      applyUpdates g1 (inverseBatch sampleGraph [⟨0, 1, -1⟩, ⟨1, 2, 4⟩]) = some g2 ∧
      SameAdjacency sampleGraph g2 ∧ g2.E = sampleGraph.E :=
  applyUpdates_round_trip sampleGraph [⟨0, 1, -1⟩, ⟨1, 2, 4⟩] (by decide)
    (symmetric_of_symCheck sampleGraph (by decide)) (by decide) (by decide) (by decide)
    (by decide)

/-- C5 as stated fails: `negativeGraph` (symmetric, duplicate-free, self-loop-free) stores
the edge `{0, 1}` with weight `-3`.  The batch `[(0, 1, -1)]` deletes it; the inverse batch
re-inserts it with its original weight `-3`, which `applyUpdates` reads as another deletion:
the adjacency stays empty and `E` ends at `-1` instead of `1`. -/
theorem round_trip_fails_on_negative_weight :
    negativeGraph.WF ∧ negativeGraph.Symmetric ∧ negativeGraph.NoParallel ∧
    negativeGraph.NoSelfLoops ∧ RoundTripBatch negativeGraph [⟨0, 1, -1⟩] ∧
    inverseBatch negativeGraph [⟨0, 1, -1⟩] = [⟨0, 1, -3⟩] ∧
    applyUpdates negativeGraph [⟨0, 1, -1⟩] =
      some { negativeGraph with adj := [[], []], E := 0 } ∧
    applyUpdates { negativeGraph with adj := [[], []], E := 0 }
        (inverseBatch negativeGraph [⟨0, 1, -1⟩]) =
      some { negativeGraph with adj := [[], []], E := -1 } ∧
    ¬ ∃ g1 g2, applyUpdates negativeGraph [⟨0, 1, -1⟩] = some g1 ∧
      applyUpdates g1 (inverseBatch negativeGraph [⟨0, 1, -1⟩]) = some g2 ∧
      SameAdjacency negativeGraph g2 ∧ g2.E = negativeGraph.E := by
  have h1 : applyUpdates negativeGraph [⟨0, 1, -1⟩] =
      some { negativeGraph with adj := [[], []], E := 0 } := by decide
  have h2 : applyUpdates { negativeGraph with adj := [[], []], E := 0 }
        (inverseBatch negativeGraph [⟨0, 1, -1⟩]) =
      some { negativeGraph with adj := [[], []], E := -1 } := by decide
  refine ⟨by decide, symmetric_of_symCheck _ (by decide), by decide, by decide, by decide,
    by decide, h1, h2, ?_⟩
  rintro ⟨g1, g2, e1, e2, -, hE⟩
  rw [h1] at e1
  cases e1
  rw [h2] at e2
  cases e2
  exact absurd hE (by decide)

/-! ## Ordered undirectedness is preserved by every store operation -/

theorem wseq_nil (k : Int) : wseq [] k = [] := rfl

theorem wseq_cons (p : Int × Weight) (l : List (Int × Weight)) (k : Int) :
    wseq (p :: l) k = if p.1 = k then p.2 :: wseq l k else wseq l k := by
  unfold wseq
  by_cases h : p.1 = k <;> simp [List.filter_cons, h]

theorem wseq_append (a b : List (Int × Weight)) (k : Int) :
    wseq (a ++ b) k = wseq a k ++ wseq b k := by
  unfold wseq
  rw [List.filter_append, List.map_append]

theorem wseq_eraseNeighbor (t : Int) (l : List (Int × Weight)) (k : Int) :
    wseq (eraseNeighbor t l) k = if k = t then [] else wseq l k := by
  induction l with
  | nil => simp [eraseNeighbor, wseq_nil]
  | cons p rest ih =>
    by_cases hp : p.1 = t
    · simp only [eraseNeighbor, hp, if_true, ih, wseq_cons]
      by_cases hk : k = t
      · simp [hk]
      · have : ¬ t = k := fun h => hk h.symm
        simp [hk, this]
    · simp only [eraseNeighbor, hp, if_false, wseq_cons, ih]
      by_cases hk : k = t
      · have : ¬ p.1 = k := fun h => hp (h.trans hk)
        simp [hk, this, hp]
      · simp [hk]

theorem wseq_overwriteFirst (t : Int) (w : Weight) (l : List (Int × Weight)) (k : Int) :
    wseq (overwriteFirst t w l).1 k = if k = t then setHead w (wseq l k) else wseq l k := by
  induction l with
  | nil => simp [overwriteFirst, wseq_nil, setHead]
  | cons p rest ih =>
    by_cases hp : p.1 = t
    · simp only [overwriteFirst, hp, if_true, wseq_cons]
      by_cases hk : k = t
      · simp [hk, setHead]
      · have : ¬ t = k := fun h => hk h.symm
        simp [hk, this]
    · simp only [overwriteFirst, hp, if_false, wseq_cons, ih]
      by_cases hk : k = t
      · have : ¬ p.1 = k := fun h => hp (h.trans hk)
        simp [hk, this, hp]
      · by_cases hpk : p.1 = k <;> simp [hk, hpk]

theorem setHead_setHead (w : Weight) (l : List Weight) :
    setHead w (setHead w l) = setHead w l := by
  cases l <;> rfl

theorem count_eq_count_wseq (l : List (Int × Weight)) (v : Int) (w : Weight) :
    List.count (v, w) l = List.count w (wseq l v) := by
  induction l with
  | nil => simp [wseq_nil]
  | cons p rest ih =>
    obtain ⟨a, b⟩ := p
    rw [wseq_cons]
    by_cases ha : a = v
    · subst ha
      simp only [if_true]
      by_cases hb : b = w
      · subst hb
        simp [ih]
      · have hne : (a, w) ≠ (a, b) := fun h => hb (Prod.mk.inj h).2.symm
        have hb2 : w ≠ b := fun h => hb h.symm
        rw [List.count_cons_of_ne hne, List.count_cons_of_ne hb2, ih]
    · have hne : (v, w) ≠ (a, b) := fun h => ha (Prod.mk.inj h).1.symm
      simp only [ha, if_false]
      rw [List.count_cons_of_ne hne, ih]

theorem wseq_delF (f : Int → List (Int × Weight)) (u v x k : Int) :
    wseq (delF f u v x) k =
      if (x = u ∧ k = v) ∨ (x = v ∧ k = u) then [] else wseq (f x) k := by
  by_cases hxv : x = v
  · subst hxv
    rw [delF_at_v, ← eraseNeighbor_eq_filter, wseq_eraseNeighbor]
    by_cases hk : k = u
    · simp [hk]
    · by_cases hxu : x = u
      · subst hxu; simp [hk]
      · simp [hk, hxu]
  · by_cases hxu : x = u
    · subst hxu
      rw [delF_at_u, ← eraseNeighbor_eq_filter, wseq_eraseNeighbor]
      by_cases hk : k = v <;> simp [hk, hxv]
    · rw [delF_other f u v x hxu hxv]
      simp [hxu, hxv]

theorem wseq_owF (f : Int → List (Int × Weight)) (u v x k : Int) (w : Weight) :
    wseq (owF f u v w x) k =
      if (x = u ∧ k = v) ∨ (x = v ∧ k = u) then setHead w (wseq (f x) k)
      else wseq (f x) k := by
  by_cases hxv : x = v
  · subst hxv
    rw [owF_at_v]
    by_cases hux : u = x
    · subst hux
      rw [if_pos rfl, wseq_overwriteFirst, wseq_overwriteFirst]
      by_cases hk : k = u
      · simp [hk, setHead_setHead]
      · simp [hk]
    · rw [if_neg hux, wseq_overwriteFirst]
      have hxu : ¬ x = u := fun h => hux h.symm
      by_cases hk : k = u <;> simp [hk, hxu]
  · by_cases hxu : x = u
    · subst hxu
      rw [owF_at_u, if_neg hxv, wseq_overwriteFirst]
      by_cases hk : k = v <;> simp [hk, hxv]
    · rw [owF_other f u v x w hxu hxv]
      simp [hxu, hxv]

theorem wseq_pushF (f : Int → List (Int × Weight)) (u v x k : Int) (w : Weight) :
    wseq (pushF f u v w x) k =
      wseq (f x) k ++ ((if x = u ∧ k = v then [w] else []) ++
        (if x = v ∧ k = u then [w] else [])) := by
  unfold pushF
  by_cases hxv : x = v
  · subst hxv
    rw [Function.update_same]
    by_cases hxu : x = u
    · subst hxu
      rw [Function.update_same, wseq_append, wseq_append]
      by_cases hk : k = x
      · subst hk; simp [wseq_cons, wseq_nil]
      · have : ¬ x = k := fun h => hk h.symm
        simp [wseq_cons, wseq_nil, hk, this]
    · rw [Function.update_noteq hxu, wseq_append]
      by_cases hk : k = u
      · subst hk; simp [wseq_cons, wseq_nil, hxu]
      · have : ¬ u = k := fun h => hk h.symm
        simp [wseq_cons, wseq_nil, hk, this, hxu]
  · rw [Function.update_noteq hxv]
    by_cases hxu : x = u
    · subst hxu
      rw [Function.update_same, wseq_append]
      by_cases hk : k = v
      · subst hk; simp [wseq_cons, wseq_nil, hxv]
      · have : ¬ v = k := fun h => hk h.symm
        simp [wseq_cons, wseq_nil, hk, this, hxv]
    · rw [Function.update_noteq hxu]
      simp [hxu, hxv]

theorem seqSym_delF {f : Int → List (Int × Weight)} (h : SeqSym f) (u v : Int) :
    SeqSym (delF f u v) := by
  intro a b
  rw [wseq_delF, wseq_delF, h a b]
  by_cases c1 : a = u ∧ b = v <;> by_cases c2 : a = v ∧ b = u <;>
    simp [c1, c2, and_comm]

theorem seqSym_owF {f : Int → List (Int × Weight)} (h : SeqSym f) (u v : Int) (w : Weight) :
    SeqSym (owF f u v w) := by
  intro a b
  rw [wseq_owF, wseq_owF, h a b]
  by_cases c1 : a = u ∧ b = v <;> by_cases c2 : a = v ∧ b = u <;>
    simp [c1, c2, and_comm]

theorem seqSym_pushF {f : Int → List (Int × Weight)} (h : SeqSym f) (u v : Int) (w : Weight) :
    SeqSym (pushF f u v w) := by
  intro a b
  rw [wseq_pushF, wseq_pushF, h a b]
  by_cases c1 : a = u ∧ b = v <;> by_cases c2 : a = v ∧ b = u <;>
    by_cases c3 : u = v <;> simp [c1, c2, c3, and_comm]

theorem SeqSym.symmetric {g : Graph} (h : SeqSym g.nbrs) : g.Symmetric := by
  intro u v w
  rw [count_eq_count_wseq, count_eq_count_wseq, h u v]

/-! ## The invariant of the reachable states -/

theorem vecGet_some_range {α : Type} (xs : List α) (i : Int) (x : α)
    (h : vecGet xs i = some x) : 0 ≤ i ∧ i < xs.length := by
  rw [vecGet_eq_some] at h
  obtain ⟨h0, h1⟩ := h
  have := (List.getElem?_eq_some.1 h1).1
  exact ⟨h0, by omega⟩

theorem applyUpdate_some_inRange (g g1 : Graph) (e : Edge) (h : applyUpdate g e = some g1) :
    (0 ≤ e.u ∧ e.u < g.adj.length) ∧ (0 ≤ e.v ∧ e.v < g.adj.length) := by
  unfold applyUpdate at h
  split at h
  · cases hu : vecGet g.adj e.u with
    | none => rw [hu] at h; simp at h
    | some lu =>
      rw [hu] at h
      simp only at h
      cases hv : vecGet (vecSet g.adj e.u (eraseNeighbor e.v lu)) e.v with
      | none => rw [hv] at h; simp at h
      | some lv =>
        have r1 := vecGet_some_range _ _ _ hu
        have r2 := vecGet_some_range _ _ _ hv
        rw [length_vecSet] at r2
        exact ⟨r1, r2⟩
  · cases hu : vecGet g.adj e.u with
    | none => rw [hu] at h; simp at h
    | some lu =>
      rw [hu] at h
      simp only at h
      cases hv : vecGet (vecSet g.adj e.u (overwriteFirst e.v e.weight lu).1) e.v with
      | none => rw [hv] at h; simp at h
      | some lv =>
        have r1 := vecGet_some_range _ _ _ hu
        have r2 := vecGet_some_range _ _ _ hv
        rw [length_vecSet] at r2
        exact ⟨r1, r2⟩

theorem applyUpdate_inv (g g1 : Graph) (e : Edge) (hwf : g.WF) (hs : SeqSym g.nbrs)
    (h : applyUpdate g e = some g1) : g1.WF ∧ SeqSym g1.nbrs := by
  obtain ⟨ru, rv⟩ := applyUpdate_some_inRange g g1 e h
  have hu : g.inRange e.u := by
    unfold Graph.inRange; unfold Graph.WF at hwf; omega
  have hv : g.inRange e.v := by
    unfold Graph.inRange; unfold Graph.WF at hwf; omega
  by_cases hw : e.weight < 0
  · obtain ⟨g2, hstep, hV, hlen, -, hnb⟩ := applyUpdate_del_spec g e.u e.v e.weight hwf hu hv hw
    have heq : g1 = g2 := Option.some.inj (h.symm.trans hstep)
    subst heq
    refine ⟨?_, ?_⟩
    · unfold Graph.WF at *
      rw [hlen, hV]; exact hwf
    · rw [hnb]; exact seqSym_delF hs _ _
  · obtain ⟨g2, hstep, hV, hlen, hfound, hnew⟩ :=
      applyUpdate_ins_spec g e.u e.v e.weight hwf hu hv (not_lt.mp hw)
    have heq : g1 = g2 := Option.some.inj (h.symm.trans hstep)
    subst heq
    refine ⟨?_, ?_⟩
    · unfold Graph.WF at *
      rw [hlen, hV]; exact hwf
    · by_cases hp : hasNeighbor (g.nbrs e.u) e.v ∨ hasNeighbor (g.nbrs e.v) e.u
      · rw [(hfound hp).2]; exact seqSym_owF hs _ _ _
      · rw [(hnew hp).2]; exact seqSym_pushF hs _ _ _

theorem applyUpdates_inv (updates : List Edge) : ∀ (g g1 : Graph), g.WF → SeqSym g.nbrs →
    applyUpdates g updates = some g1 → g1.WF ∧ SeqSym g1.nbrs := by
  induction updates with
  | nil =>
    intro g g1 hwf hs h
    have : g = g1 := Option.some.inj h
    subst this
    exact ⟨hwf, hs⟩
  | cons e rest ih =>
    intro g g1 hwf hs h
    simp only [applyUpdates] at h
    cases hstep : applyUpdate g e with
    | none => rw [hstep] at h; simp at h
    | some g2 =>
      rw [hstep] at h
      obtain ⟨hwf2, hs2⟩ := applyUpdate_inv g g2 e hwf hs hstep
      exact ih g2 g1 hwf2 hs2 h

theorem addEdge_spec (g : Graph) (u v : Int) (w : Weight) (hwf : g.WF) (hs : SeqSym g.nbrs) :
    ∃ g1, addEdge g u v w = some g1 ∧ g1.WF ∧ SeqSym g1.nbrs := by
  unfold addEdge
  split
  · exact ⟨g, rfl, hwf, hs⟩
  · rename_i hguard
    have hwf' := hwf
    unfold Graph.WF at hwf'
    obtain ⟨adj2, hpush, hlen, hnb⟩ := pushBoth_spec g.adj u v w (by omega) (by omega)
    rw [hpush]
    refine ⟨_, rfl, ?_, ?_⟩
    · show ((adj2.length : Int)) = g.V
      rw [hlen]; exact hwf'
    · show SeqSym (nbrsOf adj2)
      rw [hnb]; exact seqSym_pushF hs _ _ _

theorem loadCounted_spec (V E : Int) (lines : List Line) :
    ∀ (adj : List (List (Int × Weight))) (edges : List Edge) (edge_count : Int),
      (adj.length : Int) = V → SeqSym (nbrsOf adj) →
      ∃ st, loadCounted V E adj edges edge_count lines = some st ∧
        (st.adj.length : Int) = V ∧ SeqSym (nbrsOf st.adj) := by
  induction lines with
  | nil =>
    intro adj edges ec hlen hs
    exact ⟨_, rfl, hlen, hs⟩
  | cons line rest ih =>
    intro adj edges ec hlen hs
    unfold loadCounted
    split
    · exact ⟨_, rfl, hlen, hs⟩
    · cases line with
      | skip => exact ih adj edges ec hlen hs
      | malformed => exact ih adj edges ec hlen hs
      | edge u v w =>
        simp only
        split
        · exact ih adj edges ec hlen hs
        · rename_i hguard
          split
          · exact ih adj edges ec hlen hs
          · obtain ⟨adj2, hpush, hlen2, hnb⟩ :=
              pushBoth_spec adj u v w (by omega) (by omega)
            rw [hpush]
            exact ih adj2 _ _ (by rw [hlen2]; exact hlen) (by rw [hnb]; exact seqSym_pushF hs _ _ _)

theorem loadExtra_spec (V : Int) (lines : List Line) :
    ∀ (adj : List (List (Int × Weight))) (edges : List Edge) (E : Int),
      (adj.length : Int) = V → SeqSym (nbrsOf adj) →
      ∃ adj2 edges2 E2, loadExtra V adj edges E lines = some (adj2, edges2, E2) ∧
        (adj2.length : Int) = V ∧ SeqSym (nbrsOf adj2) := by
  induction lines with
  | nil =>
    intro adj edges E hlen hs
    exact ⟨_, _, _, rfl, hlen, hs⟩
  | cons line rest ih =>
    intro adj edges E hlen hs
    unfold loadExtra
    cases line with
    | skip => exact ih adj edges E hlen hs
    | malformed => exact ih adj edges E hlen hs
    | edge u v w =>
      simp only
      split
      · exact ih adj edges E hlen hs
      · rename_i hguard
        split
        · exact ih adj edges E hlen hs
        · obtain ⟨adj2, hpush, hlen2, hnb⟩ :=
            pushBoth_spec adj u v w (by omega) (by omega)
          rw [hpush]
          exact ih adj2 _ _ (by rw [hlen2]; exact hlen) (by rw [hnb]; exact seqSym_pushF hs _ _ _)

theorem seqSym_replicate (n : Nat) : SeqSym (nbrsOf (List.replicate n [])) := by
  have : ∀ x : Int, nbrsOf (List.replicate n ([] : List (Int × Weight))) x = [] := by
    intro x
    unfold nbrsOf vecGet
    split
    · cases h : (List.replicate n ([] : List (Int × Weight)))[x.toNat]? with
      | none => rfl
      | some l =>
        have := (List.getElem?_eq_some.1 h).2
        simp at this
        simp [← this]
    · rfl
  intro u v
  rw [this u, this v]
  rfl

theorem loadFromFile_spec (file : FileContent) :
    ∃ g, loadFromFile Graph.empty file = some g ∧ (g.WF ∨ g.adj = []) ∧ SeqSym g.nbrs ∧
      (∀ f, file = .graph f → g.WF) := by
  have hempty : SeqSym (nbrsOf ([] : List (List (Int × Weight)))) := seqSym_replicate 0
  cases file with
  | unopened => exact ⟨Graph.empty, rfl, Or.inl rfl, hempty, fun _ _ => rfl⟩
  | badV V => exact ⟨_, rfl, Or.inr rfl, hempty, fun f hf => by cases hf⟩
  | badE V E => exact ⟨_, rfl, Or.inr rfl, hempty, fun f hf => by cases hf⟩
  | graph f =>
    unfold loadFromFile
    simp only
    split
    · exact ⟨_, rfl, Or.inl rfl, hempty, fun _ _ => rfl⟩
    · rename_i hguard
      have hlen0 : ((List.replicate f.V.toNat ([] : List (Int × Weight))).length : Int) = f.V := by
        rw [List.length_replicate]; omega
      obtain ⟨st, hst, hlen1, hs1⟩ :=
        loadCounted_spec f.V f.E f.lines _ [] 0 hlen0 (seqSym_replicate _)
      rw [hst]
      simp only
      obtain ⟨adj2, edges2, E2, hex, hlen2, hs2⟩ :=
        loadExtra_spec f.V st.remaining st.adj st.edges
          (if st.edge_count < f.E then st.edge_count else f.E) hlen1 hs1
      rw [hex]
      exact ⟨_, rfl, Or.inl hlen2, hs2, fun _ _ => hlen2⟩

theorem addEdge_of_adj_nil (g g1 : Graph) (u v : Int) (w : Weight) (hnil : g.adj = [])
    (h : addEdge g u v w = some g1) : g1 = g := by
  unfold addEdge at h
  split at h
  · exact (Option.some.inj h).symm
  · simp [pushBoth, vecGet, hnil] at h

theorem applyUpdates_of_adj_nil (g g1 : Graph) (updates : List Edge) (hnil : g.adj = [])
    (h : applyUpdates g updates = some g1) : g1 = g := by
  cases updates with
  | nil => exact (Option.some.inj h).symm
  | cons e rest =>
    exfalso
    have hstep : applyUpdate g e = none := by
      unfold applyUpdate
      split <;> simp [vecGet, hnil]
    simp [applyUpdates, hstep] at h

theorem reachable_inv (g : Graph) (h : Reachable g) : (g.WF ∨ g.adj = []) ∧ SeqSym g.nbrs := by
  induction h with
  | load file g hload =>
    obtain ⟨g2, h2, hwf, hs, -⟩ := loadFromFile_spec file
    have : g = g2 := Option.some.inj (hload.symm.trans h2)
    subst this
    exact ⟨hwf, hs⟩
  | addEdge g g1 u v w _ hadd ih =>
    rcases ih.1 with hwf | hnil
    · obtain ⟨g2, h2, hwf2, hs⟩ := addEdge_spec g u v w hwf ih.2
      have : g1 = g2 := Option.some.inj (hadd.symm.trans h2)
      subst this
      exact ⟨Or.inl hwf2, hs⟩
    · rw [addEdge_of_adj_nil g g1 u v w hnil hadd]
      exact ih
  | applyUpdates g g1 updates _ hrun ih =>
    rcases ih.1 with hwf | hnil
    · obtain ⟨hwf1, hs1⟩ := applyUpdates_inv updates g g1 hwf ih.2 hrun
      exact ⟨Or.inl hwf1, hs1⟩
    · rw [applyUpdates_of_adj_nil g g1 updates hnil hrun]
      exact ih

theorem applyUpdates_total (updates : List Edge) : ∀ g : Graph, g.WF →
    (∀ e ∈ updates, g.inRange e.u ∧ g.inRange e.v) →
    ∃ g1, applyUpdates g updates = some g1 := by
  induction updates with
  | nil => intro g _ _; exact ⟨g, rfl⟩
  | cons e rest ih =>
    intro g hwf hr
    have he := hr e (List.mem_cons_self _ _)
    have hstep : ∃ g2, applyUpdate g e = some g2 ∧ g2.V = g.V ∧ g2.adj.length = g.adj.length := by
      by_cases hw : e.weight < 0
      · obtain ⟨g2, h1, h2, h3, -⟩ := applyUpdate_del_spec g e.u e.v e.weight hwf he.1 he.2 hw
        exact ⟨g2, h1, h2, h3⟩
      · obtain ⟨g2, h1, h2, h3, -⟩ :=
          applyUpdate_ins_spec g e.u e.v e.weight hwf he.1 he.2 (not_lt.mp hw)
        exact ⟨g2, h1, h2, h3⟩
    obtain ⟨g2, h1, hV, hlen⟩ := hstep
    have hwf2 : g2.WF := by
      unfold Graph.WF at *
      rw [hlen, hV]; exact hwf
    obtain ⟨g1, hrest⟩ := ih g2 hwf2 (by
      intro e' h'
      have := hr e' (List.mem_cons_of_mem _ h')
      unfold Graph.inRange at *
      rw [hV]; exact this)
    refine ⟨g1, ?_⟩
    simp only [applyUpdates, h1]
    exact hrest

/-- C6: undirectedness is an invariant of the graph store.  In every state produced by
`loadFromFile` followed by any sequence of `addEdge` and `applyUpdates` calls, the pair
`(v, w)` occurs in `adj[u]` exactly as many times as `(u, w)` occurs in `adj[v]`.  Moreover
`loadFromFile` always produces a state; `adj` has `V` lists in the state it produces from a
file whose header is read, and in every state either `adj` has `V` lists or `adj` is empty
(the header could not be read); and from a state whose `adj` has `V` lists every `addEdge`
call and every `applyUpdates` call with in-range records produces a state again. -/
theorem reachable_undirected (g : Graph) (h : Reachable g) :
    (∀ u v : Int, ∀ w : Weight, List.count (v, w) (g.nbrs u) = List.count (u, w) (g.nbrs v)) ∧
    (∀ file, ∃ g0, loadFromFile Graph.empty file = some g0 ∧
      (∀ f, file = .graph f → g0.WF)) ∧
    (g.WF ∨ g.adj = []) ∧
    (g.WF → ∀ (u v : Int) (w : Weight), ∃ g1, addEdge g u v w = some g1) ∧
    (g.WF → ∀ updates : List Edge, (∀ e ∈ updates, g.inRange e.u ∧ g.inRange e.v) →
      ∃ g1, applyUpdates g updates = some g1) := by
  obtain ⟨hshape, hs⟩ := reachable_inv g h
  refine ⟨SeqSym.symmetric hs, ?_, hshape, ?_, ?_⟩
  · intro file
    obtain ⟨g0, h0, -, -, hwf⟩ := loadFromFile_spec file
    exact ⟨g0, h0, hwf⟩
  · intro hwf u v w
    obtain ⟨g1, h1, -⟩ := addEdge_spec g u v w hwf hs
    exact ⟨g1, h1⟩
  · intro hwf updates hr
    exact applyUpdates_total updates g hwf hr

/-- Witness of C6: `sampleUpdated` is reached by loading a file (whose self-loop line is
ignored) and applying the batch `[(1, 2, 4)]`. -/
theorem reachable_undirected_witness :
    (∀ u v : Int, ∀ w : Weight,
      List.count (v, w) (sampleUpdated.nbrs u) = List.count (u, w) (sampleUpdated.nbrs v)) ∧
    (∀ file, ∃ g0, loadFromFile Graph.empty file = some g0 ∧
      (∀ f, file = .graph f → g0.WF)) ∧
    (sampleUpdated.WF ∨ sampleUpdated.adj = []) ∧
    (sampleUpdated.WF →
      ∀ (u v : Int) (w : Weight), ∃ g1, addEdge sampleUpdated u v w = some g1) ∧
    (sampleUpdated.WF → ∀ updates : List Edge,
      (∀ e ∈ updates, sampleUpdated.inRange e.u ∧ sampleUpdated.inRange e.v) →
      ∃ g1, applyUpdates sampleUpdated updates = some g1) :=
  reachable_undirected sampleUpdated
    (Reachable.applyUpdates sampleGraph sampleUpdated [⟨1, 2, 4⟩]
      (Reachable.load (.graph ⟨3, 2, [.edge 0 1 5, .edge 2 2 7]⟩) sampleGraph (by decide))
      (by decide))

/-! ## Parallel edges -/

theorem nbrsOf_replicate_nil (n : Nat) (x : Int) :
    nbrsOf (List.replicate n ([] : List (Int × Weight))) x = [] := by
  unfold nbrsOf vecGet
  split
  · cases h : (List.replicate n ([] : List (Int × Weight)))[x.toNat]? with
    | none => rfl
    | some l =>
      have := (List.getElem?_eq_some.1 h).2
      simp at this
      simp [← this]
  · rfl

theorem wseq_eq_nil_of_not_mem (l : List (Int × Weight)) (k : Int)
    (h : k ∉ l.map Prod.fst) : wseq l k = [] := by
  induction l with
  | nil => rfl
  | cons p rest ih =>
    rw [List.map_cons, List.mem_cons, not_or] at h
    have hp : ¬ p.1 = k := fun hc => h.1 hc.symm
    rw [wseq_cons, if_neg hp]
    exact ih h.2

theorem wseq_length_le_one (l : List (Int × Weight)) (k : Int)
    (h : (l.map Prod.fst).Nodup) : (wseq l k).length ≤ 1 := by
  induction l with
  | nil => simp [wseq_nil]
  | cons p rest ih =>
    rw [List.map_cons, List.nodup_cons] at h
    rw [wseq_cons]
    split
    · rename_i hp
      rw [hp] at h
      rw [wseq_eq_nil_of_not_mem rest k h.1]
      simp
    · exact ih h.2

theorem eq_of_count_eq_of_length_le_one (a b : List Weight) (ha : a.length ≤ 1)
    (hb : b.length ≤ 1) (h : ∀ w, List.count w a = List.count w b) : a = b := by
  match a, b, ha, hb, h with
  | [], [], _, _, _ => rfl
  | [], y :: _, _, _, h => have := h y; simp at this
  | x :: _, [], _, _, h => have := h x; simp at this
  | [x], [y], _, _, h =>
    have := h x
    by_cases hxy : x = y
    · rw [hxy]
    · have hne : x ≠ y := hxy
      rw [List.count_cons_self, List.count_cons_of_ne hne] at this
      simp at this
  | _ :: _ :: _, _, ha, _, _ => simp at ha
  | _, _ :: _ :: _, _, hb, _ => simp at hb

theorem seqSym_of_symmetric {g : Graph} (hsym : g.Symmetric) (hnp : g.NoParallel) :
    SeqSym g.nbrs := by
  intro u v
  apply eq_of_count_eq_of_length_le_one
  · exact wseq_length_le_one _ _ (hnp.nodup u)
  · exact wseq_length_le_one _ _ (hnp.nodup v)
  · intro w
    rw [← count_eq_count_wseq, ← count_eq_count_wseq]
    exact hsym u v w

theorem noParallel_of_keyNodup (g : Graph) (h : KeyNodup g.nbrs) : g.NoParallel := by
  intro l hl
  obtain ⟨i, hi, rfl⟩ := List.mem_iff_getElem.1 hl
  have : g.nbrs (i : Int) = g.adj[i] := by
    simp [Graph.nbrs, nbrsOf, vecGet, List.getElem?_eq_getElem hi]
  rw [← this]
  exact h _

theorem delF_sublist (f : Int → List (Int × Weight)) (u v x : Int) :
    (delF f u v x).Sublist (f x) := by
  by_cases hxv : x = v
  · subst hxv
    rw [delF_at_v]
    exact List.filter_sublist _
  · by_cases hxu : x = u
    · subst hxu
      rw [delF_at_u]
      exact List.filter_sublist _
    · rw [delF_other f u v x hxu hxv]

theorem keyNodup_delF {f : Int → List (Int × Weight)} (h : KeyNodup f) (u v : Int) :
    KeyNodup (delF f u v) := by
  intro x
  exact List.Nodup.sublist ((delF_sublist f u v x).map Prod.fst) (h x)

theorem keyNodup_owF {f : Int → List (Int × Weight)} (h : KeyNodup f) (u v : Int) (w : Weight) :
    KeyNodup (owF f u v w) := by
  intro x
  rw [map_fst_owF]
  exact h x

theorem keyNodup_pushF {f : Int → List (Int × Weight)} (h : KeyNodup f) (u v : Int)
    (w : Weight) (hne : u ≠ v) (h1 : ¬ hasNeighbor (f u) v) (h2 : ¬ hasNeighbor (f v) u) :
    KeyNodup (pushF f u v w) := by
  intro x
  unfold pushF
  rw [hasNeighbor_iff_mem_map] at h1 h2
  by_cases hxv : x = v
  · subst hxv
    rw [Function.update_same, Function.update_noteq (Ne.symm hne), List.map_append]
    exact List.Nodup.append (h x) (List.nodup_singleton _) (by simpa using h2)
  · rw [Function.update_noteq hxv]
    by_cases hxu : x = u
    · subst hxu
      rw [Function.update_same, List.map_append]
      exact List.Nodup.append (h x) (List.nodup_singleton _) (by simpa using h1)
    · rw [Function.update_noteq hxu]
      exact h x

theorem applyUpdates_noParallel_spec (updates : List Edge) : ∀ g : Graph, g.WF →
    SeqSym g.nbrs → KeyNodup g.nbrs →
    (∀ e ∈ updates, g.inRange e.u ∧ g.inRange e.v ∧ e.u ≠ e.v) →
    ∃ g1, applyUpdates g updates = some g1 ∧ g1.WF ∧ SeqSym g1.nbrs ∧ KeyNodup g1.nbrs := by
  induction updates with
  | nil => intro g hwf hs hk _; exact ⟨g, rfl, hwf, hs, hk⟩
  | cons e rest ih =>
    intro g hwf hs hk hr
    obtain ⟨hu, hv, hne⟩ := hr e (List.mem_cons_self _ _)
    have hstep : ∃ g2, applyUpdate g e = some g2 ∧ g2.V = g.V ∧
        g2.adj.length = g.adj.length ∧ KeyNodup g2.nbrs := by
      by_cases hw : e.weight < 0
      · obtain ⟨g2, h1, h2, h3, -, hnb⟩ := applyUpdate_del_spec g e.u e.v e.weight hwf hu hv hw
        exact ⟨g2, h1, h2, h3, by rw [hnb]; exact keyNodup_delF hk _ _⟩
      · obtain ⟨g2, h1, h2, h3, hfound, hnew⟩ :=
          applyUpdate_ins_spec g e.u e.v e.weight hwf hu hv (not_lt.mp hw)
        refine ⟨g2, h1, h2, h3, ?_⟩
        by_cases hp : hasNeighbor (g.nbrs e.u) e.v ∨ hasNeighbor (g.nbrs e.v) e.u
        · rw [(hfound hp).2]; exact keyNodup_owF hk _ _ _
        · rw [(hnew hp).2]
          exact keyNodup_pushF hk _ _ _ hne (fun h => hp (Or.inl h)) (fun h => hp (Or.inr h))
    obtain ⟨g2, h1, hV, hlen, hk2⟩ := hstep
    obtain ⟨hwf2, hs2⟩ := applyUpdate_inv g g2 e hwf hs h1
    obtain ⟨g1, hrest, hwf1, hs1, hk1⟩ := ih g2 hwf2 hs2 hk2 (by
      intro e' h'
      have := hr e' (List.mem_cons_of_mem _ h')
      unfold Graph.inRange at *
      rw [hV]; exact this)
    refine ⟨g1, ?_, hwf1, hs1, hk1⟩
    simp only [applyUpdates, h1]
    exact hrest

theorem hasNeighbor_pushF (f : Int → List (Int × Weight)) (u v x k : Int) (w : Weight) :
    hasNeighbor (pushF f u v w x) k ↔
      hasNeighbor (f x) k ∨ (x = u ∧ k = v) ∨ (x = v ∧ k = u) := by
  unfold hasNeighbor
  constructor
  · rintro ⟨e, he, hk⟩
    rcases (mem_pushF f u v x w e).1 he with h | ⟨hx, rfl⟩ | ⟨hx, rfl⟩
    · exact Or.inl ⟨e, h, hk⟩
    · exact Or.inr (Or.inl ⟨hx, hk.symm⟩)
    · exact Or.inr (Or.inr ⟨hx, hk.symm⟩)
  · rintro (⟨e, he, hk⟩ | ⟨hx, hk⟩ | ⟨hx, hk⟩)
    · exact ⟨e, (mem_pushF f u v x w e).2 (Or.inl he), hk⟩
    · exact ⟨(v, w), (mem_pushF f u v x w _).2 (Or.inr (Or.inl ⟨hx, rfl⟩)), hk.symm⟩
    · exact ⟨(u, w), (mem_pushF f u v x w _).2 (Or.inr (Or.inr ⟨hx, rfl⟩)), hk.symm⟩

/-- The records still to be stored name pairs that are not stored yet and that are
pairwise distinct. -/
theorem fresh_after_push (f : Int → List (Int × Weight)) (u v : Int) (w : Weight)
    (rest : List Edge)
    (hfresh : ∀ r ∈ (⟨u, v, w⟩ : Edge) :: rest,
      ¬ hasNeighbor (f r.u) r.v ∧ ¬ hasNeighbor (f r.v) r.u)
    (hpw : ((⟨u, v, w⟩ : Edge) :: rest).Pairwise (fun a b => ¬ samePair a b)) :
    (∀ r ∈ rest, ¬ hasNeighbor (pushF f u v w r.u) r.v ∧
      ¬ hasNeighbor (pushF f u v w r.v) r.u) ∧
    rest.Pairwise (fun a b => ¬ samePair a b) := by
  rw [List.pairwise_cons] at hpw
  refine ⟨?_, hpw.2⟩
  intro r hr
  have hf := hfresh r (List.mem_cons_of_mem _ hr)
  have hns := hpw.1 r hr
  unfold samePair at hns
  simp only at hns
  rw [hasNeighbor_pushF, hasNeighbor_pushF]
  constructor
  · rintro (h | ⟨h1, h2⟩ | ⟨h1, h2⟩)
    · exact hf.1 h
    · exact hns (Or.inl ⟨h1.symm, h2.symm⟩)
    · exact hns (Or.inr ⟨h2.symm, h1.symm⟩)
  · rintro (h | ⟨h1, h2⟩ | ⟨h1, h2⟩)
    · exact hf.2 h
    · exact hns (Or.inr ⟨h1.symm, h2.symm⟩)
    · exact hns (Or.inl ⟨h2.symm, h1.symm⟩)

theorem loadCounted_keys (V E : Int) (lines : List Line) :
    ∀ (adj : List (List (Int × Weight))) (edges : List Edge) (edge_count : Int)
      (st : LoadState),
      (adj.length : Int) = V → KeyNodup (nbrsOf adj) →
      (∀ r ∈ storedEdges V lines,
        ¬ hasNeighbor (nbrsOf adj r.u) r.v ∧ ¬ hasNeighbor (nbrsOf adj r.v) r.u) →
      (storedEdges V lines).Pairwise (fun a b => ¬ samePair a b) →
      loadCounted V E adj edges edge_count lines = some st →
      (st.adj.length : Int) = V ∧ KeyNodup (nbrsOf st.adj) ∧
      (∀ r ∈ storedEdges V st.remaining,
        ¬ hasNeighbor (nbrsOf st.adj r.u) r.v ∧ ¬ hasNeighbor (nbrsOf st.adj r.v) r.u) ∧
      (storedEdges V st.remaining).Pairwise (fun a b => ¬ samePair a b) := by
  induction lines with
  | nil =>
    intro adj edges ec st hlen hk hf hp h
    have : st = ⟨adj, edges, ec, []⟩ := (Option.some.inj h).symm
    subst this
    exact ⟨hlen, hk, hf, hp⟩
  | cons line rest ih =>
    intro adj edges ec st hlen hk hf hp h
    unfold loadCounted at h
    split at h
    · have : st = ⟨adj, edges, ec, line :: rest⟩ := (Option.some.inj h).symm
      subst this
      exact ⟨hlen, hk, hf, hp⟩
    · cases line with
      | skip => exact ih adj edges ec st hlen hk hf hp h
      | malformed => exact ih adj edges ec st hlen hk hf hp h
      | edge u v w =>
        simp only at h
        unfold storedEdges at hf hp
        split at h
        · rename_i hg
          rw [if_pos hg] at hf hp
          exact ih adj edges ec st hlen hk hf hp h
        · rename_i hg
          rw [if_neg hg] at hf hp
          split at h
          · rename_i hl
            rw [if_pos hl] at hf hp
            exact ih adj edges ec st hlen hk hf hp h
          · rename_i hl
            rw [if_neg hl] at hf hp
            obtain ⟨adj2, hpush, hlen2, hnb⟩ :=
              pushBoth_spec adj u v w (by omega) (by omega)
            rw [hpush] at h
            have hnew := fresh_after_push (nbrsOf adj) u v w _ hf hp
            have hhead := hf ⟨u, v, w⟩ (List.mem_cons_self _ _)
            refine ih adj2 _ _ st (by rw [hlen2]; exact hlen) ?_ ?_ hnew.2 h
            · rw [hnb]; exact keyNodup_pushF hk u v w hl hhead.1 hhead.2
            · rw [hnb]; exact hnew.1

theorem loadExtra_keys (V : Int) (lines : List Line) :
    ∀ (adj : List (List (Int × Weight))) (edges : List Edge) (E : Int)
      (r : List (List (Int × Weight)) × List Edge × Int),
      (adj.length : Int) = V → KeyNodup (nbrsOf adj) →
      (∀ r ∈ storedEdges V lines,
        ¬ hasNeighbor (nbrsOf adj r.u) r.v ∧ ¬ hasNeighbor (nbrsOf adj r.v) r.u) →
      (storedEdges V lines).Pairwise (fun a b => ¬ samePair a b) →
      loadExtra V adj edges E lines = some r → KeyNodup (nbrsOf r.1) := by
  induction lines with
  | nil =>
    intro adj edges E r hlen hk hf hp h
    have : r = (adj, edges, E) := (Option.some.inj h).symm
    subst this
    exact hk
  | cons line rest ih =>
    intro adj edges E r hlen hk hf hp h
    unfold loadExtra at h
    cases line with
    | skip => exact ih adj edges E r hlen hk hf hp h
    | malformed => exact ih adj edges E r hlen hk hf hp h
    | edge u v w =>
      simp only at h
      unfold storedEdges at hf hp
      split at h
      · rename_i hg
        rw [if_pos hg] at hf hp
        exact ih adj edges E r hlen hk hf hp h
      · rename_i hg
        rw [if_neg hg] at hf hp
        split at h
        · rename_i hl
          rw [if_pos hl] at hf hp
          exact ih adj edges E r hlen hk hf hp h
        · rename_i hl
          rw [if_neg hl] at hf hp
          obtain ⟨adj2, hpush, hlen2, hnb⟩ :=
            pushBoth_spec adj u v w (by omega) (by omega)
          rw [hpush] at h
          have hnew := fresh_after_push (nbrsOf adj) u v w _ hf hp
          have hhead := hf ⟨u, v, w⟩ (List.mem_cons_self _ _)
          refine ih adj2 _ _ r (by rw [hlen2]; exact hlen) ?_ ?_ hnew.2 h
          · rw [hnb]; exact keyNodup_pushF hk u v w hl hhead.1 hhead.2
          · rw [hnb]; exact hnew.1

theorem keyNodup_nil : KeyNodup (nbrsOf ([] : List (List (Int × Weight)))) := by
  intro x
  have := nbrsOf_replicate_nil 0 x
  rw [List.replicate_zero] at this
  rw [this]
  exact List.nodup_nil

theorem loadFromFile_keys (file : FileContent) (g : Graph) (hd : file.DistinctPairs)
    (h : loadFromFile Graph.empty file = some g) : KeyNodup g.nbrs := by
  cases file with
  | unopened =>
    have : g = Graph.empty := (Option.some.inj h).symm
    subst this; exact keyNodup_nil
  | badV V =>
    have : g = { Graph.empty with V := V } := (Option.some.inj h).symm
    subst this; exact keyNodup_nil
  | badE V E =>
    have : g = { Graph.empty with V := V, E := E } := (Option.some.inj h).symm
    subst this; exact keyNodup_nil
  | graph f =>
    unfold FileContent.DistinctPairs at hd
    unfold loadFromFile at h
    simp only at h
    split at h
    · have : g = { Graph.empty with V := 0, E := 0 } := (Option.some.inj h).symm
      subst this; exact keyNodup_nil
    · rename_i hguard
      have hlen0 : ((List.replicate f.V.toNat ([] : List (Int × Weight))).length : Int) = f.V := by
        rw [List.length_replicate]; omega
      have hk0 : KeyNodup (nbrsOf (List.replicate f.V.toNat ([] : List (Int × Weight)))) := by
        intro x; rw [nbrsOf_replicate_nil]; exact List.nodup_nil
      have hf0 : ∀ r ∈ storedEdges f.V f.lines,
          ¬ hasNeighbor (nbrsOf (List.replicate f.V.toNat ([] : List (Int × Weight))) r.u) r.v ∧
          ¬ hasNeighbor (nbrsOf (List.replicate f.V.toNat ([] : List (Int × Weight))) r.v) r.u := by
        intro r _
        rw [nbrsOf_replicate_nil, nbrsOf_replicate_nil]
        simp [hasNeighbor]
      cases hst : loadCounted f.V f.E (List.replicate f.V.toNat []) [] 0 f.lines with
      | none => rw [hst] at h; simp at h
      | some st =>
        rw [hst] at h
        simp only at h
        obtain ⟨hlen1, hk1, hf1, hp1⟩ :=
          loadCounted_keys f.V f.E f.lines _ [] 0 st hlen0 hk0 hf0 hd hst
        cases hex : loadExtra f.V st.adj st.edges
            (if st.edge_count < f.E then st.edge_count else f.E) st.remaining with
        | none => rw [hex] at h; simp at h
        | some r =>
          rw [hex] at h
          have hk2 := loadExtra_keys f.V st.remaining st.adj st.edges _ r hlen1 hk1 hf1 hp1 hex
          obtain ⟨adj2, edges2, E2⟩ := r
          simp only at h
          have : g = { Graph.empty with V := f.V, E := E2, edges := edges2, adj := adj2 } :=
            (Option.some.inj h).symm
          subst this
          exact hk2

theorem applyUpdate_keys (g g1 : Graph) (e : Edge) (hwf : g.WF) (hk : KeyNodup g.nbrs)
    (hne : e.u ≠ e.v) (h : applyUpdate g e = some g1) : KeyNodup g1.nbrs := by
  obtain ⟨ru, rv⟩ := applyUpdate_some_inRange g g1 e h
  have hu : g.inRange e.u := by
    unfold Graph.inRange; unfold Graph.WF at hwf; omega
  have hv : g.inRange e.v := by
    unfold Graph.inRange; unfold Graph.WF at hwf; omega
  by_cases hw : e.weight < 0
  · obtain ⟨g2, hstep, -, -, -, hnb⟩ := applyUpdate_del_spec g e.u e.v e.weight hwf hu hv hw
    have heq : g1 = g2 := Option.some.inj (h.symm.trans hstep)
    subst heq
    rw [hnb]; exact keyNodup_delF hk _ _
  · obtain ⟨g2, hstep, -, -, hfound, hnew⟩ :=
      applyUpdate_ins_spec g e.u e.v e.weight hwf hu hv (not_lt.mp hw)
    have heq : g1 = g2 := Option.some.inj (h.symm.trans hstep)
    subst heq
    by_cases hp : hasNeighbor (g.nbrs e.u) e.v ∨ hasNeighbor (g.nbrs e.v) e.u
    · rw [(hfound hp).2]; exact keyNodup_owF hk _ _ _
    · rw [(hnew hp).2]
      exact keyNodup_pushF hk _ _ _ hne (fun h => hp (Or.inl h)) (fun h => hp (Or.inr h))

theorem applyUpdates_keys (updates : List Edge) : ∀ (g g1 : Graph), g.WF → SeqSym g.nbrs →
    KeyNodup g.nbrs → (∀ e ∈ updates, e.u ≠ e.v) →
    applyUpdates g updates = some g1 → KeyNodup g1.nbrs := by
  induction updates with
  | nil =>
    intro g g1 _ _ hk _ h
    have : g = g1 := Option.some.inj h
    subst this
    exact hk
  | cons e rest ih =>
    intro g g1 hwf hs hk hne h
    simp only [applyUpdates] at h
    cases hstep : applyUpdate g e with
    | none => rw [hstep] at h; simp at h
    | some g2 =>
      rw [hstep] at h
      obtain ⟨hwf2, hs2⟩ := applyUpdate_inv g g2 e hwf hs hstep
      have hk2 := applyUpdate_keys g g2 e hwf hk (hne e (List.mem_cons_self _ _)) hstep
      exact ih g2 g1 hwf2 hs2 hk2 (fun e' h' => hne e' (List.mem_cons_of_mem _ h')) h

theorem reachableOnce_reachable (g : Graph) (h : ReachableOnce g) : Reachable g := by
  induction h with
  | load file g _ hload => exact Reachable.load file g hload
  | addEdge g g1 u v w _ _ _ hadd ih => exact Reachable.addEdge g g1 u v w ih hadd
  | applyUpdates g g1 updates _ _ hrun ih => exact Reachable.applyUpdates g g1 updates ih hrun

theorem reachableOnce_keys (g : Graph) (h : ReachableOnce g) : KeyNodup g.nbrs := by
  induction h with
  | load file g hd hload => exact loadFromFile_keys file g hd hload
  | addEdge g g1 u v w hreach hne habs hadd ih =>
    obtain ⟨hshape, hs⟩ := reachable_inv g (reachableOnce_reachable g hreach)
    rcases hshape with hwf | hnil
    · have hwf' := hwf
      unfold Graph.WF at hwf'
      unfold addEdge at hadd
      split at hadd
      · have : g1 = g := (Option.some.inj hadd).symm
        subst this; exact ih
      · rename_i hguard
        obtain ⟨adj2, hpush, -, hnb⟩ := pushBoth_spec g.adj u v w (by omega) (by omega)
        rw [hpush] at hadd
        have : g1 = { g with edges := g.edges ++ [⟨u, v, w⟩], adj := adj2, E := g.E + 1 } :=
          (Option.some.inj hadd).symm
        subst this
        show KeyNodup (nbrsOf adj2)
        rw [hnb]
        exact keyNodup_pushF ih u v w hne habs
          (fun hc => habs (((SeqSym.symmetric hs).hasNeighbor_iff u v).2 hc))
    · rw [addEdge_of_adj_nil g g1 u v w hnil hadd]
      exact ih
  | applyUpdates g g1 updates hreach hne hrun ih =>
    obtain ⟨hshape, hs⟩ := reachable_inv g (reachableOnce_reachable g hreach)
    rcases hshape with hwf | hnil
    · exact applyUpdates_keys updates g g1 hwf hs ih hne hrun
    · rw [applyUpdates_of_adj_nil g g1 updates hnil hrun]
      exact ih

theorem applyUpdate_overwrites_present (g : Graph) (hwf : g.WF) (hsym : g.Symmetric)
    (hk : KeyNodup g.nbrs) (u v : Int) (w : Weight) (hu : g.inRange u) (hv : g.inRange v)
    (hw : 0 ≤ w) (hp : hasNeighbor (g.nbrs u) v) :
    ∃ g1, applyUpdate g ⟨u, v, w⟩ = some g1 ∧
      (∀ x, (g1.nbrs x).map Prod.fst = (g.nbrs x).map Prod.fst) ∧
      (∀ w', (v, w') ∈ g1.nbrs u ↔ w' = w) ∧ (∀ w', (u, w') ∈ g1.nbrs v ↔ w' = w) := by
  obtain ⟨g1, hstep, -, -, hfound, -⟩ := applyUpdate_ins_spec g u v w hwf hu hv hw
  obtain ⟨-, hnb⟩ := hfound (Or.inl hp)
  have hpv : hasNeighbor (g.nbrs v) u := (hsym.hasNeighbor_iff u v).1 hp
  have hk1 : KeyNodup g1.nbrs := by rw [hnb]; exact keyNodup_owF hk _ _ _
  have hmap : ∀ x, (g1.nbrs x).map Prod.fst = (g.nbrs x).map Prod.fst := by
    intro x; rw [hnb, map_fst_owF]
  have hwu : weightOf (g1.nbrs u) v = some w := by
    rw [hnb, owF_at_u]
    split
    · rename_i h; subst h
      exact weightOf_overwriteFirst _ _ _ ((hasNeighbor_overwriteFirst _ _ _ _).2 hp)
    · exact weightOf_overwriteFirst _ _ _ hp
  have hwv : weightOf (g1.nbrs v) u = some w := by
    rw [hnb, owF_at_v]
    split
    · rename_i h; subst h
      exact weightOf_overwriteFirst _ _ _ ((hasNeighbor_overwriteFirst _ _ _ _).2 hp)
    · exact weightOf_overwriteFirst _ _ _ hpv
  have huniq : ∀ (x k : Int), weightOf (g1.nbrs x) k = some w →
      ∀ w', (k, w') ∈ g1.nbrs x ↔ w' = w := by
    intro x k hwk w'
    constructor
    · intro hmem
      have := weightOf_of_mem_nodup _ _ _ (hk1 x) hmem
      rw [hwk] at this
      exact (Option.some.inj this).symm
    · intro heq
      have hex : hasNeighbor (g1.nbrs x) k := by
        by_contra hc
        have hnil : weightOf (g1.nbrs x) k = none := by
          unfold weightOf
          rw [List.find?_eq_none.2]
          · rfl
          · intro e he
            have : ¬ e.1 = k := fun h => hc ⟨e, he, h⟩
            simpa using this
        rw [hnil] at hwk
        cases hwk
      obtain ⟨a, ha, hmem⟩ := weightOf_of_hasNeighbor _ _ hex
      rw [hwk] at ha
      rw [heq, Option.some.inj ha]
      exact hmem
  exact ⟨g1, hstep, hmap, huniq u v hwu, huniq v u hwv⟩

/-- C7 (amended): no parallel edges.  In every graph state produced by `loadFromFile` from
a file that names every pair it stores once, followed by any sequence of `addEdge` calls
for a pair `u ≠ v` that is not stored and of `applyUpdates` calls whose records have
`u ≠ v`, each adjacency list holds at most one entry per neighbour and the adjacency is
undirected; and in such a state an insertion record `(u, v, w)` for a pair that is already
present adds no entry to any list and leaves `w` as the only weight stored for `v` in
`adj[u]` and for `u` in `adj[v]`. -/
theorem reachable_noParallel (g : Graph) (h : ReachableOnce g) :
    g.NoParallel ∧ g.Symmetric ∧
    (∀ (u v : Int) (w : Weight), 0 ≤ w → hasNeighbor (g.nbrs u) v →
      ∃ g1, applyUpdate g ⟨u, v, w⟩ = some g1 ∧
        (∀ x, (g1.nbrs x).map Prod.fst = (g.nbrs x).map Prod.fst) ∧
        (∀ w', (v, w') ∈ g1.nbrs u ↔ w' = w) ∧ (∀ w', (u, w') ∈ g1.nbrs v ↔ w' = w)) := by
  have hk := reachableOnce_keys g h
  obtain ⟨hshape, hs⟩ := reachable_inv g (reachableOnce_reachable g h)
  have hsym : g.Symmetric := SeqSym.symmetric hs
  refine ⟨noParallel_of_keyNodup g hk, hsym, ?_⟩
  intro u v w hw hp
  have hpv : hasNeighbor (g.nbrs v) u := (hsym.hasNeighbor_iff u v).1 hp
  obtain ⟨e, he, -⟩ := id hp
  obtain ⟨e2, he2, -⟩ := hpv
  have ru := mem_nbrsOf_inRange g.adj u e he
  have rv := mem_nbrsOf_inRange g.adj v e2 he2
  have hwf : g.WF := by
    rcases hshape with hwf | hnil
    · exact hwf
    · rw [hnil] at ru
      simp at ru
      omega
  have hwf' := hwf
  unfold Graph.WF at hwf'
  exact applyUpdate_overwrites_present g hwf hsym hk u v w
    (by unfold Graph.inRange; omega) (by unfold Graph.inRange; omega) hw hp

/-- Witness of C7 (amended): `sampleUpdated` is reached by loading a file that names the
pair `{0, 1}` once (its self-loop line is ignored) and by the call `addEdge(1, 2, 4)` for a
pair that is not stored. -/
theorem reachable_noParallel_witness :
    sampleUpdated.NoParallel ∧ sampleUpdated.Symmetric ∧
    (∀ (u v : Int) (w : Weight), 0 ≤ w → hasNeighbor (sampleUpdated.nbrs u) v →
      ∃ g1, applyUpdate sampleUpdated ⟨u, v, w⟩ = some g1 ∧
        (∀ x, (g1.nbrs x).map Prod.fst = (sampleUpdated.nbrs x).map Prod.fst) ∧
        (∀ w', (v, w') ∈ g1.nbrs u ↔ w' = w) ∧ (∀ w', (u, w') ∈ g1.nbrs v ↔ w' = w)) :=
  reachable_noParallel sampleUpdated
    (ReachableOnce.addEdge sampleGraph sampleUpdated 1 2 4
      (ReachableOnce.load (.graph ⟨3, 2, [.edge 0 1 5, .edge 2 2 7]⟩) sampleGraph
        (by decide) (by decide))
      (by decide) (by decide) (by decide))

/-- C7 as stated fails: a graph file that lists the pair `{0, 1}` twice is loaded into
`parallelGraph`, whose list `adj[0]` holds two entries for neighbour `1`; `addEdge` appends
in the same way without looking for an existing entry. -/
theorem loadFromFile_keeps_parallel_edges :
    loadFromFile Graph.empty (.graph ⟨2, 2, [.edge 0 1 1, .edge 0 1 2]⟩) = some parallelGraph ∧
    Reachable parallelGraph ∧ ¬ parallelGraph.NoParallel ∧
    parallelGraph.nbrs 0 = [(1, 1), (1, 2)] ∧
    (∃ g1, addEdge sampleGraph 0 1 9 = some g1 ∧ g1.nbrs 0 = [(1, 5), (1, 9)]) := by
  refine ⟨by decide, Reachable.load (.graph ⟨2, 2, [.edge 0 1 1, .edge 0 1 2]⟩) _ (by decide),
    by decide, by decide, ?_⟩
  exact ⟨_, rfl, by decide⟩

/-! ## Round-robin fallback of the partitioner -/

theorem vecGet_natCast {α : Type} (xs : List α) (n : Nat) : vecGet xs (n : Int) = xs[n]? := by
  simp [vecGet]

theorem roundRobin_fold (np : Int) (hnp : np ≠ 0) (part : List Int) (n : Nat)
    (hn : n ≤ part.length) :
    ∃ p1, (List.range n).foldlM (roundRobinStep np) part = some p1 ∧
      p1.length = part.length ∧
      (∀ i : Nat, i < n → p1[i]? = some (Int.tmod (i : Int) np)) ∧
      (∀ i : Nat, n ≤ i → p1[i]? = part[i]?) := by
  induction n with
  | zero =>
    refine ⟨part, rfl, rfl, ?_, ?_⟩
    · intro i hi; omega
    · intro i _; rfl
  | succ n ih =>
    obtain ⟨p1, hrun, hlen, hlow, hhigh⟩ := ih (by omega)
    have hlt : n < p1.length := by omega
    have hstep : roundRobinStep np p1 n = some (p1.set n (Int.tmod (n : Int) np)) := by
      unfold roundRobinStep
      rw [if_neg hnp, vecGet_natCast, List.getElem?_eq_getElem hlt]
      simp [vecSet]
    refine ⟨p1.set n (Int.tmod (n : Int) np), ?_, ?_, ?_, ?_⟩
    · rw [List.range_succ, List.foldlM_append, hrun]
      simp [hstep]
    · rw [List.length_set, hlen]
    · intro i hi
      by_cases hin : i = n
      · subst hin
        rw [List.getElem?_set_self hlt]
      · rw [List.getElem?_set_ne (Ne.symm hin)]
        exact hlow i (by omega)
    · intro i hi
      rw [List.getElem?_set_ne (by omega)]
      exact hhigh i (by omega)

theorem vecGet_isSome_of_lt {α : Type} (xs : List α) (i : Int) (h0 : 0 ≤ i)
    (h1 : i < xs.length) : ∃ x, vecGet xs i = some x := by
  have hlt : i.toNat < xs.length := by omega
  exact ⟨xs[i.toNat], by simp [vecGet, h0, List.getElem?_eq_getElem hlt]⟩

theorem csrRow_total (base : Int) (hb : 0 ≤ base) (row : List (Int × Weight)) :
    ∀ (j : Nat) (adjncy : List Int),
      base + (j : Int) + (row.length : Int) ≤ (adjncy.length : Int) →
      ∃ r, csrRow base row j adjncy = some r ∧ r.length = adjncy.length := by
  induction row with
  | nil => intro j adjncy _; exact ⟨adjncy, rfl, rfl⟩
  | cons nb rest ih =>
    intro j adjncy h
    simp only [List.length_cons] at h
    obtain ⟨x, hx⟩ := vecGet_isSome_of_lt adjncy (base + (j : Int)) (by omega) (by omega)
    unfold csrRow
    rw [hx]
    simp only
    obtain ⟨r, hr, hlen⟩ := ih (j + 1) (vecSet adjncy (base + (j : Int)) nb.1) (by
      rw [length_vecSet]; push_cast; omega)
    exact ⟨r, hr, by rw [hlen, length_vecSet]⟩

theorem entryCount_take_succ (adj : List (List (Int × Weight))) (n : Nat) (h : n < adj.length) :
    entryCount (adj.take (n + 1)) = entryCount (adj.take n) + adj[n].length := by
  unfold entryCount
  rw [List.take_succ, List.getElem?_eq_getElem h, List.map_append, List.sum_append]
  simp

theorem entryCount_take_le (adj : List (List (Int × Weight))) (n : Nat) :
    entryCount (adj.take n) ≤ entryCount adj := by
  have : entryCount adj = entryCount (adj.take n) + entryCount (adj.drop n) := by
    unfold entryCount
    rw [← List.sum_append, ← List.map_append, List.take_append_drop]
  omega

theorem csrFill_fold (adj : List (List (Int × Weight))) (xadj adjncy : List Int)
    (hx : xadj.length = adj.length + 1) (hcap : entryCount adj ≤ adjncy.length)
    (h0 : xadj[0]? = some 0) (n : Nat) (hn : n ≤ adj.length) :
    ∃ st, (List.range n).foldlM (csrStep adj) (xadj, adjncy) = some st ∧
      st.1.length = xadj.length ∧ st.2.length = adjncy.length ∧
      st.1[n]? = some ((entryCount (adj.take n) : Nat) : Int) := by
  induction n with
  | zero => exact ⟨(xadj, adjncy), rfl, rfl, rfl, by simpa [entryCount] using h0⟩
  | succ k ih =>
    obtain ⟨st, hrun, hl1, hl2, hk⟩ := ih (by omega)
    have hklt : k < adj.length := by omega
    have hrow : vecGet adj (k : Int) = some adj[k] := by
      rw [vecGet_natCast, List.getElem?_eq_getElem hklt]
    have hxi : vecGet st.1 (k : Int) = some ((entryCount (adj.take k) : Nat) : Int) := by
      rw [vecGet_natCast]; exact hk
    obtain ⟨y, hy⟩ := vecGet_isSome_of_lt st.1 ((k : Int) + 1) (by omega) (by
      rw [hl1, hx]; push_cast; omega)
    have hsum := entryCount_take_succ adj k hklt
    have hle := entryCount_take_le adj (k + 1)
    obtain ⟨r, hr, hrlen⟩ := csrRow_total ((entryCount (adj.take k) : Nat) : Int)
      (Int.ofNat_nonneg _) adj[k] 0 st.2 (by
        rw [hl2]; push_cast; omega)
    refine ⟨(vecSet st.1 ((k : Int) + 1)
        (((entryCount (adj.take k) : Nat) : Int) + (adj[k].length : Int)), r), ?_, ?_, ?_, ?_⟩
    · rw [List.range_succ, List.foldlM_append, hrun]
      simp [csrStep, hrow, hxi, hy, hr]
    · rw [length_vecSet, hl1]
    · rw [hrlen, hl2]
    · have hlt : k + 1 < st.1.length := by rw [hl1, hx]; omega
      have hcast : ((k : Int) + 1).toNat = k + 1 := by omega
      show (vecSet st.1 ((k : Int) + 1) _)[k + 1]? = _
      unfold vecSet
      rw [hcast, List.getElem?_set_self hlt, hsum]
      push_cast
      rfl

theorem csrFill_total (g : Graph) (hV : 0 ≤ g.V) (hVmax : g.V < INT_MAX) (hwf : g.WF)
    (hE : (entryCount g.adj : Int) ≤ 2 * g.E) (hEmax : 2 * g.E ≤ INT_MAX) :
    ∃ csr, csrFill g = some csr := by
  unfold Graph.WF at hwf
  have hguard : ¬ (g.V < 0 ∨ g.V + 1 > INT_MAX ∨ 2 * g.E < 0 ∨ 2 * g.E > INT_MAX) := by
    omega
  have hlenx : (List.replicate (g.V + 1).toNat (0 : Int)).length = g.adj.length + 1 := by
    rw [List.length_replicate]; omega
  have h0 : vecGet (List.replicate (g.V + 1).toNat (0 : Int)) 0 = some 0 :=
    vecGet_replicate _ _ 0 (le_refl _) (by omega)
  obtain ⟨st, hrun, -⟩ := csrFill_fold g.adj
    (vecSet (List.replicate (g.V + 1).toNat (0 : Int)) 0 0)
    (List.replicate (2 * g.E).toNat 0)
    (by rw [length_vecSet]; exact hlenx)
    (by rw [List.length_replicate]; omega)
    (by
      have hpos : 0 < (List.replicate (g.V + 1).toNat (0 : Int)).length := by omega
      show (List.set _ (Int.toNat 0) _)[0]? = _
      rw [Int.toNat_zero, List.getElem?_set_self hpos])
    g.adj.length (le_refl _)
  refine ⟨st, ?_⟩
  unfold csrFill csrAlloc
  rw [if_neg hguard]
  simp only
  rw [h0]
  simp only
  have : g.V.toNat = g.adj.length := by omega
  rw [this]
  exact hrun

/-- C9: round-robin fallback of `Graph::partitionGraph`.  For a graph with `V ≥ 1` whose
`adj` has `V` lists and whose `E` is at least the number of stored edges (`V + 1` and
`2 * E` being `int` values, so that the arrays handed to the partitioning routine are
allocated and filled inside their bounds), and a requested partition count `P ≥ 1`: whenever
the partitioning routine reports an error (`ret ≠ METIS_OK`) the call completes (no
division by zero, no write outside `part`), `part` has `V` entries and `part[v] = v mod P`
for every `v ∈ [0, V)`, also when `P > V` and the count is clamped to `V`; hence every
`part[v]` lies in `[0, P)`. -/
theorem partitionGraph_fallback (g : Graph) (num_parts ret : Int) (written : List Int)
    (hV : 1 ≤ g.V) (hVmax : g.V < INT_MAX) (hwf : g.WF)
    (hE : (entryCount g.adj : Int) ≤ 2 * g.E) (hEmax : 2 * g.E ≤ INT_MAX)
    (hP : 1 ≤ num_parts) (hret : ret ≠ METIS_OK) :
    ∃ g1, partitionGraph g num_parts ret written = some g1 ∧
      (g1.part.length : Int) = g.V ∧
      (∀ v : Int, 0 ≤ v → v < g.V → vecGet g1.part v = some (v % num_parts)) ∧
      (∀ p ∈ g1.part, 0 ≤ p ∧ p < num_parts) := by
  have hV0 : ¬ g.V = 0 := by omega
  obtain ⟨csr, hcsr⟩ := csrFill_total g (by omega) hVmax hwf hE hEmax
  have hlen1 : ((written ++ resizePart g.part g.V.toNat).take g.V.toNat).length = g.V.toNat := by
    simp [resizePart]
  have hnp : (if num_parts > g.V then g.V else num_parts) ≠ 0 := by
    split <;> omega
  obtain ⟨p1, hrun, hlen, hlow, -⟩ := roundRobin_fold _ hnp
    ((written ++ resizePart g.part g.V.toNat).take g.V.toNat) g.V.toNat (by rw [hlen1])
  have hval : ∀ i : Nat, i < g.V.toNat →
      Int.tmod (i : Int) (if num_parts > g.V then g.V else num_parts) = (i : Int) % num_parts := by
    intro i hi
    have hi0 : (0 : Int) ≤ (i : Int) := Int.ofNat_nonneg i
    split
    · rw [Int.tmod_eq_emod hi0 (by omega), Int.emod_eq_of_lt hi0 (by omega),
        Int.emod_eq_of_lt hi0 (by omega)]
    · rw [Int.tmod_eq_emod hi0 (by omega)]
  have hget : ∀ i : Nat, i < g.V.toNat → p1[i]? = some ((i : Int) % num_parts) := by
    intro i hi
    rw [hlow i hi, hval i hi]
  unfold partitionGraph
  rw [if_neg hV0, hcsr]
  simp only [hret, ne_eq, not_false_eq_true, if_true]
  unfold roundRobin
  rw [hrun]
  refine ⟨_, rfl, ?_, ?_, ?_⟩
  · show (p1.length : Int) = g.V
    rw [hlen, hlen1]; omega
  · intro v hv0 hv1
    show vecGet p1 v = _
    have := hget v.toNat (by omega)
    rw [Int.toNat_of_nonneg hv0] at this
    unfold vecGet
    rw [if_pos hv0]
    exact this
  · intro p hp
    show 0 ≤ p ∧ p < num_parts
    obtain ⟨i, hi, rfl⟩ := List.mem_iff_getElem.1 (show p ∈ p1 from hp)
    have hi' : i < g.V.toNat := by rw [hlen, hlen1] at hi; exact hi
    have := hget i hi'
    rw [List.getElem?_eq_getElem hi] at this
    rw [Option.some.inj this]
    exact ⟨Int.emod_nonneg _ (by omega), Int.emod_lt_of_pos _ (by omega)⟩

/-- Witness of C9 on `sampleGraph` (`V = 3`, one stored edge, `E = 1`) with `P = 5`
requested partitions and the error code `-2` (`METIS_ERROR_INPUT`): the count is clamped
to `3`. -/
theorem partitionGraph_fallback_witness :
    ∃ g1, partitionGraph sampleGraph 5 (-2) [] = some g1 ∧
      (g1.part.length : Int) = sampleGraph.V ∧
      (∀ v : Int, 0 ≤ v → v < sampleGraph.V → vecGet g1.part v = some (v % 5)) ∧
      (∀ p ∈ g1.part, 0 ≤ p ∧ p < 5) :=
  partitionGraph_fallback sampleGraph 5 (-2) [] (by decide) (by decide) (by decide)
    (by decide) (by decide) (by decide) (by decide)

/-- The preparation of the arrays fails before the routine is called when `adj` has fewer
than `V` lists (the state a failed header leaves), when `E` is negative, and when `2 * E`
is below the number of stored entries. -/
theorem partitionGraph_stops_before_routine :
    loadFromFile Graph.empty (.badE 3 0) = some { Graph.empty with V := 3 } ∧
    partitionGraph { Graph.empty with V := 3 } 2 (-2) [] = none ∧
    partitionGraph { sampleGraph with E := -1 } 2 (-2) [] = none ∧
    partitionGraph { sampleGraph with E := 0 } 2 (-2) [] = none := by
  refine ⟨?_, ?_, ?_, ?_⟩ <;> decide

/-! ## Local vertex sets of the distributor -/

theorem localLoop_fold (part : List Int) (rank : Int) (n : Nat) (hn : n ≤ part.length)
    (acc : List Int) :
    (List.range n).foldlM (localStep part rank) acc =
      some (acc ++ ((List.range n).filter (fun i => decide (part[i]? = some rank))).map
        (fun i : Nat => (i : Int))) := by
  induction n with
  | zero => simp
  | succ n ih =>
    have hlt : n < part.length := by omega
    rw [List.range_succ, List.foldlM_append, ih (by omega)]
    simp only [Option.bind_eq_bind, Option.some_bind, List.foldlM_cons, List.foldlM_nil,
      List.filter_append, List.map_append]
    unfold localStep
    rw [vecGet_natCast, List.getElem?_eq_getElem hlt]
    by_cases hp : part[n] = rank
    · simp [hp, List.getElem?_eq_getElem hlt]
    · simp [hp, List.getElem?_eq_getElem hlt]

theorem localLoop_spec (part : List Int) (rank V : Int) (hlen : (part.length : Int) = V) :
    ∃ l, localLoop part rank V = some l ∧ l.Nodup ∧
      ∀ v : Int, v ∈ l ↔ (0 ≤ v ∧ v < V ∧ vecGet part v = some rank) := by
  have hn : V.toNat ≤ part.length := by omega
  refine ⟨_, by unfold localLoop; rw [localLoop_fold part rank V.toNat hn []], ?_, ?_⟩
  · rw [List.nil_append]
    refine List.Nodup.map ?_ ((List.nodup_range _).filter _)
    intro a b hab
    exact Int.ofNat.inj hab
  · intro v
    rw [List.nil_append, List.mem_map]
    constructor
    · rintro ⟨i, hi, rfl⟩
      rw [List.mem_filter, List.mem_range] at hi
      refine ⟨Int.ofNat_nonneg i, by omega, ?_⟩
      rw [vecGet_natCast]
      simpa using hi.2
    · rintro ⟨h0, h1, hget⟩
      refine ⟨v.toNat, ?_, Int.toNat_of_nonneg h0⟩
      rw [List.mem_filter, List.mem_range]
      refine ⟨by omega, ?_⟩
      unfold vecGet at hget
      rw [if_pos h0] at hget
      simpa using hget

/-- C10: local sets and ownership in `Graph::distributeGraph`.  For a partition map `part`
defined on `[0, V)` with values in `[0, P)` and every rank `r`, the first loop completes and
`local_vertices` lists, without repetition, exactly the vertices `v ∈ [0, V)` with
`part[v] = r` (this is the `local_vertices` of every state `distributeGraph` returns);
consequently every vertex belongs to the local set of exactly one rank in `[0, P)`. -/
theorem distributeGraph_local (g : Graph) (P : Int) (hlen : (g.part.length : Int) = g.V)
    (hvals : ∀ p ∈ g.part, 0 ≤ p ∧ p < P) :
    (∀ rank : Int, ∃ l, localLoop g.part rank g.V = some l ∧ l.Nodup ∧
      (∀ v : Int, v ∈ l ↔ (0 ≤ v ∧ v < g.V ∧ vecGet g.part v = some rank)) ∧
      (∀ g1, distributeGraph g rank = some g1 → g1.local_vertices = l)) ∧
    (∀ v : Int, 0 ≤ v → v < g.V →
      ∃! r : Int, (0 ≤ r ∧ r < P) ∧ ∃ l, localLoop g.part r g.V = some l ∧ v ∈ l) := by
  constructor
  · intro rank
    obtain ⟨l, hl, hnd, hmem⟩ := localLoop_spec g.part rank g.V hlen
    refine ⟨l, hl, hnd, hmem, ?_⟩
    intro g1 hg1
    unfold distributeGraph at hg1
    rw [hl] at hg1
    simp only at hg1
    cases hgh : ghostLoop g.adj g.part rank l with
    | none => rw [hgh] at hg1; simp at hg1
    | some gv =>
      rw [hgh] at hg1
      simp only [Option.some.injEq] at hg1
      rw [← hg1]
  · intro v h0 h1
    have hlt : v.toNat < g.part.length := by omega
    have hget : vecGet g.part v = some (g.part[v.toNat]) := by
      unfold vecGet
      rw [if_pos h0, List.getElem?_eq_getElem hlt]
    refine ⟨g.part[v.toNat], ⟨hvals _ (List.getElem_mem _), ?_⟩, ?_⟩
    · obtain ⟨l, hl, -, hmem⟩ := localLoop_spec g.part (g.part[v.toNat]) g.V hlen
      exact ⟨l, hl, (hmem v).2 ⟨h0, h1, hget⟩⟩
    · rintro r ⟨-, l, hl, hv⟩
      obtain ⟨l2, hl2, -, hmem⟩ := localLoop_spec g.part r g.V hlen
      have : l = l2 := Option.some.inj (hl.symm.trans hl2)
      subst this
      have := ((hmem v).1 hv).2.2
      rw [hget] at this
      exact (Option.some.inj this).symm

/-- Witness of C10: `sampleGraph` with the partition map `[0, 1, 0]` and `P = 2`. -/
theorem distributeGraph_local_witness :
    (∀ rank : Int, ∃ l, localLoop [0, 1, 0] rank 3 = some l ∧ l.Nodup ∧
      (∀ v : Int, v ∈ l ↔ (0 ≤ v ∧ v < 3 ∧ vecGet [0, 1, 0] v = some rank)) ∧
      (∀ g1, distributeGraph { sampleGraph with part := [0, 1, 0] } rank = some g1 →
        g1.local_vertices = l)) ∧
    (∀ v : Int, 0 ≤ v → v < 3 →
      ∃! r : Int, (0 ≤ r ∧ r < 2) ∧ ∃ l, localLoop [0, 1, 0] r 3 = some l ∧ v ∈ l) :=
  distributeGraph_local { sampleGraph with part := [0, 1, 0] } 2 (by decide) (by decide)

/-! ## Ghost vertex sets of the distributor -/

theorem ghostInner_spec (part : List Int) (rank : Int) (l : List (Int × Weight)) :
    ∀ gh : List Int, gh.Nodup →
      (∀ e ∈ l, 0 ≤ e.1 ∧ e.1 < (part.length : Int)) →
      ∃ gh1, l.foldlM (ghostStep part rank) gh = some gh1 ∧ gh1.Nodup ∧
        ∀ x, x ∈ gh1 ↔ x ∈ gh ∨ (∃ e ∈ l, e.1 = x ∧ vecGet part x ≠ some rank) := by
  induction l with
  | nil =>
    intro gh hnd _
    exact ⟨gh, rfl, hnd, by simp⟩
  | cons e rest ih =>
    intro gh hnd hr
    obtain ⟨h0, h1⟩ := hr e (List.mem_cons_self _ _)
    have hlt : e.1.toNat < part.length := by omega
    have hget : vecGet part e.1 = some (part[e.1.toNat]) := by
      unfold vecGet
      rw [if_pos h0, List.getElem?_eq_getElem hlt]
    have hstep : ghostStep part rank gh e =
        some (if part[e.1.toNat] ≠ rank ∧ e.1 ∉ gh then gh ++ [e.1] else gh) := by
      unfold ghostStep
      rw [hget]
    have hnd2 : (if part[e.1.toNat] ≠ rank ∧ e.1 ∉ gh then gh ++ [e.1] else gh).Nodup := by
      split
      · rename_i hc
        exact List.Nodup.append hnd (List.nodup_singleton _) (by simpa using hc.2)
      · exact hnd
    obtain ⟨gh1, hrun, hnd1, hmem⟩ := ih _ hnd2 (fun e' h' => hr e' (List.mem_cons_of_mem _ h'))
    refine ⟨gh1, ?_, hnd1, ?_⟩
    · rw [List.foldlM_cons, hstep]
      exact hrun
    · intro x
      rw [hmem]
      have hne : vecGet part e.1 ≠ some rank ↔ part[e.1.toNat] ≠ rank := by
        rw [hget]
        constructor
        · intro h hc; exact h (by rw [hc])
        · intro h hc; exact h (Option.some.inj hc)
      constructor
      · rintro (hx | ⟨e', h', hx, hp⟩)
        · split at hx
          · rename_i hc
            rcases List.mem_append.1 hx with hx | hx
            · exact Or.inl hx
            · have hxe : x = e.1 := by simpa using hx
              exact Or.inr ⟨e, List.mem_cons_self _ _, hxe.symm, by rw [hxe]; exact hne.2 hc.1⟩
          · exact Or.inl hx
        · exact Or.inr ⟨e', List.mem_cons_of_mem _ h', hx, hp⟩
      · rintro (hx | ⟨e', h', hx, hp⟩)
        · left
          split
          · exact List.mem_append_left _ hx
          · exact hx
        · rcases List.mem_cons.1 h' with heq | h'
          · left
            rw [heq] at hx
            rw [← hx] at hp
            have hp2 := hne.1 hp
            by_cases hin : e.1 ∈ gh
            · rw [if_neg (fun hc => hc.2 hin), ← hx]
              exact hin
            · rw [if_pos ⟨hp2, hin⟩, ← hx]
              exact List.mem_append_right _ (by simp)
          · exact Or.inr ⟨e', h', hx, hp⟩

theorem ghostLoop_spec (g : Graph) (rank : Int) (hwf : g.WF)
    (hpart : (g.part.length : Int) = g.V) (hin : g.AdjInRange) (lv : List Int) :
    ∀ gh : List Int, gh.Nodup → (∀ v ∈ lv, 0 ≤ v ∧ v < g.V) →
      ∃ gh1, lv.foldlM (ghostVisit g.adj g.part rank) gh = some gh1 ∧ gh1.Nodup ∧
        ∀ x, x ∈ gh1 ↔ x ∈ gh ∨
          (∃ v ∈ lv, hasNeighbor (g.nbrs v) x ∧ vecGet g.part x ≠ some rank) := by
  induction lv with
  | nil =>
    intro gh hnd _
    exact ⟨gh, rfl, hnd, by simp⟩
  | cons v rest ih =>
    intro gh hnd hr
    obtain ⟨h0, h1⟩ := hr v (List.mem_cons_self _ _)
    have hwf' := hwf
    unfold Graph.WF at hwf'
    have hget : vecGet g.adj v = some (g.nbrs v) := vecGet_of_lt g.adj v h0 (by omega)
    have hrange : ∀ e ∈ g.nbrs v, 0 ≤ e.1 ∧ e.1 < (g.part.length : Int) := by
      intro e he
      rcases nbrs_mem_adj_or_nil g v with hm | hn
      · rw [hpart]; exact hin _ hm e he
      · rw [hn] at he; simp at he
    obtain ⟨gh0, hrun0, hnd0, hmem0⟩ := ghostInner_spec g.part rank (g.nbrs v) gh hnd hrange
    obtain ⟨gh1, hrun1, hnd1, hmem1⟩ :=
      ih gh0 hnd0 (fun v' h' => hr v' (List.mem_cons_of_mem _ h'))
    refine ⟨gh1, ?_, hnd1, ?_⟩
    · rw [List.foldlM_cons]
      unfold ghostVisit
      rw [hget]
      simp only
      rw [hrun0]
      exact hrun1
    · intro x
      rw [hmem1, hmem0]
      constructor
      · rintro ((hx | ⟨e, he, hx, hp⟩) | ⟨v', h', hx⟩)
        · exact Or.inl hx
        · exact Or.inr ⟨v, List.mem_cons_self _ _, ⟨e, he, hx⟩, hp⟩
        · exact Or.inr ⟨v', List.mem_cons_of_mem _ h', hx⟩
      · rintro (hx | ⟨v', h', ⟨e, he, hx⟩, hp⟩)
        · exact Or.inl (Or.inl hx)
        · rcases List.mem_cons.1 h' with heq | h'
          · rw [heq] at he
            exact Or.inl (Or.inr ⟨e, he, hx, hp⟩)
          · exact Or.inr ⟨v', h', ⟨e, he, hx⟩, hp⟩

/-- C11: ghost sets in `Graph::distributeGraph`.  For a graph whose `adj` and `part` have
`V` entries and whose adjacency is in range, and every rank `r`, the call completes;
`ghost_vertices` contains `u` if and only if `part[u] != r` and `u` is a neighbour of some
vertex `v` with `part[v] = r`; the list has no repeated vertex and shares no vertex with
`local_vertices`. -/
theorem distributeGraph_ghost (g : Graph) (rank : Int) (hwf : g.WF)
    (hpart : (g.part.length : Int) = g.V) (hin : g.AdjInRange) :
    ∃ g1, distributeGraph g rank = some g1 ∧ g1.ghost_vertices.Nodup ∧
      (∀ u : Int, u ∈ g1.ghost_vertices ↔
        (vecGet g.part u ≠ some rank ∧
          ∃ v : Int, vecGet g.part v = some rank ∧ hasNeighbor (g.nbrs v) u)) ∧
      (∀ u : Int, u ∈ g1.ghost_vertices → u ∉ g1.local_vertices) := by
  obtain ⟨lv, hl, -, hlmem⟩ := localLoop_spec g.part rank g.V hpart
  obtain ⟨gv, hrun, hnd, hmem⟩ := ghostLoop_spec g rank hwf hpart hin lv [] List.nodup_nil
    (fun v hv => ⟨((hlmem v).1 hv).1, ((hlmem v).1 hv).2.1⟩)
  have hghost : ∀ u : Int, u ∈ gv ↔
      (vecGet g.part u ≠ some rank ∧
        ∃ v : Int, vecGet g.part v = some rank ∧ hasNeighbor (g.nbrs v) u) := by
    intro u
    rw [hmem]
    constructor
    · rintro (hx | ⟨v, hv, hn, hp⟩)
      · simp at hx
      · exact ⟨hp, v, ((hlmem v).1 hv).2.2, hn⟩
    · rintro ⟨hp, v, hv, hn⟩
      right
      obtain ⟨e, he, hx⟩ := hn
      have hr := mem_nbrsOf_inRange g.adj v e he
      have hwf' := hwf
      unfold Graph.WF at hwf'
      exact ⟨v, (hlmem v).2 ⟨hr.1, by omega, hv⟩, ⟨e, he, hx⟩, hp⟩
  refine ⟨{ g with local_vertices := lv, ghost_vertices := gv }, ?_, hnd, hghost, ?_⟩
  · unfold distributeGraph
    rw [hl]
    simp only
    unfold ghostLoop
    rw [hrun]
  · intro u hu hloc
    exact ((hghost u).1 hu).1 (((hlmem u).1 hloc).2.2)

/-- Witness of C11: `samplePartitioned` (path `0 - 1 - 2`, partition map `[0, 0, 1]`) on
rank `0`. -/
theorem distributeGraph_ghost_witness :
    ∃ g1, distributeGraph samplePartitioned 0 = some g1 ∧
      g1.ghost_vertices.Nodup ∧
      (∀ u : Int, u ∈ g1.ghost_vertices ↔
        (vecGet samplePartitioned.part u ≠ some 0 ∧
          ∃ v : Int, vecGet samplePartitioned.part v = some 0 ∧
            hasNeighbor (samplePartitioned.nbrs v) u)) ∧
      (∀ u : Int, u ∈ g1.ghost_vertices → u ∉ g1.local_vertices) :=
  distributeGraph_ghost samplePartitioned 0 (by decide) (by decide) (by decide)

/-! ## Classification of the batch -/

theorem weightOf_eq_head (l : List (Int × Weight)) (v : Int) :
    weightOf l v = (wseq l v).head? := by
  induction l with
  | nil => rfl
  | cons p rest ih =>
    rw [wseq_cons]
    unfold weightOf at ih ⊢
    by_cases hp : p.1 = v
    · simp [List.find?_cons, hp]
    · simp [List.find?_cons, hp, ih]

theorem lookupWeight_eq_head (v : Int) (l : List (Int × Weight)) :
    lookupWeight v l = ((wseq l v).head?).getD (-1) := by
  induction l with
  | nil => rfl
  | cons p rest ih =>
    rw [wseq_cons]
    by_cases hp : p.1 = v
    · simp [lookupWeight, hp]
    · simp [lookupWeight, hp, ih]

theorem lookupWeight_eq_weightOf (v : Int) (l : List (Int × Weight)) :
    lookupWeight v l = (weightOf l v).getD (-1) := by
  rw [lookupWeight_eq_head, weightOf_eq_head]

theorem FloatVal.geZero_false_iff (x : FloatVal) :
    x.geZero = false ↔ (x.ltZero = true ∨ x = .nan) := by
  cases x with
  | num w => simp [FloatVal.geZero, FloatVal.ltZero]
  | nan => simp [FloatVal.geZero]

theorem classify_fold (g : Graph) (batch : List UpdateRecord) :
    ∀ acc : List UpdateRecord × List UpdateRecord,
      (∀ e ∈ batch, 0 ≤ e.u ∧ e.u < (g.adj.length : Int)) →
      batch.foldlM (classifyStep g.adj) acc =
        some (acc.1 ++ batch.filter (fun e => e.weight.geZero),
          acc.2 ++ (batch.filter (fun e => !e.weight.geZero)).map
            (fun e => ⟨e.u, e.v, .num ((weightOf (g.nbrs e.u) e.v).getD (-1))⟩)) := by
  induction batch with
  | nil => intro acc _; simp
  | cons e rest ih =>
    intro acc hr
    obtain ⟨h0, h1⟩ := hr e (List.mem_cons_self _ _)
    have hrest := fun e' h' => hr e' (List.mem_cons_of_mem _ h')
    rw [List.foldlM_cons]
    cases hw : e.weight.geZero with
    | true =>
      have hstep : classifyStep g.adj acc e = some (acc.1 ++ [e], acc.2) := by
        unfold classifyStep
        rw [hw]; rfl
      rw [hstep]
      simp only [Option.bind_eq_bind, Option.some_bind]
      rw [ih _ hrest]
      simp [List.filter_cons, hw]
    | false =>
      have hstep : classifyStep g.adj acc e =
          some (acc.1, acc.2 ++
            [⟨e.u, e.v, .num ((weightOf (g.nbrs e.u) e.v).getD (-1))⟩]) := by
        unfold classifyStep
        rw [hw, vecGet_of_lt g.adj e.u h0 h1]
        simp only [Bool.false_eq_true, if_false]
        rw [lookupWeight_eq_weightOf]
        rfl
      rw [hstep]
      simp only [Option.bind_eq_bind, Option.some_bind]
      rw [ih _ hrest]
      simp [List.filter_cons, hw]

theorem wseq_step_preserved (g g1 : Graph) (e : Edge) (hwf : g.WF)
    (hu : g.inRange e.u) (hv : g.inRange e.v) (hstep : applyUpdate g e = some g1)
    (x k : Int) (hnt : ¬ touches e x k) : wseq (g1.nbrs x) k = wseq (g.nbrs x) k := by
  unfold touches at hnt
  by_cases hw : e.weight < 0
  · obtain ⟨g2, h2, -, -, -, hnb⟩ := applyUpdate_del_spec g e.u e.v e.weight hwf hu hv hw
    have : g1 = g2 := Option.some.inj (hstep.symm.trans h2)
    subst this
    rw [hnb, wseq_delF, if_neg hnt]
  · obtain ⟨g2, h2, -, -, hfound, hnew⟩ :=
      applyUpdate_ins_spec g e.u e.v e.weight hwf hu hv (not_lt.mp hw)
    have : g1 = g2 := Option.some.inj (hstep.symm.trans h2)
    subst this
    by_cases hp : hasNeighbor (g.nbrs e.u) e.v ∨ hasNeighbor (g.nbrs e.v) e.u
    · rw [(hfound hp).2, wseq_owF, if_neg hnt]
    · rw [(hnew hp).2, wseq_pushF]
      have h1 : ¬ (x = e.u ∧ k = e.v) := fun h => hnt (Or.inl h)
      have h2 : ¬ (x = e.v ∧ k = e.u) := fun h => hnt (Or.inr h)
      simp [h1, h2]

theorem applyUpdate_shape (g g1 : Graph) (e : Edge) (hwf : g.WF)
    (hu : g.inRange e.u) (hv : g.inRange e.v) (hstep : applyUpdate g e = some g1) :
    g1.WF ∧ g1.V = g.V := by
  by_cases hw : e.weight < 0
  · obtain ⟨g2, h2, hV, hlen, -⟩ := applyUpdate_del_spec g e.u e.v e.weight hwf hu hv hw
    have : g1 = g2 := Option.some.inj (hstep.symm.trans h2)
    subst this
    refine ⟨?_, hV⟩
    unfold Graph.WF at *
    rw [hlen, hV]; exact hwf
  · obtain ⟨g2, h2, hV, hlen, -⟩ :=
      applyUpdate_ins_spec g e.u e.v e.weight hwf hu hv (not_lt.mp hw)
    have : g1 = g2 := Option.some.inj (hstep.symm.trans h2)
    subst this
    refine ⟨?_, hV⟩
    unfold Graph.WF at *
    rw [hlen, hV]; exact hwf

theorem applyUpdates_wseq_preserved (pre : List Edge) : ∀ (g gi : Graph), g.WF →
    (∀ e ∈ pre, g.inRange e.u ∧ g.inRange e.v) →
    applyUpdates g pre = some gi → ∀ (x k : Int), (∀ e ∈ pre, ¬ touches e x k) →
    wseq (gi.nbrs x) k = wseq (g.nbrs x) k := by
  induction pre with
  | nil =>
    intro g gi _ _ h x k _
    have : g = gi := Option.some.inj h
    subst this; rfl
  | cons e rest ih =>
    intro g gi hwf hr h x k hnt
    obtain ⟨hu, hv⟩ := hr e (List.mem_cons_self _ _)
    simp only [applyUpdates] at h
    cases hstep : applyUpdate g e with
    | none => rw [hstep] at h; simp at h
    | some g1 =>
      rw [hstep] at h
      obtain ⟨hwf1, hV⟩ := applyUpdate_shape g g1 e hwf hu hv hstep
      have hrest : ∀ e' ∈ rest, g1.inRange e'.u ∧ g1.inRange e'.v := by
        intro e' h'
        have := hr e' (List.mem_cons_of_mem _ h')
        unfold Graph.inRange at *
        rw [hV]; exact this
      rw [ih g1 gi hwf1 hrest h x k (fun e' h' => hnt e' (List.mem_cons_of_mem _ h'))]
      exact wseq_step_preserved g g1 e hwf hu hv hstep x k (hnt e (List.mem_cons_self _ _))

theorem vecGet_vecSet_same {α : Type} (xs : List α) (i : Int) (x : α) (h0 : 0 ≤ i)
    (h1 : i < xs.length) : vecGet (vecSet xs i x) i = some x := by
  unfold vecGet vecSet
  rw [if_pos h0]
  have hlt : i.toNat < xs.length := by omega
  rw [List.getElem?_set_self hlt]

theorem vecGet_vecSet_ne {α : Type} (xs : List α) (i j : Int) (x : α) (h0 : 0 ≤ i)
    (hne : j ≠ i) : vecGet (vecSet xs i x) j = vecGet xs j := by
  unfold vecGet vecSet
  by_cases hj : 0 ≤ j
  · rw [if_pos hj, if_pos hj]
    have : i.toNat ≠ j.toNat := by omega
    rw [List.getElem?_set_ne this]
  · rw [if_neg hj, if_neg hj]

/-- C15: `SSSP::initialize(source)`.  For a state whose `dist` and `parent` have `V` entries:
if `source ∈ [0, V)` no error is reported and afterwards `dist[source] = 0`, `dist[v] = +inf`
for every other vertex and `parent[v] = -1` for every vertex, whatever the state was before;
if `source` is outside `[0, V)` the error `InvalidSource` is reported and `dist` and `parent`
are left as they were. -/
theorem initialize_spec (s : SSSP) (V source : Int) (hd : (s.dist.length : Int) = V)
    (hp : (s.parent.length : Int) = V) :
    ((0 ≤ source ∧ source < V) →
      ( SSSP.initialize s source).2 = none ∧
      (( SSSP.initialize s source).1.dist.length : Int) = V ∧
      (( SSSP.initialize s source).1.parent.length : Int) = V ∧
      vecGet ( SSSP.initialize s source).1.dist source = some (some 0) ∧
      (∀ v : Int, 0 ≤ v → v < V → v ≠ source →
        vecGet ( SSSP.initialize s source).1.dist v = some none) ∧
      (∀ v : Int, 0 ≤ v → v < V → vecGet ( SSSP.initialize s source).1.parent v = some (-1))) ∧
    (¬ (0 ≤ source ∧ source < V) →
      SSSP.initialize s source = (s, some SSSPError.invalidSource)) := by
  constructor
  · intro hr
    have hguard : ¬ (source < 0 ∨ source ≥ (s.dist.length : Int)) := by omega
    have hlen : ((List.replicate s.dist.length (none : Dist)).length : Int) = V := by
      rw [List.length_replicate]; exact hd
    unfold SSSP.initialize
    rw [if_neg hguard]
    refine ⟨rfl, ?_, ?_, ?_, ?_, ?_⟩
    · show ((vecSet _ _ _).length : Int) = V
      rw [length_vecSet]; exact hlen
    · show ((List.replicate _ _).length : Int) = V
      rw [List.length_replicate]; exact hp
    · exact vecGet_vecSet_same _ _ _ hr.1 (by rw [hlen]; exact hr.2)
    · intro v h0 h1 hne
      show vecGet (vecSet _ _ _) v = _
      rw [vecGet_vecSet_ne _ _ _ _ hr.1 hne]
      exact vecGet_replicate _ _ _ h0 (by omega)
    · intro v h0 h1
      exact vecGet_replicate _ _ _ h0 (by omega)
  · intro hr
    have hguard : source < 0 ∨ source ≥ (s.dist.length : Int) := by omega
    unfold SSSP.initialize
    rw [if_pos hguard]

/-- Witness of C15: a used state of size `3` (the result of scenario S4) and source `2`. -/
theorem initialize_spec_witness :
    ((0 ≤ (2 : Int) ∧ (2 : Int) < 3) →
      ( SSSP.initialize ⟨[some 0, some 2, none], [-1, 0, -1]⟩ 2).2 = none ∧
      (( SSSP.initialize ⟨[some 0, some 2, none], [-1, 0, -1]⟩ 2).1.dist.length : Int) = 3 ∧
      (( SSSP.initialize ⟨[some 0, some 2, none], [-1, 0, -1]⟩ 2).1.parent.length : Int) = 3 ∧
      vecGet ( SSSP.initialize ⟨[some 0, some 2, none], [-1, 0, -1]⟩ 2).1.dist 2
        = some (some 0) ∧
      (∀ v : Int, 0 ≤ v → v < 3 → v ≠ 2 →
        vecGet ( SSSP.initialize ⟨[some 0, some 2, none], [-1, 0, -1]⟩ 2).1.dist v
          = some none) ∧
      (∀ v : Int, 0 ≤ v → v < 3 →
        vecGet ( SSSP.initialize ⟨[some 0, some 2, none], [-1, 0, -1]⟩ 2).1.parent v
          = some (-1))) ∧
    (¬ (0 ≤ (2 : Int) ∧ (2 : Int) < 3) →
      SSSP.initialize ⟨[some 0, some 2, none], [-1, 0, -1]⟩ 2 =
        (⟨[some 0, some 2, none], [-1, 0, -1]⟩, some SSSPError.invalidSource)) :=
  initialize_spec ⟨[some 0, some 2, none], [-1, 0, -1]⟩ 3 2 (by decide) (by decide)

/-! ## The sequential store against the parallel store -/

theorem adj_ext (a b : List (List (Int × Weight))) (hlen : a.length = b.length)
    (h : nbrsOf a = nbrsOf b) : a = b := by
  apply List.ext_getElem hlen
  intro i h1 h2
  have := congrFun h (i : Int)
  simpa [nbrsOf, vecGet, List.getElem?_eq_getElem h1, List.getElem?_eq_getElem h2] using this

theorem hasNeighbor_iff_wseq (l : List (Int × Weight)) (k : Int) :
    hasNeighbor l k ↔ wseq l k ≠ [] := by
  induction l with
  | nil => simp [hasNeighbor, wseq_nil]
  | cons p rest ih =>
    rw [wseq_cons]
    by_cases hp : p.1 = k
    · simp [hp, hasNeighbor]
    · rw [if_neg hp, ← ih]
      simp [hasNeighbor, hp]

theorem seqSym_hasNeighbor_iff {f : Int → List (Int × Weight)} (h : SeqSym f) (u v : Int) :
    hasNeighbor (f u) v ↔ hasNeighbor (f v) u := by
  rw [hasNeighbor_iff_wseq, hasNeighbor_iff_wseq, h u v]

theorem sequential_removeEdge_spec (g : SeqGraph) (u v : Int)
    (hwf : (g.adj.length : Int) = g.V) (hu : 0 ≤ u ∧ u < g.V) (hv : 0 ≤ v ∧ v < g.V) :
    ∃ g1, Sequential.removeEdge g u v = some g1 ∧ g1.V = g.V ∧
      g1.adj.length = g.adj.length ∧ g1.E = g.E - 1 ∧
      nbrsOf g1.adj = delF (nbrsOf g.adj) u v := by
  have hu1 : u < (g.adj.length : Int) := by omega
  have hv0 : v < (g.adj.length : Int) := by omega
  have hv1 : v < ((vecSet g.adj u (eraseNeighbor v (nbrsOf g.adj u))).length : Int) := by
    rw [length_vecSet]; exact hv0
  have hguard : ¬ (u < 0 ∨ u ≥ g.V ∨ v < 0 ∨ v ≥ g.V) := by omega
  unfold Sequential.removeEdge
  rw [if_neg hguard, vecGet_of_lt g.adj u hu.1 hu1]
  simp only
  rw [vecGet_of_lt _ v hv.1 hv1]
  refine ⟨_, rfl, rfl, ?_, rfl, ?_⟩
  · simp only [length_vecSet]
  · simp only
    rw [nbrsOf_vecSet _ v _ hv.1 hv1, nbrsOf_vecSet g.adj u _ hu.1 hu1]
    rfl

theorem sequential_addEdge_spec (g : SeqGraph) (u v : Int) (w : Weight)
    (hwf : (g.adj.length : Int) = g.V) (hs : SeqSym (nbrsOf g.adj))
    (hu : 0 ≤ u ∧ u < g.V) (hv : 0 ≤ v ∧ v < g.V) :
    ∃ g1, Sequential.addEdge g u v w = some g1 ∧ g1.V = g.V ∧
      g1.adj.length = g.adj.length ∧
      (hasNeighbor (nbrsOf g.adj u) v →
        g1.E = g.E ∧ nbrsOf g1.adj = owF (nbrsOf g.adj) u v w) ∧
      (¬ hasNeighbor (nbrsOf g.adj u) v →
        g1.E = g.E + 1 ∧ nbrsOf g1.adj = pushF (nbrsOf g.adj) u v w) := by
  have hu1 : u < (g.adj.length : Int) := by omega
  have hv0 : v < (g.adj.length : Int) := by omega
  have hguard : ¬ (u < 0 ∨ u ≥ g.V ∨ v < 0 ∨ v ≥ g.V) := by omega
  unfold Sequential.addEdge
  rw [if_neg hguard, vecGet_of_lt g.adj u hu.1 hu1]
  simp only
  split
  · rename_i hfound
    rw [overwriteFirst_found] at hfound
    have hv1 : v < ((vecSet g.adj u (overwriteFirst v w (nbrsOf g.adj u)).1).length : Int) := by
      rw [length_vecSet]; exact hv0
    rw [vecGet_of_lt _ v hv.1 hv1]
    refine ⟨_, rfl, rfl, ?_, ?_, ?_⟩
    · simp only [length_vecSet]
    · intro _
      refine ⟨rfl, ?_⟩
      simp only
      rw [nbrsOf_vecSet _ v _ hv.1 hv1, nbrsOf_vecSet g.adj u _ hu.1 hu1]
      rfl
    · intro hc; exact absurd hfound hc
  · rename_i hnot
    rw [overwriteFirst_found] at hnot
    have hnv : ¬ hasNeighbor (nbrsOf g.adj v) u := fun h =>
      hnot ((seqSym_hasNeighbor_iff hs u v).2 h)
    rw [vecGet_of_lt g.adj v hv.1 hv0]
    simp only
    have hb : ¬ (overwriteFirst u w (nbrsOf g.adj v)).2 = true := by
      rw [overwriteFirst_found]; exact hnv
    rw [if_neg hb]
    obtain ⟨adj2, hpush, hlen, hnb⟩ := pushBoth_spec g.adj u v w ⟨hu.1, hu1⟩ ⟨hv.1, hv0⟩
    rw [hpush]
    refine ⟨_, rfl, rfl, hlen, ?_, ?_⟩
    · intro hc; exact absurd hc hnot
    · intro _
      exact ⟨rfl, hnb⟩

theorem applyUpdates_agree_core (batch : List Edge) : ∀ (g : Graph) (sg : SeqGraph),
    g.WF → SeqSym g.nbrs → sg.V = g.V → sg.adj = g.adj → sg.E = g.E →
    (∀ e ∈ batch, g.inRange e.u ∧ g.inRange e.v) →
    ∃ g1 sg1, applyUpdates g batch = some g1 ∧ Sequential.applyUpdates sg batch = some sg1 ∧
      sg1.adj = g1.adj ∧ sg1.E = g1.E := by
  induction batch with
  | nil =>
    intro g sg _ _ _ hadj hE _
    exact ⟨g, sg, rfl, rfl, hadj, hE⟩
  | cons e rest ih =>
    intro g sg hwf hs hV hadj hE hr
    obtain ⟨hu, hv⟩ := hr e (List.mem_cons_self _ _)
    have hwf' := hwf
    unfold Graph.WF at hwf'
    have hswf : (sg.adj.length : Int) = sg.V := by rw [hadj, hV]; exact hwf'
    have hsu : 0 ≤ e.u ∧ e.u < sg.V := by rw [hV]; exact hu
    have hsv : 0 ≤ e.v ∧ e.v < sg.V := by rw [hV]; exact hv
    have hss : SeqSym (nbrsOf sg.adj) := by rw [hadj]; exact hs
    have hstep : ∃ g2 sg2, applyUpdate g e = some g2 ∧
        (if e.weight < 0 then Sequential.removeEdge sg e.u e.v
          else Sequential.addEdge sg e.u e.v e.weight) = some sg2 ∧
        g2.V = g.V ∧ sg2.V = g2.V ∧ sg2.adj = g2.adj ∧ sg2.E = g2.E := by
      by_cases hw : e.weight < 0
      · obtain ⟨g2, h1, hV2, hlen2, hE2, hnb2⟩ :=
          applyUpdate_del_spec g e.u e.v e.weight hwf hu hv hw
        obtain ⟨sg2, s1, sV2, slen2, sE2, snb2⟩ :=
          sequential_removeEdge_spec sg e.u e.v hswf hsu hsv
        refine ⟨g2, sg2, h1, by rw [if_pos hw]; exact s1, hV2, by rw [sV2, hV2, hV], ?_,
          by rw [sE2, hE2, hE]⟩
        apply adj_ext
        · rw [slen2, hlen2, hadj]
        · rw [snb2, hadj]; exact hnb2.symm
      · obtain ⟨g2, h1, hV2, hlen2, hfound, hnew⟩ :=
          applyUpdate_ins_spec g e.u e.v e.weight hwf hu hv (not_lt.mp hw)
        obtain ⟨sg2, s1, sV2, slen2, sfound, snew⟩ :=
          sequential_addEdge_spec sg e.u e.v e.weight hswf hss hsu hsv
        refine ⟨g2, sg2, h1, by rw [if_neg hw]; exact s1, hV2, by rw [sV2, hV2, hV], ?_, ?_⟩
        · apply adj_ext
          · rw [slen2, hlen2, hadj]
          · by_cases hp : hasNeighbor (g.nbrs e.u) e.v
            · rw [(sfound (by rw [hadj]; exact hp)).2, hadj]
              exact ((hfound (Or.inl hp)).2).symm
            · have hp2 : ¬ (hasNeighbor (g.nbrs e.u) e.v ∨ hasNeighbor (g.nbrs e.v) e.u) := by
                rintro (h | h)
                · exact hp h
                · exact hp ((seqSym_hasNeighbor_iff hs e.u e.v).2 h)
              rw [(snew (by rw [hadj]; exact hp)).2, hadj]
              exact ((hnew hp2).2).symm
        · by_cases hp : hasNeighbor (g.nbrs e.u) e.v
          · rw [(sfound (by rw [hadj]; exact hp)).1, (hfound (Or.inl hp)).1, hE]
          · have hp2 : ¬ (hasNeighbor (g.nbrs e.u) e.v ∨ hasNeighbor (g.nbrs e.v) e.u) := by
              rintro (h | h)
              · exact hp h
              · exact hp ((seqSym_hasNeighbor_iff hs e.u e.v).2 h)
            rw [(snew (by rw [hadj]; exact hp)).1, (hnew hp2).1, hE]
    obtain ⟨g2, sg2, h1, s1, hV2, sV2, hadj2, hE2⟩ := hstep
    obtain ⟨hwf2, hs2⟩ := applyUpdate_inv g g2 e hwf hs h1
    obtain ⟨g1, sg1, hrun, srun, hadj1, hE1⟩ := ih g2 sg2 hwf2 hs2 sV2 hadj2 hE2 (by
      intro e' h'
      have := hr e' (List.mem_cons_of_mem _ h')
      unfold Graph.inRange at *
      rw [hV2]; exact this)
    refine ⟨g1, sg1, ?_, ?_, hadj1, hE1⟩
    · simp only [applyUpdates, h1]
      exact hrun
    · simp only [Sequential.applyUpdates, s1]
      exact srun

/-- C17: the parallel and the sequential graph stores agree on updates.  For a graph with
symmetric, duplicate-free adjacency (`adj` having `V` lists) and a batch of records with
in-range vertex indices, `Graph::applyUpdates` of the parallel program and of the sequential
program, started from the same `V`, `adj` and `E`, both complete and end with identical
adjacency lists and the same edge count `E`. -/
theorem applyUpdates_agree (g : Graph) (sg : SeqGraph) (batch : List Edge) (hwf : g.WF)
    (hsym : g.Symmetric) (hnp : g.NoParallel) (hV : sg.V = g.V) (hadj : sg.adj = g.adj)
    (hE : sg.E = g.E) (hr : ∀ e ∈ batch, g.inRange e.u ∧ g.inRange e.v) :
    ∃ g1 sg1, applyUpdates g batch = some g1 ∧ Sequential.applyUpdates sg batch = some sg1 ∧
      sg1.adj = g1.adj ∧ sg1.E = g1.E :=
  applyUpdates_agree_core batch g sg hwf (seqSym_of_symmetric hsym hnp) hV hadj hE hr

/-- Witness of C17 on `sampleGraph` with the batch `[(0, 1, 9), (1, 2, 4), (0, 1, -1)]`. -/
theorem applyUpdates_agree_witness :
    ∃ g1 sg1, applyUpdates sampleGraph [⟨0, 1, 9⟩, ⟨1, 2, 4⟩, ⟨0, 1, -1⟩] = some g1 ∧
      Sequential.applyUpdates ⟨3, 1, [⟨0, 1, 5⟩], [[(1, 5)], [(0, 5)], []]⟩
        [⟨0, 1, 9⟩, ⟨1, 2, 4⟩, ⟨0, 1, -1⟩] = some sg1 ∧
      sg1.adj = g1.adj ∧ sg1.E = g1.E :=
  applyUpdates_agree sampleGraph ⟨3, 1, [⟨0, 1, 5⟩], [[(1, 5)], [(0, 5)], []]⟩
    [⟨0, 1, 9⟩, ⟨1, 2, 4⟩, ⟨0, 1, -1⟩] (by decide)
    (symmetric_of_symCheck sampleGraph (by decide)) (by decide) rfl rfl rfl (by decide)

/-! ## Distances, the queue and the measure -/

theorem Dist.lt_false_iff (c : Weight) (d : Dist) :
    Dist.lt (some c) d = false ↔ ∃ b, d = some b ∧ b ≤ c := by
  cases d with
  | none => simp [Dist.lt]
  | some b => simp [Dist.lt]

theorem Dist.lt_true_iff (c : Weight) (d : Dist) :
    Dist.lt (some c) d = true ↔ d = none ∨ ∃ b, d = some b ∧ c < b := by
  cases d with
  | none => simp [Dist.lt]
  | some b => simp [Dist.lt]

theorem Dist.lt_false_mono (c : Weight) (d d2 : Dist)
    (h : Dist.lt (some c) d = false) (hnew : Dist.lt d2 d = true ∨ d2 = d) :
    Dist.lt (some c) d2 = false := by
  rcases hnew with hlt | heq
  · obtain ⟨b, hb, hbc⟩ := (Dist.lt_false_iff c d).1 h
    subst hb
    cases d2 with
    | none => simp [Dist.lt] at hlt
    | some b2 =>
      have h2 : b2 < b := by simpa [Dist.lt] using hlt
      rw [Dist.lt_false_iff]
      exact ⟨b2, rfl, le_trans (le_of_lt h2) hbc⟩
  · rw [heq]; exact h

theorem mem_pqPush (x y : Dist × Int) (q : List (Dist × Int)) :
    y ∈ pqPush x q ↔ y = x ∨ y ∈ q := by
  induction q with
  | nil => simp [pqPush]
  | cons z rest ih =>
    unfold pqPush
    split
    · simp [ih]; tauto
    · simp

theorem length_pqPush (x : Dist × Int) (q : List (Dist × Int)) :
    (pqPush x q).length = q.length + 1 := by
  induction q with
  | nil => simp [pqPush]
  | cons z rest ih =>
    unfold pqPush
    split
    · simp [ih]
    · simp

theorem distAt_vecSet (l : List Dist) (i : Int) (x : Dist) (h0 : 0 ≤ i)
    (h1 : i < l.length) : distAt (vecSet l i x) = Function.update (distAt l) i x := by
  funext j
  unfold distAt
  by_cases hj : j = i
  · subst hj
    rw [Function.update_same, vecGet_vecSet_same l j x h0 h1]
    rfl
  · rw [Function.update_noteq hj, vecGet_vecSet_ne l i j x h0 hj]

theorem parentAt_vecSet (l : List Int) (i : Int) (x : Int) (h0 : 0 ≤ i)
    (h1 : i < l.length) : parentAt (vecSet l i x) = Function.update (parentAt l) i x := by
  funext j
  unfold parentAt
  by_cases hj : j = i
  · subst hj
    rw [Function.update_same, vecGet_vecSet_same l j x h0 h1]
    rfl
  · rw [Function.update_noteq hj, vecGet_vecSet_ne l i j x h0 hj]

theorem vecGet_eq_distAt (l : List Dist) (i : Int) (h0 : 0 ≤ i) (h1 : i < l.length) :
    vecGet l i = some (distAt l i) := by
  have hlt : i.toNat < l.length := by omega
  simp [distAt, vecGet, h0, List.getElem?_eq_getElem hlt]

theorem sum_map_set {α : Type} (f : α → Nat) (l : List α) (i : Nat) (x : α)
    (h : i < l.length) :
    ((l.set i x).map f).sum + f l[i] = (l.map f).sum + f x := by
  induction l generalizing i with
  | nil => simp at h
  | cons y rest ih =>
    cases i with
    | zero => simp; omega
    | succ k =>
      have hk : k < rest.length := by simpa using h
      have := ih k hk
      simp only [List.set_cons_succ, List.map_cons, List.sum_cons, List.getElem_cons_succ]
      omega

theorem Dist.lt_none_left (d : Dist) : Dist.lt none d = false := by
  cases d <;> rfl

theorem Dist.lt_irrefl (d : Dist) : Dist.lt d d = false := by
  cases d with
  | none => rfl
  | some a => simp [Dist.lt]

theorem Dist.lt_false_trans (a b c : Dist) (hab : Dist.lt b a = false) (hbc : Dist.lt c b = false) :
    Dist.lt c a = false := by
  cases a with
  | none =>
    cases b with
    | none => exact hbc
    | some y => simp [Dist.lt] at hab
  | some x =>
    cases c with
    | none => rfl
    | some z =>
      cases b with
      | none => simp [Dist.lt] at hbc
      | some y =>
        have h1 : x ≤ y := by simpa [Dist.lt] using hab
        have h2 : y ≤ z := by simpa [Dist.lt] using hbc
        simpa [Dist.lt] using le_trans h1 h2

theorem Dist.lt_false_of_decrease (c d d2 : Dist) (h : Dist.lt c d = false)
    (hnew : Dist.lt d2 d = true ∨ d2 = d) : Dist.lt c d2 = false := by
  cases c with
  | none => exact Dist.lt_none_left _
  | some x => exact Dist.lt_false_mono x d d2 h hnew

theorem rounding_le_add {fl : Weight → Dist} (hfl : IsRounding fl) (a w c : Weight)
    (ha : fl a = some a) (hw : 0 ≤ w) (hc : fl (a + w) = some c) : a ≤ c := by
  have := hfl.mono a (a + w) (le_add_of_nonneg_right hw)
  rw [ha, hc] at this
  simpa [Dist.lt] using this

theorem measure_relax (l : List Dist) (v : Int) (c : Weight) (q : Nat) (h0 : 0 ≤ v)
    (h1 : v < l.length) (hc : 0 ≤ c) (hlt : Dist.lt (some c) (distAt l v) = true) :
    (toLex (infCount (vecSet l v (some c)), 2 * finSum (vecSet l v (some c)) + (q + 1)) :
      ℕ ×ₗ ℕ) < toLex (infCount l, 2 * finSum l + q) := by
  have hi : v.toNat < l.length := by omega
  have hold : distAt l v = l[v.toNat] := by
    simp [distAt, vecGet, h0, List.getElem?_eq_getElem hi]
  have e1 : infCount (vecSet l v (some c)) + infUnit (distAt l v) = infCount l := by
    have := sum_map_set infUnit l v.toNat (some c) hi
    rw [hold]
    unfold infCount vecSet
    simpa [infUnit] using this
  have e2 : finSum (vecSet l v (some c)) + finUnit (distAt l v) = finSum l + c.toNat := by
    have := sum_map_set finUnit l v.toNat (some c) hi
    rw [hold]
    unfold finSum vecSet
    simpa [finUnit] using this
  rw [Prod.Lex.lt_iff]
  rcases (Dist.lt_true_iff c (distAt l v)).1 hlt with hn | ⟨b, hb, hcb⟩
  · left
    rw [hn] at e1
    simp only [infUnit] at e1
    show infCount (vecSet l v (some c)) < infCount l
    omega
  · right
    rw [hb] at e1 e2
    simp only [infUnit, finUnit, add_zero] at e1 e2
    have hcb2 : c.toNat < b.toNat := by
      have hb0 : 0 ≤ b := le_trans hc (le_of_lt hcb)
      have h3 : (c.toNat : Int) < (b.toNat : Int) := by
        rw [Int.toNat_of_nonneg hc, Int.toNat_of_nonneg hb0]; exact hcb
      exact_mod_cast h3
    constructor
    · show infCount (vecSet l v (some c)) = infCount l
      exact e1
    · show 2 * finSum (vecSet l v (some c)) + (q + 1) < 2 * finSum l + q
      omega

theorem relax_update_inv (fl : Weight → Dist) (hfl : IsRounding fl)
    (adj : List (List (Int × Weight))) (source n u : Int) (a : Weight)
    (done : List (Int × Weight)) (st : DijkstraState) (e : Int × Weight)
    (hr : 0 ≤ e.1 ∧ e.1 < n) (hw : 0 ≤ e.2) (he : e ∈ nbrsOf adj u)
    (h : RInv fl adj source n u a done st) (c : Weight) (hc : fl (a + e.2) = some c)
    (hlt : Dist.lt (some c) (distAt st.dist e.1) = true) :
    RInv fl adj source n u a (done ++ [e])
        { dist := vecSet st.dist e.1 (some c)
          parent := vecSet st.parent e.1 u
          pq := pqPush (some c, e.1) st.pq } ∧
      dMeasure { dist := vecSet st.dist e.1 (some c)
                 parent := vecSet st.parent e.1 u
                 pq := pqPush (some c, e.1) st.pq } ≤ dMeasure st := by
  have hb := h.base
  have ha0 : 0 ≤ a := hb.nonneg u a h.du
  have hfa : fl a = some a := hb.isFloat u a h.du
  have hac : a ≤ c := rounding_le_add hfl a e.2 c hfa hw hc
  have hc0 : 0 ≤ c := le_trans ha0 hac
  have hcf : fl c = some c := hfl.idem _ _ hc
  have hlenD : e.1 < (st.dist.length : Int) := by rw [hb.lenD]; exact hr.2
  have hlenP : e.1 < (st.parent.length : Int) := by rw [hb.lenP]; exact hr.2
  have hvu : e.1 ≠ u := by
    intro heq
    rw [heq, h.du] at hlt
    have : c < a := by simpa [Dist.lt] using hlt
    exact absurd this (not_lt.mpr hac)
  have hvs : e.1 ≠ source := by
    intro heq
    rw [heq, hb.src] at hlt
    have : c < 0 := by simpa [Dist.lt] using hlt
    exact absurd this (not_lt.mpr hc0)
  have hD := distAt_vecSet st.dist e.1 (some c) hr.1 hlenD
  have hP := parentAt_vecSet st.parent e.1 u hr.1 hlenP
  have hdec : ∀ x, Dist.lt (distAt (vecSet st.dist e.1 (some c)) x) (distAt st.dist x)
      = true ∨ distAt (vecSet st.dist e.1 (some c)) x = distAt st.dist x := by
    intro x
    rw [hD]
    by_cases hx : x = e.1
    · left; rw [hx, Function.update_same]; exact hlt
    · right; rw [Function.update_noteq hx]
  have hbase : BaseInv fl adj source n
      { dist := vecSet st.dist e.1 (some c)
        parent := vecSet st.parent e.1 u
        pq := pqPush (some c, e.1) st.pq } := by
    refine ⟨?_, ?_, ?_, ?_, ?_, ?_, ?_, ?_, ?_, ?_, ?_⟩
    · show ((vecSet _ _ _).length : Int) = n
      rw [length_vecSet]; exact hb.lenD
    · show ((vecSet _ _ _).length : Int) = n
      rw [length_vecSet]; exact hb.lenP
    · intro x hx
      rcases (mem_pqPush _ _ _).1 hx with heq | hin
      · rw [heq]; exact hr
      · exact hb.pqR x hin
    · intro x hx
      show ∃ a', distAt (vecSet _ _ _) x.2 = some a'
      rw [hD]
      by_cases hxv : x.2 = e.1
      · exact ⟨c, by rw [hxv, Function.update_same]⟩
      · rw [Function.update_noteq hxv]
        rcases (mem_pqPush _ _ _).1 hx with heq | hin
        · rw [heq] at hxv; exact absurd rfl hxv
        · exact hb.pqFin x hin
    · show distAt (vecSet _ _ _) source = some 0
      rw [hD, Function.update_noteq (Ne.symm hvs)]; exact hb.src
    · intro x d hx
      change distAt (vecSet _ _ _) x = some d at hx
      rw [hD] at hx
      by_cases hxv : x = e.1
      · rw [hxv, Function.update_same] at hx
        rw [← Option.some.inj hx]; exact hc0
      · rw [Function.update_noteq hxv] at hx
        exact hb.nonneg x d hx
    · intro x d hx
      change distAt (vecSet _ _ _) x = some d at hx
      rw [hD] at hx
      by_cases hxv : x = e.1
      · rw [hxv, Function.update_same] at hx
        rw [← Option.some.inj hx]; exact hcf
      · rw [Function.update_noteq hxv] at hx
        exact hb.isFloat x d hx
    · intro x d hx
      change distAt (vecSet _ _ _) x = some d at hx
      rw [hD] at hx
      by_cases hxv : x = e.1
      · rw [hxv, Function.update_same] at hx
        rw [← Option.some.inj hx, hxv]
        have := Walk.step u e.1 (some a) e.2 (hb.real u a h.du) he
        rw [show Dist.addW fl (some a) e.2 = fl (a + e.2) from rfl, hc] at this
        exact this
      · rw [Function.update_noteq hxv] at hx
        exact hb.real x d hx
    · intro x d hxs hx
      change distAt (vecSet _ _ _) x = some d at hx
      show ∃ w dp, (x, w) ∈ nbrsOf adj (parentAt (vecSet _ _ _) x) ∧
        distAt (vecSet _ _ _) (parentAt (vecSet _ _ _) x) = some dp ∧
        Dist.lt (some d) (fl (dp + w)) = false
      rw [hD] at hx
      rw [hD, hP]
      by_cases hxv : x = e.1
      · rw [hxv, Function.update_same] at hx
        rw [hxv, Function.update_same, Function.update_noteq (Ne.symm hvu)]
        refine ⟨e.2, a, he, h.du, ?_⟩
        rw [hc, ← Option.some.inj hx]
        exact Dist.lt_irrefl _
      · rw [Function.update_noteq hxv] at hx
        rw [Function.update_noteq hxv]
        obtain ⟨w', dp, hmem, hdp, hle⟩ := hb.par x d hxs hx
        by_cases hpv : parentAt st.parent x = e.1
        · rw [hpv, Function.update_same]
          rw [hpv] at hdp hmem
          rw [hdp] at hlt
          have hlt2 : c < dp := by simpa [Dist.lt] using hlt
          refine ⟨w', c, hmem, rfl, ?_⟩
          exact Dist.lt_false_trans _ _ _
            (hfl.mono (c + w') (dp + w') (add_le_add_right (le_of_lt hlt2) w')) hle
        · rw [Function.update_noteq hpv]
          exact ⟨w', dp, hmem, hdp, hle⟩
    · show parentAt (vecSet _ _ _) source = -1
      rw [hP, Function.update_noteq (Ne.symm hvs)]; exact hb.parS
    · intro x hx
      change distAt (vecSet _ _ _) x = none at hx
      show parentAt (vecSet _ _ _) x = -1
      rw [hD] at hx
      rw [hP]
      by_cases hxv : x = e.1
      · rw [hxv, Function.update_same] at hx
        cases hx
      · rw [Function.update_noteq hxv] at hx
        rw [Function.update_noteq hxv]
        exact hb.parInf x hx
  refine ⟨⟨hbase, ?_, ?_, ?_⟩, ?_⟩
  · show distAt (vecSet _ _ _) u = some a
    rw [hD, Function.update_noteq (Ne.symm hvu)]; exact h.du
  · intro x d hxu hx
    change distAt (vecSet _ _ _) x = some d at hx
    by_cases hxv : x = e.1
    · left
      rw [hD, hxv, Function.update_same] at hx
      rw [(mem_pqPush _ _ _), hxv, ← Option.some.inj hx]
      exact Or.inl rfl
    · have hx' : distAt st.dist x = some d := by
        rw [hD, Function.update_noteq hxv] at hx; exact hx
      rcases h.queued x d hxu hx' with hq | hrel
      · left
        exact (mem_pqPush _ _ _).2 (Or.inr hq)
      · right
        intro e' he'
        exact Dist.lt_false_of_decrease _ _ _ (hrel e' he') (hdec e'.1)
  · intro e' he'
    show Dist.lt (fl (a + e'.2)) (distAt (vecSet _ _ _) e'.1) = false
    rcases List.mem_append.1 he' with hd | hs
    · exact Dist.lt_false_of_decrease _ _ _ (h.doneRel e' hd) (hdec e'.1)
    · rw [List.mem_singleton] at hs
      rw [hs, hD, Function.update_same, hc]
      exact Dist.lt_irrefl _
  · apply le_of_lt
    unfold dMeasure
    simp only [length_pqPush]
    exact measure_relax st.dist e.1 c st.pq.length hr.1 hlenD hc0 hlt

theorem relaxNeighbors_spec (fl : Weight → Dist) (hfl : IsRounding fl)
    (adj : List (List (Int × Weight))) (source n u : Int) (a : Weight)
    (hu : 0 ≤ u ∧ u < n)
    (hin : ∀ e ∈ nbrsOf adj u, 0 ≤ e.1 ∧ e.1 < n) (hnn : ∀ e ∈ nbrsOf adj u, 0 ≤ e.2)
    (rest : List (Int × Weight)) :
    ∀ (done : List (Int × Weight)) (st : DijkstraState),
      (∀ e ∈ rest, e ∈ nbrsOf adj u) → RInv fl adj source n u a done st →
      ∃ st1, relaxNeighbors fl u rest st = .ok st1 ∧
        RInv fl adj source n u a (done ++ rest) st1 ∧ dMeasure st1 ≤ dMeasure st := by
  induction rest with
  | nil =>
    intro done st _ h
    exact ⟨st, rfl, by rw [List.append_nil]; exact h, le_refl _⟩
  | cons e rest ih =>
    intro done st hsub h
    have he := hsub e (List.mem_cons_self _ _)
    have hr := hin e he
    have hw := hnn e he
    have hb := h.base
    have hgv : vecGet st.dist e.1 = some (distAt st.dist e.1) :=
      vecGet_eq_distAt _ _ hr.1 (by rw [hb.lenD]; exact hr.2)
    have hgu : vecGet st.dist u = some (some a) := by
      rw [vecGet_eq_distAt _ _ hu.1 (by rw [hb.lenD]; exact hu.2), h.du]
    have hrest := fun e' h' => hsub e' (List.mem_cons_of_mem _ h')
    unfold relaxNeighbors
    rw [hgv, hgu]
    simp only [Dist.addW]
    by_cases hlt : Dist.lt (fl (a + e.2)) (distAt st.dist e.1) = true
    · rw [if_pos hlt]
      have hlenP : e.1.toNat < st.parent.length := by
        have := hb.lenP
        omega
      have hgp : vecGet st.parent e.1 = some (st.parent[e.1.toNat]) := by
        unfold vecGet
        rw [if_pos hr.1, List.getElem?_eq_getElem hlenP]
      rw [hgp]
      simp only
      cases hc : fl (a + e.2) with
      | none => rw [hc, Dist.lt_none_left] at hlt; cases hlt
      | some c =>
        rw [hc] at hlt
        obtain ⟨hinv, hm⟩ := relax_update_inv fl hfl adj source n u a done st e hr hw he h c hc hlt
        obtain ⟨st1, hrun, hinv1, hm1⟩ := ih (done ++ [e]) _ hrest hinv
        refine ⟨st1, hrun, ?_, le_trans hm1 hm⟩
        rw [List.append_assoc] at hinv1
        exact hinv1
    · rw [if_neg hlt]
      have hfalse : Dist.lt (fl (a + e.2)) (distAt st.dist e.1) = false := by
        simpa using hlt
      have hinv : RInv fl adj source n u a (done ++ [e]) st := by
        refine ⟨hb, h.du, h.queued, ?_⟩
        intro e' he'
        rcases List.mem_append.1 he' with hd | hs
        · exact h.doneRel e' hd
        · rw [List.mem_singleton] at hs
          rw [hs]; exact hfalse
      obtain ⟨st1, hrun, hinv1, hm1⟩ := ih (done ++ [e]) st hrest hinv
      refine ⟨st1, hrun, ?_, hm1⟩
      rw [List.append_assoc] at hinv1
      exact hinv1

theorem dijkstraStep_spec (fl : Weight → Dist) (hfl : IsRounding fl)
    (adj : List (List (Int × Weight))) (source n : Int)
    (hlen : (adj.length : Int) = n)
    (hin : ∀ u e, e ∈ nbrsOf adj u → 0 ≤ e.1 ∧ e.1 < n)
    (hnn : ∀ u e, e ∈ nbrsOf adj u → 0 ≤ e.2)
    (st : DijkstraState) (top : Dist × Int) (rest : List (Dist × Int))
    (hpq : st.pq = top :: rest) (h : DInv fl adj source n st) :
    ∃ st1, dijkstraStep fl adj top.1 top.2 { st with pq := rest } = .ok st1 ∧
      DInv fl adj source n st1 ∧ dMeasure st1 < dMeasure st := by
  have hb := h.base
  have htop : top ∈ st.pq := by rw [hpq]; exact List.mem_cons_self _ _
  have hr := hb.pqR top htop
  obtain ⟨a, ha⟩ := hb.pqFin top htop
  have hsub : ∀ x ∈ rest, x ∈ st.pq := by
    intro x hx; rw [hpq]; exact List.mem_cons_of_mem _ hx
  have hbase0 : BaseInv fl adj source n { st with pq := rest } :=
    ⟨hb.lenD, hb.lenP, fun x hx => hb.pqR x (hsub x hx), fun x hx => hb.pqFin x (hsub x hx),
      hb.src, hb.nonneg, hb.isFloat, hb.real, hb.par, hb.parS, hb.parInf⟩
  have hm0 : dMeasure { st with pq := rest } < dMeasure st := by
    unfold dMeasure
    rw [Prod.Lex.lt_iff]
    right
    refine ⟨rfl, ?_⟩
    show 2 * finSum st.dist + rest.length < 2 * finSum st.dist + st.pq.length
    rw [hpq, List.length_cons]
    omega
  have hgu : vecGet st.dist top.2 = some (some a) := by
    rw [vecGet_eq_distAt _ _ hr.1 (by rw [hb.lenD]; exact hr.2), ha]
  unfold dijkstraStep
  simp only
  rw [hgu]
  simp only
  by_cases hstale : Dist.lt (some a) top.1 = true
  · rw [if_pos hstale]
    refine ⟨_, rfl, ⟨hbase0, ?_⟩, hm0⟩
    intro x d hx
    rcases h.queued x d hx with hq | hrel
    · left
      rw [hpq] at hq
      rcases List.mem_cons.1 hq with heq | hin'
      · exfalso
        rw [← heq] at hstale ha
        simp only at hstale ha
        rw [hx] at ha
        rw [Option.some.inj ha] at hstale
        simp [Dist.lt] at hstale
      · exact hin'
    · exact Or.inr hrel
  · rw [if_neg hstale]
    have hga : vecGet adj top.2 = some (nbrsOf adj top.2) :=
      vecGet_of_lt adj top.2 hr.1 (by rw [hlen]; exact hr.2)
    rw [hga]
    simp only
    have hrinv : RInv fl adj source n top.2 a [] { st with pq := rest } := by
      refine ⟨hbase0, ha, ?_, by simp⟩
      intro x d hxu hx
      rcases h.queued x d hx with hq | hrel
      · left
        rw [hpq] at hq
        rcases List.mem_cons.1 hq with heq | hin'
        · exfalso
          apply hxu
          rw [← heq]
        · exact hin'
      · exact Or.inr hrel
    obtain ⟨st1, hrun, hinv1, hm1⟩ := relaxNeighbors_spec fl hfl adj source n top.2 a hr
      (hin top.2) (hnn top.2) (nbrsOf adj top.2) [] _ (fun e he => he) hrinv
    refine ⟨st1, hrun, ⟨hinv1.base, ?_⟩, lt_of_le_of_lt hm1 hm0⟩
    intro x d hx
    by_cases hxu : x = top.2
    · right
      rw [hxu] at hx
      rw [hinv1.du] at hx
      rw [hxu, ← Option.some.inj hx]
      intro e he
      exact hinv1.doneRel e (by simpa using he)
    · exact hinv1.queued x d hxu hx

theorem dijkstraLoop_terminates (fl : Weight → Dist) (hfl : IsRounding fl)
    (adj : List (List (Int × Weight))) (source n : Int)
    (hlen : (adj.length : Int) = n)
    (hin : ∀ u e, e ∈ nbrsOf adj u → 0 ≤ e.1 ∧ e.1 < n)
    (hnn : ∀ u e, e ∈ nbrsOf adj u → 0 ≤ e.2) :
    ∀ st : DijkstraState, DInv fl adj source n st →
      ∃ N st1, (∀ fuel, N ≤ fuel → dijkstraLoop fl adj fuel st = .ok st1) ∧
        DInv fl adj source n st1 ∧ st1.pq = [] := by
  have key : ∀ m : ℕ ×ₗ ℕ, ∀ st : DijkstraState, dMeasure st = m → DInv fl adj source n st →
      ∃ N st1, (∀ fuel, N ≤ fuel → dijkstraLoop fl adj fuel st = .ok st1) ∧
        DInv fl adj source n st1 ∧ st1.pq = [] := by
    intro m
    induction m using WellFoundedLT.induction with
    | ind m ih =>
    intro st hm h
    cases hpq : st.pq with
    | nil =>
      refine ⟨0, st, ?_, h, hpq⟩
      intro fuel _
      cases fuel with
      | zero => simp [dijkstraLoop, hpq]
      | succ k => simp [dijkstraLoop, hpq]
    | cons top rest =>
      obtain ⟨st1, hstep, hinv1, hlt⟩ :=
        dijkstraStep_spec fl hfl adj source n hlen hin hnn st top rest hpq h
      rw [hm] at hlt
      obtain ⟨N, st2, hrun, hinv2, hemp⟩ := ih (dMeasure st1) hlt st1 rfl hinv1
      refine ⟨N + 1, st2, ?_, hinv2, hemp⟩
      intro fuel hf
      cases fuel with
      | zero => omega
      | succ k =>
        simp only [dijkstraLoop, hpq, hstep]
        exact hrun k (by omega)
  intro st h
  exact key (dMeasure st) st rfl h

theorem dijkstraLoop_in_range (fl : Weight → Dist) (hfl : IsRounding fl)
    (adj : List (List (Int × Weight))) (source n : Int)
    (hlen : (adj.length : Int) = n)
    (hin : ∀ u e, e ∈ nbrsOf adj u → 0 ≤ e.1 ∧ e.1 < n)
    (hnn : ∀ u e, e ∈ nbrsOf adj u → 0 ≤ e.2) (fuel : Nat) :
    ∀ st : DijkstraState, DInv fl adj source n st →
      dijkstraLoop fl adj fuel st ≠ .error Fault.outOfRange := by
  induction fuel with
  | zero =>
    intro st _
    cases hpq : st.pq with
    | nil => simp [dijkstraLoop, hpq]
    | cons top rest => simp [dijkstraLoop, hpq]
  | succ k ih =>
    intro st h
    cases hpq : st.pq with
    | nil => simp [dijkstraLoop, hpq]
    | cons top rest =>
      obtain ⟨st1, hstep, hinv1, -⟩ :=
        dijkstraStep_spec fl hfl adj source n hlen hin hnn st top rest hpq h
      simp only [dijkstraLoop, hpq, hstep]
      exact ih st1 hinv1

theorem nbrsOf_mem_or_nil (adj : List (List (Int × Weight))) (x : Int) :
    nbrsOf adj x ∈ adj ∨ nbrsOf adj x = [] := by
  by_cases h : 0 ≤ x ∧ x < adj.length
  · left
    have hlt : x.toNat < adj.length := by omega
    have : nbrsOf adj x = adj[x.toNat] := by
      simp [nbrsOf, vecGet, h.1, List.getElem?_eq_getElem hlt]
    rw [this]
    exact List.getElem_mem _
  · right
    exact nbrsOf_of_not adj x h

theorem distAt_replicate (k : Nat) (x : Int) : distAt (List.replicate k none) x = none := by
  unfold distAt vecGet
  split
  · cases h : (List.replicate k (none : Dist))[x.toNat]? with
    | none => rfl
    | some d =>
      have := (List.getElem?_eq_some.1 h).2
      simp at this
      simp [← this]
  · rfl

theorem parentAt_replicate (k : Nat) (x : Int) : parentAt (List.replicate k (-1)) x = -1 := by
  unfold parentAt vecGet
  split
  · cases h : (List.replicate k (-1 : Int))[x.toNat]? with
    | none => rfl
    | some d =>
      have := (List.getElem?_eq_some.1 h).2
      simp at this
      simp [← this]
  · rfl

theorem dijkstra_initial_inv (fl : Weight → Dist) (hfl : IsRounding fl)
    (adj : List (List (Int × Weight))) (source n : Int) (s : SSSP)
    (hd : (s.dist.length : Int) = n) (hp : (s.parent.length : Int) = n)
    (hsrc : 0 ≤ source ∧ source < n) :
    DInv fl adj source n
      { dist := ( SSSP.initialize s source).1.dist
        parent := ( SSSP.initialize s source).1.parent
        pq := pqPush (some 0, source) [] } := by
  have hguard : ¬ (source < 0 ∨ source ≥ (s.dist.length : Int)) := by omega
  have hinit : SSSP.initialize s source =
      ({ dist := vecSet (List.replicate s.dist.length none) source (some 0)
         parent := List.replicate s.parent.length (-1) }, none) := by
    unfold SSSP.initialize
    rw [if_neg hguard]
  rw [hinit]
  simp only
  have hD : distAt (vecSet (List.replicate s.dist.length none) source (some 0)) =
      Function.update (fun _ => none) source (some 0) := by
    rw [distAt_vecSet _ _ _ hsrc.1 (by rw [List.length_replicate]; omega)]
    have : distAt (List.replicate s.dist.length none) = fun _ => none := by
      funext x
      exact distAt_replicate _ x
    rw [this]
  have hfin : ∀ x d, distAt (vecSet (List.replicate s.dist.length none) source (some 0)) x
      = some d → x = source ∧ d = 0 := by
    intro x d hx
    rw [hD] at hx
    by_cases hxs : x = source
    · rw [hxs, Function.update_same] at hx
      exact ⟨hxs, (Option.some.inj hx).symm⟩
    · rw [Function.update_noteq hxs] at hx
      cases hx
  refine ⟨⟨?_, ?_, ?_, ?_, ?_, ?_, ?_, ?_, ?_, ?_, ?_⟩, ?_⟩
  · show ((vecSet _ _ _).length : Int) = n
    rw [length_vecSet, List.length_replicate]; exact hd
  · show ((List.replicate _ _).length : Int) = n
    rw [List.length_replicate]; exact hp
  · intro x hx
    have : x = (some 0, source) := by simpa [pqPush] using hx
    rw [this]; exact hsrc
  · intro x hx
    have : x = (some 0, source) := by simpa [pqPush] using hx
    rw [this]
    exact ⟨0, by show distAt (vecSet _ _ _) source = _; rw [hD, Function.update_same]⟩
  · show distAt (vecSet _ _ _) source = _
    rw [hD, Function.update_same]
  · intro x d hx
    rw [(hfin x d hx).2]
  · intro x d hx
    rw [(hfin x d hx).2]
    exact hfl.zero
  · intro x d hx
    obtain ⟨h1, h2⟩ := hfin x d hx
    rw [h1, h2]
    exact Walk.nil
  · intro x d hxs hx
    exact absurd (hfin x d hx).1 hxs
  · exact parentAt_replicate _ _
  · intro x _
    exact parentAt_replicate _ _
  · intro x d hx
    obtain ⟨h1, h2⟩ := hfin x d hx
    left
    rw [h1, h2]
    simp [pqPush]

theorem walk_lower_bound (fl : Weight → Dist) (hfl : IsRounding fl)
    (adj : List (List (Int × Weight))) (source : Int) (dist : List Dist)
    (hsrc : distAt dist source = some 0)
    (hrel : ∀ u m, distAt dist u = some m → relaxedAt fl adj dist u m) :
    ∀ v c, Walk fl adj source v c → Dist.lt c (distAt dist v) = false := by
  intro v c hwalk
  induction hwalk with
  | nil => rw [hsrc]; exact Dist.lt_irrefl _
  | step u v d w _ hmem ih =>
    cases d with
    | none => exact Dist.lt_none_left _
    | some b =>
      cases hm : distAt dist u with
      | none => rw [hm] at ih; simp [Dist.lt] at ih
      | some m =>
        rw [hm] at ih
        have hmb : m ≤ b := by simpa [Dist.lt] using ih
        show Dist.lt (fl (b + w)) (distAt dist v) = false
        exact Dist.lt_false_trans _ _ _ (hrel u m hm (v, w) hmem)
          (hfl.mono (m + w) (b + w) (add_le_add_right hmb w))

theorem final_lower_bound (fl : Weight → Dist) (hfl : IsRounding fl)
    (adj : List (List (Int × Weight))) (source n : Int)
    (st : DijkstraState) (h : DInv fl adj source n st) (hemp : st.pq = []) :
    ∀ v c, Walk fl adj source v c → Dist.lt c (distAt st.dist v) = false := by
  apply walk_lower_bound fl hfl adj source st.dist h.base.src
  intro u m hm
  rcases h.queued u m hm with hq | hrel
  · rw [hemp] at hq
    simp at hq
  · exact hrel

theorem relaxed_of_check (fl : Weight → Dist) (adj : List (List (Int × Weight)))
    (dist : List Dist) (h : relaxedCheck fl adj dist) :
    ∀ u m, distAt dist u = some m → relaxedAt fl adj dist u m := by
  intro u m hm e he
  have hr := mem_nbrsOf_inRange adj u e he
  have hk : ((u.toNat : Nat) : Int) = u := by omega
  have := h u.toNat (List.mem_range.2 (by omega)) e (by rw [hk]; exact he)
  rw [hk, hm] at this
  exact this

theorem dijkstra_core (fl : Weight → Dist) (hfl : IsRounding fl) (graph : SeqGraph) (s : SSSP)
    (source : Int) (hwf : graph.WF)
    (hin : graph.AdjInRange) (hnn : graph.NonNegWeights)
    (hd : (s.dist.length : Int) = graph.V) (hp : (s.parent.length : Int) = graph.V)
    (hsrc : 0 ≤ source ∧ source < graph.V) :
    ∃ N st, (∀ fuel, N ≤ fuel →
        SSSP.dijkstra fl s graph source fuel = .ok { dist := st.dist, parent := st.parent }) ∧
      DInv fl graph.adj source graph.V st ∧ st.pq = [] ∧
      (∀ fuel, SSSP.dijkstra fl s graph source fuel ≠ .error Fault.outOfRange) := by
  have hin' : ∀ u e, e ∈ nbrsOf graph.adj u → 0 ≤ e.1 ∧ e.1 < graph.V := by
    intro u e he
    rcases nbrsOf_mem_or_nil graph.adj u with hm | hn
    · exact hin _ hm e he
    · rw [hn] at he; simp at he
  have hnn' : ∀ u e, e ∈ nbrsOf graph.adj u → 0 ≤ e.2 := by
    intro u e he
    rcases nbrsOf_mem_or_nil graph.adj u with hm | hn
    · exact hnn _ hm e he
    · rw [hn] at he; simp at he
  have h0 := dijkstra_initial_inv fl hfl graph.adj source graph.V s hd hp hsrc
  obtain ⟨N, st, hrun, hinv, hemp⟩ :=
    dijkstraLoop_terminates fl hfl graph.adj source graph.V hwf hin' hnn' _ h0
  refine ⟨N, st, ?_, hinv, hemp, ?_⟩
  · intro fuel hf
    unfold SSSP.dijkstra
    rw [hrun fuel hf]
  · intro fuel
    have := dijkstraLoop_in_range fl hfl graph.adj source graph.V hwf hin' hnn' fuel _ h0
    unfold SSSP.dijkstra
    cases hres : dijkstraLoop fl graph.adj fuel
        { dist := ( SSSP.initialize s source).1.dist
          parent := ( SSSP.initialize s source).1.parent
          pq := pqPush (some 0, source) [] } with
    | error f =>
      rw [hres] at this
      simp only
      intro hc
      apply this
      rw [Except.error.injEq] at hc
      rw [hc]
    | ok st1 => simp

/-! ## Rounding to `float` -/

theorem dropBitsFrom_spec (n : Nat) : ∀ (fuel s : Nat), n < 2 ^ (24 + s + fuel) →
    (∀ t, t < s → 2 ^ (24 + t) ≤ n) →
    n < 2 ^ (24 + dropBitsFrom n fuel s) ∧ ∀ t, t < dropBitsFrom n fuel s → 2 ^ (24 + t) ≤ n := by
  intro fuel
  induction fuel with
  | zero =>
    intro s h1 h2
    exact ⟨by simpa [dropBitsFrom] using h1, by simpa [dropBitsFrom] using h2⟩
  | succ k ih =>
    intro s h1 h2
    unfold dropBitsFrom
    split
    · rename_i hlt
      exact ⟨hlt, h2⟩
    · rename_i hge
      apply ih (s + 1)
      · have : 24 + (s + 1) + k = 24 + s + (k + 1) := by omega
        rw [this]; exact h1
      · intro t ht
        by_cases hts : t < s
        · exact h2 t hts
        · have : t = s := by omega
          rw [this]
          exact not_lt.mp hge

theorem dropBits_spec (n : Nat) :
    n < 2 ^ (24 + dropBits n) ∧ ∀ t, t < dropBits n → 2 ^ (24 + t) ≤ n := by
  unfold dropBits
  apply dropBitsFrom_spec n n 0
  · have h1 : n < 2 ^ n := Nat.lt_two_pow n
    have h2 : 2 ^ n ≤ 2 ^ (24 + 0 + n) := Nat.pow_le_pow_right (by norm_num) (by omega)
    omega
  · intro t ht
    omega

theorem dropBits_lower (n : Nat) (h : 1 ≤ dropBits n) : 2 ^ (23 + dropBits n) ≤ n := by
  have := (dropBits_spec n).2 (dropBits n - 1) (by omega)
  have e : 24 + (dropBits n - 1) = 23 + dropBits n := by omega
  rw [e] at this
  exact this

theorem dropBits_eq (n s : Nat) (h1 : n < 2 ^ (24 + s)) (h2 : s = 0 ∨ 2 ^ (23 + s) ≤ n) :
    dropBits n = s := by
  obtain ⟨g1, g2⟩ := dropBits_spec n
  rcases Nat.lt_trichotomy (dropBits n) s with hlt | heq | hgt
  · exfalso
    rcases h2 with h0 | hlow
    · omega
    · have : 2 ^ (24 + dropBits n) ≤ 2 ^ (23 + s) :=
        Nat.pow_le_pow_right (by norm_num) (by omega)
      omega
  · exact heq
  · exfalso
    have := g2 s hgt
    omega

theorem dropBits_mono (a b : Nat) (h : a ≤ b) : dropBits a ≤ dropBits b := by
  by_contra hc
  have h1 := (dropBits_spec a).2 (dropBits b) (by omega)
  have h2 := (dropBits_spec b).1
  omega

/-- The decomposition used by `roundNat`: quotient, remainder and the two candidates. -/
theorem roundNat_cases (n : Nat) :
    (roundNat n = (n / 2 ^ dropBits n) * 2 ^ dropBits n ∧
      (2 * (n % 2 ^ dropBits n) < 2 ^ dropBits n ∨
        (2 * (n % 2 ^ dropBits n) = 2 ^ dropBits n ∧ (n / 2 ^ dropBits n) % 2 = 0))) ∨
    (roundNat n = (n / 2 ^ dropBits n + 1) * 2 ^ dropBits n ∧
      ¬ (2 * (n % 2 ^ dropBits n) < 2 ^ dropBits n ∨
        (2 * (n % 2 ^ dropBits n) = 2 ^ dropBits n ∧ (n / 2 ^ dropBits n) % 2 = 0))) := by
  unfold roundNat
  split
  · rename_i h; exact Or.inl ⟨rfl, h⟩
  · rename_i h; exact Or.inr ⟨rfl, h⟩

theorem roundNat_bounds (n : Nat) :
    (n / 2 ^ dropBits n) * 2 ^ dropBits n ≤ roundNat n ∧
    roundNat n ≤ (n / 2 ^ dropBits n + 1) * 2 ^ dropBits n := by
  have hmul : (n / 2 ^ dropBits n + 1) * 2 ^ dropBits n =
      (n / 2 ^ dropBits n) * 2 ^ dropBits n + 2 ^ dropBits n := by ring
  rcases roundNat_cases n with ⟨h, -⟩ | ⟨h, -⟩
  · rw [h, hmul]; exact ⟨le_refl _, Nat.le_add_right _ _⟩
  · rw [h, hmul]; exact ⟨Nat.le_add_right _ _, le_refl _⟩

theorem quot_lt (n : Nat) : n / 2 ^ dropBits n < 2 ^ 24 := by
  have h := (dropBits_spec n).1
  rw [Nat.pow_add] at h
  exact Nat.div_lt_of_lt_mul (by rw [Nat.mul_comm]; exact h)

theorem quot_ge (n : Nat) (h : 1 ≤ dropBits n) : 2 ^ 23 ≤ n / 2 ^ dropBits n := by
  have hl := dropBits_lower n h
  rw [Nat.pow_add] at hl
  exact (Nat.le_div_iff_mul_le (Nat.two_pow_pos _)).2 hl

theorem roundNat_le_pow (n : Nat) : roundNat n ≤ 2 ^ (24 + dropBits n) := by
  have h1 := (roundNat_bounds n).2
  have h2 : n / 2 ^ dropBits n + 1 ≤ 2 ^ 24 := quot_lt n
  have h3 := Nat.mul_le_mul_right (2 ^ dropBits n) h2
  rw [Nat.pow_add]
  omega

theorem roundNat_ge_pow (n : Nat) (h : 1 ≤ dropBits n) : 2 ^ (23 + dropBits n) ≤ roundNat n := by
  have h1 := (roundNat_bounds n).1
  have h3 := Nat.mul_le_mul_right (2 ^ dropBits n) (quot_ge n h)
  rw [Nat.pow_add]
  omega

theorem roundNat_of_small (n : Nat) (h : dropBits n = 0) : roundNat n = n := by
  unfold roundNat
  rw [h]
  simp [Nat.mod_one]

theorem roundNat_mono (a b : Nat) (h : a ≤ b) : roundNat a ≤ roundNat b := by
  have hs := dropBits_mono a b h
  rcases Nat.eq_or_lt_of_le hs with heq | hlt
  · -- same binade
    have hu : 0 < 2 ^ dropBits b := Nat.two_pow_pos _
    have hq : a / 2 ^ dropBits b ≤ b / 2 ^ dropBits b := Nat.div_le_div_right h
    have da := Nat.div_add_mod a (2 ^ dropBits b)
    have db := Nat.div_add_mod b (2 ^ dropBits b)
    have ca := roundNat_cases a
    have cb := roundNat_cases b
    rw [heq] at ca
    rcases Nat.eq_or_lt_of_le hq with hqe | hql
    · -- same quotient: the remainder decides
      rw [hqe] at ca da
      have hr : a % 2 ^ dropBits b ≤ b % 2 ^ dropBits b := by
        have e1 : 2 ^ dropBits b * (b / 2 ^ dropBits b) + a % 2 ^ dropBits b = a := da
        have e2 : 2 ^ dropBits b * (b / 2 ^ dropBits b) + b % 2 ^ dropBits b = b := db
        omega
      have hmul : (b / 2 ^ dropBits b + 1) * 2 ^ dropBits b =
          (b / 2 ^ dropBits b) * 2 ^ dropBits b + 2 ^ dropBits b := by ring
      rcases ca with ⟨ha, -⟩ | ⟨ha, hna⟩
      · rw [ha]; exact (roundNat_bounds b).1
      · rcases cb with ⟨hb, hcb⟩ | ⟨hb, -⟩
        · exfalso
          apply hna
          rcases hcb with h1 | ⟨h1, h2⟩
          · left; omega
          · rcases Nat.lt_or_ge (2 * (a % 2 ^ dropBits b)) (2 ^ dropBits b) with h3 | h3
            · left; exact h3
            · right; exact ⟨by omega, h2⟩
        · rw [ha, hb]
    · -- smaller quotient
      have h1 := (roundNat_bounds a).2
      rw [heq] at h1
      have h2 := (roundNat_bounds b).1
      have h3 : (a / 2 ^ dropBits b + 1) * 2 ^ dropBits b ≤
          (b / 2 ^ dropBits b) * 2 ^ dropBits b := Nat.mul_le_mul_right _ hql
      omega
  · -- smaller binade
    have h1 := roundNat_le_pow a
    have h2 := roundNat_ge_pow b (by omega)
    have h3 : 2 ^ (24 + dropBits a) ≤ 2 ^ (23 + dropBits b) :=
      Nat.pow_le_pow_right (by norm_num) (by omega)
    omega

theorem roundNat_of_multiple (k t : Nat) (h : dropBits (k * 2 ^ t) = t) :
    roundNat (k * 2 ^ t) = k * 2 ^ t := by
  have hu : 0 < 2 ^ t := Nat.two_pow_pos _
  unfold roundNat
  rw [h, Nat.mul_mod_left, Nat.mul_div_cancel _ hu]
  simp [hu]

theorem roundNat_idem (n : Nat) : roundNat (roundNat n) = roundNat n := by
  rcases Nat.eq_zero_or_pos (dropBits n) with h0 | hpos
  · rw [roundNat_of_small n h0]
    exact roundNat_of_small n h0
  · have hq1 := quot_lt n
    have hq2 := quot_ge n hpos
    have key : ∀ k, 2 ^ 23 ≤ k → k ≤ 2 ^ 24 →
        roundNat (k * 2 ^ dropBits n) = k * 2 ^ dropBits n := by
      intro k hk1 hk2
      rcases Nat.eq_or_lt_of_le hk2 with heq | hlt
      · have e : k * 2 ^ dropBits n = 2 ^ 23 * 2 ^ (dropBits n + 1) := by
          rw [heq, Nat.pow_succ]; ring
        rw [e]
        apply roundNat_of_multiple
        apply dropBits_eq
        · rw [Nat.pow_add 2 24]
          have h23 : 2 ^ 23 < 2 ^ 24 := by norm_num
          exact (Nat.mul_lt_mul_right (Nat.two_pow_pos _)).2 h23
        · right
          rw [Nat.pow_add]
      · apply roundNat_of_multiple
        apply dropBits_eq
        · rw [Nat.pow_add]
          exact (Nat.mul_lt_mul_right (Nat.two_pow_pos _)).2 hlt
        · right
          rw [Nat.pow_add]
          exact Nat.mul_le_mul_right _ hk1
    rcases roundNat_cases n with ⟨h, -⟩ | ⟨h, -⟩
    · rw [h]; exact key _ hq2 (le_of_lt hq1)
    · rw [h]; exact key _ (by omega) hq1

theorem roundNat_zero : roundNat 0 = 0 := by decide

theorem isRounding_exactSum : IsRounding exactSum :=
  ⟨fun a b h => by simpa [exactSum, Dist.lt] using h, fun a b h => by
    have : a = b := Option.some.inj h
    rw [← this]; rfl, rfl⟩

theorem roundFloat_mono (k : Nat) (a b : Int) (hab : a ≤ b) :
    Dist.lt (roundFloat k b) (roundFloat k a) = false := by
  unfold roundFloat
  by_cases hb : b < 0
  · have ha : a < 0 := lt_of_le_of_lt hab hb
    rw [if_pos hb, if_pos ha]
    have := roundNat_mono b.natAbs a.natAbs (by omega)
    have h2 : ¬ (-(roundNat b.natAbs : Int) < -(roundNat a.natAbs : Int)) := by omega
    simpa [Dist.lt] using h2
  · rw [if_neg hb]
    by_cases hbig : roundNat b.toNat ≥ 2 ^ (128 + k)
    · rw [if_pos hbig]; exact Dist.lt_none_left _
    · rw [if_neg hbig]
      by_cases ha : a < 0
      · rw [if_pos ha]
        have h2 : ¬ ((roundNat b.toNat : Int) < -(roundNat a.natAbs : Int)) := by omega
        simpa [Dist.lt] using h2
      · rw [if_neg ha]
        have := roundNat_mono a.toNat b.toNat (by omega)
        have hsmall : ¬ roundNat a.toNat ≥ 2 ^ (128 + k) := fun hc => hbig (le_trans hc this)
        rw [if_neg hsmall]
        have h2 : ¬ ((roundNat b.toNat : Int) < (roundNat a.toNat : Int)) := by omega
        simpa [Dist.lt] using h2

theorem roundFloat_zero (k : Nat) : roundFloat k 0 = some 0 := by
  have hpos : 0 < 2 ^ (128 + k) := Nat.two_pow_pos _
  unfold roundFloat
  simp [roundNat_zero, hpos]

theorem roundFloat_idem (k : Nat) (a b : Int) (h : roundFloat k a = some b) :
    roundFloat k b = some b := by
  unfold roundFloat at h
  by_cases ha : a < 0
  · rw [if_pos ha] at h
    have hb : b = -(roundNat a.natAbs : Int) := (Option.some.inj h).symm
    rcases Nat.eq_zero_or_pos (roundNat a.natAbs) with hz | hp
    · rw [hz] at hb
      simp only [Nat.cast_zero, neg_zero] at hb
      rw [hb]; exact roundFloat_zero k
    · have hneg : b < 0 := by omega
      have habs : b.natAbs = roundNat a.natAbs := by omega
      unfold roundFloat
      rw [if_pos hneg, habs, roundNat_idem, hb]
  · rw [if_neg ha] at h
    by_cases hbig : roundNat a.toNat ≥ 2 ^ (128 + k)
    · rw [if_pos hbig] at h; cases h
    · rw [if_neg hbig] at h
      have hb : b = (roundNat a.toNat : Int) := (Option.some.inj h).symm
      have hnn : ¬ b < 0 := by omega
      have htn : b.toNat = roundNat a.toNat := by omega
      unfold roundFloat
      rw [if_neg hnn, htn, roundNat_idem, if_neg hbig, hb]

theorem isRounding_roundFloat (k : Nat) : IsRounding (roundFloat k) :=
  ⟨roundFloat_mono k, roundFloat_idem k, roundFloat_zero k⟩

/-! ## The scenarios of the specification on the sequential baseline -/

theorem dijkstra_scenario_S4 :
    SSSP.dijkstra (roundFloat 0) (SSSP.create 3) graphS4 0 10 =
      .ok { dist := [some 0, some 2, none], parent := [-1, 0, -1] } := by
  rfl

theorem dijkstra_scenario_S2 :
    SSSP.dijkstra (roundFloat 0) (SSSP.create 4) graphS2 0 20 =
      .ok { dist := [some 0, some 1, some 2, some 3], parent := [-1, 0, 1, 2] } ∧
    Sequential.applyUpdates graphS2 [⟨1, 2, -1⟩] = some graphS2Deleted ∧
    SSSP.dijkstra (roundFloat 0) (SSSP.create 4) graphS2Deleted 0 20 =
      .ok { dist := [some 0, some 1, some 11, some 10], parent := [-1, 0, 3, 0] } := by
  refine ⟨rfl, by decide, rfl⟩

/-! ## Claims on the sequential `dijkstra` -/

/-- C14 (amended): shortest-path tree after the sequential `SSSP::dijkstra`.  Under the
hypotheses of C13 the returned state has `parent[source] = -1`; every vertex `v ≠ source`
with a finite `dist[v]` has a parent `p = parent[v]` such that `adj[p]` holds an entry
`(v, w)`, `dist[p]` is finite and `dist[v]` is the float sum `dist[p] + w`; and
`parent[v] = -1` for every vertex with `dist[v] = +inf`, in particular for every vertex
without a path from the source. -/
theorem dijkstra_parent_tree (fl : Weight → Dist) (hfl : IsRounding fl) (graph : SeqGraph)
    (s : SSSP) (source : Int) (hwf : graph.WF)
    (hin : graph.AdjInRange) (hnn : graph.NonNegWeights)
    (hd : (s.dist.length : Int) = graph.V) (hp : (s.parent.length : Int) = graph.V)
    (hsrc : 0 ≤ source ∧ source < graph.V) :
    ∃ N r, (∀ fuel, N ≤ fuel → SSSP.dijkstra fl s graph source fuel = .ok r) ∧
      parentAt r.parent source = -1 ∧
      (∀ v d, v ≠ source → distAt r.dist v = some d →
        ∃ w dp, (v, w) ∈ nbrsOf graph.adj (parentAt r.parent v) ∧
          distAt r.dist (parentAt r.parent v) = some dp ∧ fl (dp + w) = some d) ∧
      (∀ v, distAt r.dist v = none → parentAt r.parent v = -1) ∧
      (∀ v, (¬ ∃ c, Walk fl graph.adj source v c) → parentAt r.parent v = -1) := by
  obtain ⟨N, st, hrun, hinv, hemp, -⟩ :=
    dijkstra_core fl hfl graph s source hwf hin hnn hd hp hsrc
  refine ⟨N, { dist := st.dist, parent := st.parent }, hrun, hinv.base.parS, ?_,
    hinv.base.parInf, ?_⟩
  · intro v d hvs hv
    obtain ⟨w, dp, hmem, hdp, hle⟩ := hinv.base.par v d hvs hv
    refine ⟨w, dp, hmem, hdp, ?_⟩
    rcases hinv.queued _ dp hdp with hq | hr
    · rw [hemp] at hq; simp at hq
    · have := hr (v, w) hmem
      change Dist.lt (fl (dp + w)) (distAt st.dist v) = false at this
      rw [hv] at this
      cases hc : fl (dp + w) with
      | none => rw [hc] at hle; simp [Dist.lt] at hle
      | some c =>
        rw [hc] at this hle
        have h1 : d ≤ c := by simpa [Dist.lt] using this
        have h2 : c ≤ d := by simpa [Dist.lt] using hle
        rw [le_antisymm h2 h1]
  · intro v hno
    apply hinv.base.parInf
    cases hv : distAt st.dist v with
    | none => rfl
    | some m => exact absurd ⟨some m, hinv.base.real v m hv⟩ hno

/-- Witness of C14 (amended): the graph `3 2 / 0 1 16777216 / 1 2 1` with the rounding to
`float`, source `0`. -/
theorem dijkstra_parent_tree_witness :
    ∃ N r, (∀ fuel, N ≤ fuel →
        SSSP.dijkstra (roundFloat 0) (SSSP.create 3) graphRound 0 fuel = .ok r) ∧
      parentAt r.parent 0 = -1 ∧
      (∀ v d, v ≠ 0 → distAt r.dist v = some d →
        ∃ w dp, (v, w) ∈ nbrsOf graphRound.adj (parentAt r.parent v) ∧
          distAt r.dist (parentAt r.parent v) = some dp ∧ roundFloat 0 (dp + w) = some d) ∧
      (∀ v, distAt r.dist v = none → parentAt r.parent v = -1) ∧
      (∀ v, (¬ ∃ c, Walk (roundFloat 0) graphRound.adj 0 v c) → parentAt r.parent v = -1) :=
  dijkstra_parent_tree (roundFloat 0) (isRounding_roundFloat 0) graphRound (SSSP.create 3) 0
    (by decide) (by decide) (by decide) (by decide) (by decide) (by decide)

/-- C14 as stated fails: on the graph `3 2 / 0 1 16777216 / 1 2 1`, source `0`, `dijkstra`
returns `parent[2] = 1` and `dist[2] = dist[1] = 16777216`, and the only entry for `2` in
`adj[1]` has weight `1`: `dist[2]` is not `dist[parent[2]] + w` for any stored weight `w`
of the edge `{1, 2}`. -/
theorem dijkstra_parent_sum_is_rounded :
    graphRound.NonNegWeights ∧
    SSSP.dijkstra (roundFloat 0) (SSSP.create 3) graphRound 0 10 =
      .ok { dist := [some 0, some 16777216, some 16777216], parent := [-1, 0, 1] } ∧
    (∀ w : Weight, (2, w) ∈ nbrsOf graphRound.adj 1 → (16777216 : Weight) ≠ 16777216 + w) := by
  refine ⟨by decide, rfl, ?_⟩
  intro w hw
  have : w = 1 := by
    have hl : nbrsOf graphRound.adj 1 = [(0, 16777216), (2, 1)] := rfl
    rw [hl] at hw
    simpa using hw
  rw [this]
  decide

theorem collect_fold (u : Int) (l : List (Int × Weight)) (acc : List Edge) :
    l.foldl (collectStep u) acc = acc ++ edgesOfVertex u l := by
  induction l generalizing acc with
  | nil => simp [edgesOfVertex]
  | cons nb rest ih =>
    rw [List.foldl_cons, ih]
    unfold collectStep edgesOfVertex
    by_cases h : u < nb.1
    · simp [h, List.filter_cons]
    · simp [h, List.filter_cons]

theorem collect_range (adj : List (List (Int × Weight))) (n : Nat) (hn : n ≤ adj.length) :
    (List.range n).foldlM (collectVisit adj) [] =
      some ((List.range n).flatMap (fun u => edgesOfVertex (u : Int) (nbrsOf adj (u : Int)))) := by
  induction n with
  | zero => rfl
  | succ k ih =>
    rw [List.range_succ, List.foldlM_append, ih (by omega)]
    have hk : vecGet adj (k : Int) = some (nbrsOf adj (k : Int)) :=
      vecGet_of_lt adj (k : Int) (by omega) (by omega)
    simp [collectVisit, hk, collect_fold, List.flatMap_append]

theorem countP_range_single (p : Edge → Bool) (F : Nat → List Edge) (k n : Nat)
    (h : ∀ u, u ≠ k → List.countP p (F u) = 0) :
    List.countP p ((List.range n).flatMap F) = if k < n then List.countP p (F k) else 0 := by
  induction n with
  | zero => simp
  | succ m ih =>
    rw [List.range_succ, List.flatMap_append, List.countP_append, ih]
    by_cases hm : m = k
    · subst hm; simp
    · have := h m hm
      have hk : k < m + 1 ↔ k < m := by omega
      simp [this, hk]

theorem count_pushF (f : Int → List (Int × Weight)) (u v : Int) (w : Weight) (x : Int)
    (e : Int × Weight) :
    List.count e (pushF f u v w x) =
      List.count e (f x) + (if u = x ∧ (v, w) = e then 1 else 0)
        + (if v = x ∧ (u, w) = e then 1 else 0) := by
  unfold pushF
  by_cases hv : x = v
  · subst hv
    rw [Function.update_same]
    by_cases hu : x = u
    · subst hu
      rw [Function.update_same]
      rw [List.append_assoc, List.count_append, List.count_append, List.count_singleton]
      simp [Nat.add_assoc]
    · rw [Function.update_noteq hu]
      have hu2 : ¬ u = x := fun h => hu h.symm
      simp [List.count_append, List.count_singleton, hu2]
  · rw [Function.update_noteq hv]
    have hv2 : ¬ v = x := fun h => hv h.symm
    by_cases hu : x = u
    · subst hu
      rw [Function.update_same]
      simp [List.count_append, List.count_singleton, hv2]
    · rw [Function.update_noteq hu]
      have hu2 : ¬ u = x := fun h => hu h.symm
      simp [hu2, hv2]

theorem entryCount_push (adj : List (List (Int × Weight))) (u : Int) (p : Int × Weight)
    (h0 : 0 ≤ u) (h1 : u < adj.length) :
    entryCount (vecSet adj u (nbrsOf adj u ++ [p])) = entryCount adj + 1 := by
  have hlt : u.toNat < adj.length := by omega
  have hn : nbrsOf adj u = adj[u.toNat] := by
    simp [nbrsOf, vecGet, h0, List.getElem?_eq_getElem hlt]
  have := sum_map_set List.length adj u.toNat (nbrsOf adj u ++ [p]) hlt
  rw [← hn] at this
  unfold entryCount vecSet
  simp only [List.length_append, List.length_singleton] at this
  omega

theorem pushBoth_entryCount (adj adj2 : List (List (Int × Weight))) (u v : Int) (w : Weight)
    (h : pushBoth adj u v w = some adj2) : entryCount adj2 = entryCount adj + 2 := by
  unfold pushBoth at h
  cases hu : vecGet adj u with
  | none => rw [hu] at h; simp at h
  | some lu =>
    rw [hu] at h
    simp only at h
    cases hv : vecGet (vecSet adj u (lu ++ [(v, w)])) v with
    | none => rw [hv] at h; simp at h
    | some lv =>
      rw [hv] at h
      simp only [Option.some.injEq] at h
      have r1 := vecGet_some_range _ _ _ hu
      have r2 := vecGet_some_range _ _ _ hv
      have e1 : lu = nbrsOf adj u := by simp [nbrsOf, hu]
      have e2 : lv = nbrsOf (vecSet adj u (lu ++ [(v, w)])) v := by simp [nbrsOf, hv]
      have c1 := entryCount_push adj u (v, w) r1.1 r1.2
      have c2 := entryCount_push (vecSet adj u (lu ++ [(v, w)])) v (u, w) r2.1 r2.2
      rw [← e1] at c1
      rw [← e2] at c2
      rw [← h, c2, c1]

theorem rebuild_fold (edges : List Edge) (adj : List (List (Int × Weight)))
    (h : ∀ ed ∈ edges, (0 ≤ ed.u ∧ ed.u < adj.length) ∧ (0 ≤ ed.v ∧ ed.v < adj.length)) :
    ∃ adj2, edges.foldlM rebuildStep adj = some adj2 ∧ adj2.length = adj.length ∧
      (∀ (x : Int) (e : Int × Weight), List.count e (nbrsOf adj2 x) =
        List.count e (nbrsOf adj x)
          + List.countP (fun ed => decide (ed.u = x ∧ (ed.v, ed.weight) = e)) edges
          + List.countP (fun ed => decide (ed.v = x ∧ (ed.u, ed.weight) = e)) edges) ∧
      entryCount adj2 = entryCount adj + 2 * edges.length := by
  induction edges generalizing adj with
  | nil => exact ⟨adj, rfl, rfl, by simp, by simp⟩
  | cons ed rest ih =>
    have hed := h ed (List.mem_cons_self _ _)
    obtain ⟨adj1, h1, hl1, hn1⟩ := pushBoth_spec adj ed.u ed.v ed.weight hed.1 hed.2
    have hc1 := pushBoth_entryCount adj adj1 ed.u ed.v ed.weight h1
    obtain ⟨adj2, h2, hl2, hn2, hc2⟩ := ih adj1 (by
      intro e2 he2
      rw [hl1]
      exact h e2 (List.mem_cons_of_mem _ he2))
    refine ⟨adj2, ?_, by rw [hl2, hl1], ?_, ?_⟩
    · rw [List.foldlM_cons]
      show (rebuildStep adj ed).bind _ = _
      unfold rebuildStep
      rw [h1]
      exact h2
    · intro x e
      rw [hn2 x e, hn1, count_pushF, List.countP_cons, List.countP_cons]
      simp only [decide_eq_true_eq]
      omega
    · rw [hc2, hc1, List.length_cons]
      omega

theorem countP_edgesOfVertex_u (u x : Int) (e : Int × Weight) (l : List (Int × Weight)) :
    List.countP (fun ed => decide (ed.u = x ∧ (ed.v, ed.weight) = e)) (edgesOfVertex u l) =
      if u = x ∧ u < e.1 then List.count e l else 0 := by
  induction l with
  | nil => simp [edgesOfVertex]
  | cons nb rest ih =>
    have hcons : edgesOfVertex u (nb :: rest) =
        (if u < nb.1 then [(⟨u, nb.1, nb.2⟩ : Edge)] else []) ++ edgesOfVertex u rest := by
      unfold edgesOfVertex
      by_cases h : u < nb.1 <;> simp [List.filter_cons, h]
    rw [hcons, List.countP_append, ih, List.count_cons]
    by_cases hux : u = x
    · subst hux
      by_cases hnb : nb = e
      · subst hnb
        by_cases hlt : u < nb.1 <;> simp [hlt, Nat.add_comm]
      · have hne : ¬ (nb.1, nb.2) = e := hnb
        by_cases hlt : u < nb.1 <;> simp [hlt, hnb, hne]
    · by_cases hlt : u < nb.1 <;> simp [hux, hlt]

theorem countP_edgesOfVertex_v (u x : Int) (e : Int × Weight) (l : List (Int × Weight)) :
    List.countP (fun ed => decide (ed.v = x ∧ (ed.u, ed.weight) = e)) (edgesOfVertex u l) =
      if u = e.1 ∧ u < x then List.count (x, e.2) l else 0 := by
  induction l with
  | nil => simp [edgesOfVertex]
  | cons nb rest ih =>
    have hcons : edgesOfVertex u (nb :: rest) =
        (if u < nb.1 then [(⟨u, nb.1, nb.2⟩ : Edge)] else []) ++ edgesOfVertex u rest := by
      unfold edgesOfVertex
      by_cases h : u < nb.1 <;> simp [List.filter_cons, h]
    rw [hcons, List.countP_append, ih, List.count_cons]
    obtain ⟨e1, e2⟩ := e
    obtain ⟨n1, n2⟩ := nb
    simp only
    by_cases hue : u = e1
    · subst hue
      by_cases hnx : n1 = x
      · subst hnx
        by_cases hw : n2 = e2
        · subst hw
          by_cases hlt : u < n1 <;> simp [hlt, Nat.add_comm]
        · by_cases hlt : u < n1 <;> simp [hlt, hw]
      · by_cases hlt : u < n1 <;> simp [hlt, hnx]
    · by_cases hlt : u < n1 <;> simp [hlt, hue]

theorem entryCount_replicate_nil (n : Nat) :
    entryCount (List.replicate n ([] : List (Int × Weight))) = 0 := by
  induction n with
  | zero => rfl
  | succ k ih =>
    unfold entryCount at ih ⊢
    simp [List.replicate_succ, ih]

theorem countP_all_u (adj : List (List (Int × Weight))) (x : Int) (e : Int × Weight) :
    List.countP (fun ed => decide (ed.u = x ∧ (ed.v, ed.weight) = e))
        ((List.range adj.length).flatMap
          (fun u => edgesOfVertex (u : Int) (nbrsOf adj (u : Int)))) =
      if x < e.1 then List.count e (nbrsOf adj x) else 0 := by
  have hz : ∀ u : Nat, (u : Int) ≠ x →
      List.countP (fun ed => decide (ed.u = x ∧ (ed.v, ed.weight) = e))
        (edgesOfVertex (u : Int) (nbrsOf adj (u : Int))) = 0 := by
    intro u hu
    rw [countP_edgesOfVertex_u, if_neg (fun h => hu h.1)]
  by_cases hx0 : 0 ≤ x
  · rw [countP_range_single _ _ x.toNat adj.length (fun u hu => hz u (by omega))]
    have hk : ((x.toNat : Nat) : Int) = x := by omega
    by_cases hx : x < adj.length
    · rw [if_pos (by omega), countP_edgesOfVertex_u, hk]
      simp
    · rw [if_neg (by omega), nbrsOf_of_not adj x (fun h => hx h.2)]
      simp
  · rw [countP_range_single _ _ adj.length adj.length (fun u hu => hz u (by omega))]
    rw [if_neg (by omega), nbrsOf_of_not adj x (fun h => hx0 h.1)]
    simp

theorem countP_all_v (adj : List (List (Int × Weight))) (x : Int) (e : Int × Weight) :
    List.countP (fun ed => decide (ed.v = x ∧ (ed.u, ed.weight) = e))
        ((List.range adj.length).flatMap
          (fun u => edgesOfVertex (u : Int) (nbrsOf adj (u : Int)))) =
      if e.1 < x then List.count (x, e.2) (nbrsOf adj e.1) else 0 := by
  have hz : ∀ u : Nat, (u : Int) ≠ e.1 →
      List.countP (fun ed => decide (ed.v = x ∧ (ed.u, ed.weight) = e))
        (edgesOfVertex (u : Int) (nbrsOf adj (u : Int))) = 0 := by
    intro u hu
    rw [countP_edgesOfVertex_v, if_neg (fun h => hu h.1)]
  by_cases hx0 : 0 ≤ e.1
  · rw [countP_range_single _ _ e.1.toNat adj.length (fun u hu => hz u (by omega))]
    have hk : ((e.1.toNat : Nat) : Int) = e.1 := by omega
    by_cases hx : e.1 < adj.length
    · rw [if_pos (by omega), countP_edgesOfVertex_v, hk]
      simp
    · rw [if_neg (by omega), nbrsOf_of_not adj e.1 (fun h => hx h.2)]
      simp
  · rw [countP_range_single _ _ adj.length adj.length (fun u hu => hz u (by omega))]
    rw [if_neg (by omega), nbrsOf_of_not adj e.1 (fun h => hx0 h.1)]
    simp

theorem mem_edges_inRange (g : Graph) (hsym : g.Symmetric) (ed : Edge)
    (h : ed ∈ (List.range g.adj.length).flatMap
      (fun u => edgesOfVertex (u : Int) (nbrsOf g.adj (u : Int)))) :
    (0 ≤ ed.u ∧ ed.u < g.adj.length) ∧ (0 ≤ ed.v ∧ ed.v < g.adj.length) := by
  rw [List.mem_flatMap] at h
  obtain ⟨u, hu, hmem⟩ := h
  rw [List.mem_range] at hu
  unfold edgesOfVertex at hmem
  rw [List.mem_map] at hmem
  obtain ⟨nb, hnb, rfl⟩ := hmem
  have hnb2 := (List.mem_filter.1 hnb).1
  refine ⟨⟨by simp, by simp; exact hu⟩, ?_⟩
  have hc : 0 < List.count (nb.1, nb.2) (g.nbrs (u : Int)) := List.count_pos_iff.2 hnb2
  rw [hsym] at hc
  exact mem_nbrsOf_inRange g.adj nb.1 _ (List.count_pos_iff.1 hc)

theorem count_decEq (e : Int × Weight) (l : List (Int × Weight)) :
    @List.count _ instBEqOfDecidableEq e l = List.count e l := by
  induction l with
  | nil => rfl
  | cons a t ih =>
    have hb : (@BEq.beq _ instBEqOfDecidableEq a e) = (a == e) := by
      show decide (a = e) = (a == e)
      by_cases h : a = e
      · subst h; simp
      · simp [h]
    rw [@List.count_cons _ instBEqOfDecidableEq, @List.count_cons _ instBEqProd, ih, hb]

theorem sum_length_eq_of_count (a b : List (List (Int × Weight))) (hlen : a.length = b.length)
    (h : ∀ (x : Int) (e : Int × Weight), List.count e (nbrsOf a x) = List.count e (nbrsOf b x)) :
    entryCount a = entryCount b := by
  have hmap : a.map List.length = b.map List.length := by
    apply List.ext_getElem (by simp [hlen])
    intro i h1 h2
    simp only [List.length_map] at h1 h2
    have hp : (nbrsOf a (i : Int)).Perm (nbrsOf b (i : Int)) :=
      List.perm_iff_count.2 (fun e => by rw [count_decEq, count_decEq]; exact h (i : Int) e)
    have := hp.length_eq
    simpa [nbrsOf, vecGet, List.getElem?_eq_getElem h1, List.getElem?_eq_getElem h2] using this
  unfold entryCount
  rw [hmap]

theorem rebroadcast_core (root worker : Graph) (hV : worker.V = root.V) (hwf : root.WF)
    (hsym : root.Symmetric) (hns : root.NoSelfLoops) :
    ∃ g2, rebroadcast root worker = some g2 ∧ g2.adj.length = root.adj.length ∧
      g2.V = root.V ∧
      (∀ (x : Int) (e : Int × Weight), List.count e (g2.nbrs x) = List.count e (root.nbrs x)) ∧
      2 * g2.E = (entryCount root.adj : Int) := by
  have hVn : root.V.toNat = root.adj.length := by unfold Graph.WF at hwf; omega
  have hb := collect_range root.adj root.adj.length (le_refl _)
  have hr := mem_edges_inRange root hsym
  have cu := countP_all_u root.adj
  have cv := countP_all_v root.adj
  generalize (List.range root.adj.length).flatMap
      (fun u => edgesOfVertex (u : Int) (nbrsOf root.adj (u : Int))) = L at hb hr cu cv
  obtain ⟨adj2, h2, hl2, hn2, hc2⟩ := rebuild_fold L (List.replicate root.adj.length [])
    (by
      intro ed hed
      rw [List.length_replicate]
      exact hr ed hed)
  rw [List.length_replicate] at hl2
  have hcount : ∀ (x : Int) (e : Int × Weight),
      List.count e (nbrsOf adj2 x) = List.count e (root.nbrs x) := by
    intro x e
    rw [hn2 x e, nbrsOf_replicate_nil, cu, cv]
    have hs := hsym e.1 x e.2
    unfold Graph.nbrs at hs ⊢
    rw [hs]
    rcases lt_trichotomy x e.1 with h | h | h
    · simp [h, not_lt.mpr (le_of_lt h)]
    · have hzero : List.count e (nbrsOf root.adj x) = 0 := by
        rw [List.count_eq_zero]
        intro hmem
        have hr := mem_nbrsOf_inRange root.adj x e hmem
        have hk : ((x.toNat : Nat) : Int) = x := by omega
        have := hns x.toNat (List.mem_range.2 (by omega)) e (by
          unfold Graph.nbrs; rw [hk]; exact hmem)
        rw [hk] at this
        exact this h.symm
      rw [← h]
      simp [hzero]
    · simp [h, not_lt.mpr (le_of_lt h)]
  refine ⟨{ worker with adj := adj2, edges := L, E := (L.length : Int) }, ?_, hl2, hV, hcount, ?_⟩
  · unfold rebroadcast buildEdgeList
    rw [hVn, hb]
    simp only
    unfold rebuildGraph
    rw [hV, hVn, h2]
  · simp only
    have := sum_length_eq_of_count adj2 root.adj hl2 hcount
    rw [hc2, entryCount_replicate_nil] at this
    omega

/-! ## Claim on the rebroadcast of the updated graph -/

/-- C18 (amended): for every state `root` held by rank 0 whose adjacency has `V` lists, is
undirected and has no self-loop entry, and every worker state with the same `V`, the
rebroadcast of `main` completes on the worker; the rebuilt adjacency has `V` lists and, for
every vertex, the same multiset of (neighbour, weight) entries as the adjacency of rank 0;
the edge count `E` of the worker is the number of undirected edges stored on rank 0 (half
the number of adjacency entries), so it equals the `E` of rank 0 exactly when that `E` is
the number of stored edges. -/
theorem rebroadcast_preserves_graph (root worker : Graph) (hV : worker.V = root.V)
    (hwf : root.WF) (hsym : root.Symmetric) (hns : root.NoSelfLoops) :
    ∃ g2, rebroadcast root worker = some g2 ∧ g2.WF ∧
      (∀ (x : Int) (e : Int × Weight), List.count e (g2.nbrs x) = List.count e (root.nbrs x)) ∧
      2 * g2.E = (entryCount root.adj : Int) ∧
      (g2.E = root.E ↔ 2 * root.E = (entryCount root.adj : Int)) := by
  obtain ⟨g2, h1, hl, hv, hc, he⟩ := rebroadcast_core root worker hV hwf hsym hns
  refine ⟨g2, h1, ?_, hc, he, ?_⟩
  · unfold Graph.WF at hwf ⊢
    rw [hl, hv]
    exact hwf
  · constructor
    · intro h
      rw [← h]
      exact he
    · intro h
      omega

/-- C18, instance of the amended statement: rank 0 holds `sampleUpdated`, the worker a
state with the same `V`. -/
theorem rebroadcast_preserves_graph_witness :
    sampleGraph.V = sampleUpdated.V ∧ sampleUpdated.WF ∧ sampleUpdated.Symmetric ∧
      sampleUpdated.NoSelfLoops ∧
      ∃ g2, rebroadcast sampleUpdated sampleGraph = some g2 ∧ g2.WF ∧
        (∀ (x : Int) (e : Int × Weight),
          List.count e (g2.nbrs x) = List.count e (sampleUpdated.nbrs x)) ∧
        2 * g2.E = (entryCount sampleUpdated.adj : Int) ∧
        (g2.E = sampleUpdated.E ↔ 2 * sampleUpdated.E = (entryCount sampleUpdated.adj : Int)) :=
  ⟨by decide, by decide, symmetric_of_symCheck _ (by decide), by decide,
    rebroadcast_preserves_graph sampleUpdated sampleGraph (by decide) (by decide)
      (symmetric_of_symCheck _ (by decide)) (by decide)⟩

/-- C18, counterexample: on the graph loaded from a file that lists the pair `{0, 1}`
twice, the deletion record `(0, 1, -1)` erases both entries and decrements `E` once, so
rank 0 holds `E = 1` with an empty adjacency; the rebroadcast sends an empty edge list and
the worker ends with `E = 0`. -/
theorem rebroadcast_edge_count_differs :
    applyUpdates parallelGraph [⟨0, 1, -1⟩] = some parallelDeleted ∧
      rebroadcast parallelDeleted parallelDeleted =
        some { parallelDeleted with edges := [], E := 0 } ∧
      parallelDeleted.E = 1 := by
  refine ⟨by decide, by decide, by decide⟩

end PDC
